import Mathlib

/-!
# Verification of grad.h, a single-header automatic-differentiation library

The C source (src/grad.h) implements two independent AD engines:

* a forward-mode engine: each `grad_forward_t` carries a value and a dense
  array `derivative[GRAD_FORWARD_TAPE_SIZE]` of partials with respect to the
  seed variables created by `grad_forward_init` in the current scope;
* a reverse-mode engine: a global fixed-size tape `grad_reverse_tape` of
  `grad_reverse_t` nodes, each holding a value, an adjoint (`derivative`),
  an operation tag and operand pointers; `grad_reverse_backward` replays the
  tape from the last live index down to zero accumulating adjoints.

The embedding below models `grad_real_t` by `ℝ`, C arrays by functions out of
`ℕ` (indices beyond the array length do not exist in C and are kept at the
zero the `{0}` initializer would give), pointers into the global tape by tape
indices, the global counters by explicitly threaded state, and the fatal
`assert` capacity checks by `Option` (a `none` result is the abort).
-/

set_option maxHeartbeats 1000000
set_option linter.unusedVariables false

/-- `#define GRAD_FORWARD_TAPE_SIZE 64` (the default). -/
def GRAD_FORWARD_TAPE_SIZE : ℕ := 64

/-- `#define GRAD_REVERSE_TAPE_SIZE 64` (the default). -/
def GRAD_REVERSE_TAPE_SIZE : ℕ := 64

/-- `struct grad_forward_t`.  The C member `grad_real_t
derivative[GRAD_FORWARD_TAPE_SIZE]` is modelled as a total function
`ℕ → ℝ`; entries at indices `≥ GRAD_FORWARD_TAPE_SIZE` do not exist in the C
array and stay `0` in every value the model constructs. -/
structure grad_forward_t where
  id : ℕ
  value : ℝ
  derivative : ℕ → ℝ

/-- The all-zero struct `grad_forward_t result = {0}`. -/
noncomputable def fwdZeroStruct : grad_forward_t :=
  { id := 0, value := 0, derivative := fun _ => 0 }

/-- `grad_forward_init`: asserts `grad_forward_current_id <
GRAD_FORWARD_TAPE_SIZE` (modelled by returning `none`, the aborted run),
zero-initializes the result, sets `value`, `id := current`, and
`derivative[current] := 1`, then increments the global counter.  The counter
is the threaded `cur` argument; the new counter is returned. -/
noncomputable def grad_forward_init (value : ℝ) (cur : ℕ) :
    Option (grad_forward_t × ℕ) :=
  if cur < GRAD_FORWARD_TAPE_SIZE then
    some ({ fwdZeroStruct with
              value := value
              id := cur
              derivative := Function.update (fun _ => (0 : ℝ)) cur 1 },
          cur + 1)
  else
    none

/-- `grad_forward_add`: value is the sum; the derivative entries below the
current counter `cur` are summed elementwise, the rest stay the `{0}` of the
zero-initialized result. -/
noncomputable def grad_forward_add (cur : ℕ) (left right : grad_forward_t) :
    grad_forward_t :=
  { fwdZeroStruct with
      value := left.value + right.value
      derivative := fun i =>
        if i < cur then left.derivative i + right.derivative i else 0 }

/-- `grad_forward_add_c`: adds a constant to the value and `memcpy`s all
`GRAD_FORWARD_TAPE_SIZE` derivative entries. -/
noncomputable def grad_forward_add_c (grad : grad_forward_t) (c : ℝ) :
    grad_forward_t :=
  { fwdZeroStruct with
      value := grad.value + c
      derivative := fun i =>
        if i < GRAD_FORWARD_TAPE_SIZE then grad.derivative i else 0 }

/-- `grad_forward_mul`: product rule applied to every entry below `cur`. -/
noncomputable def grad_forward_mul (cur : ℕ) (left right : grad_forward_t) :
    grad_forward_t :=
  { fwdZeroStruct with
      value := left.value * right.value
      derivative := fun i =>
        if i < cur then
          left.derivative i * right.value + left.value * right.derivative i
        else 0 }

/-- `grad_forward_mul_c`. -/
noncomputable def grad_forward_mul_c (cur : ℕ) (grad : grad_forward_t)
    (c : ℝ) : grad_forward_t :=
  { fwdZeroStruct with
      value := grad.value * c
      derivative := fun i => if i < cur then c * grad.derivative i else 0 }

/-- `grad_forward_inv`: `value = 1/v`, and each derivative entry is
`-d_i * inv_sq` with `inv_sq = 1/(v*v)`. -/
noncomputable def grad_forward_inv (cur : ℕ) (grad : grad_forward_t) :
    grad_forward_t :=
  { fwdZeroStruct with
      value := 1 / grad.value
      derivative := fun i =>
        if i < cur then
          -grad.derivative i * (1 / (grad.value * grad.value))
        else 0 }

/-- `grad_forward_div` is `mul(left, inv(right))`. -/
noncomputable def grad_forward_div (cur : ℕ) (left right : grad_forward_t) :
    grad_forward_t :=
  grad_forward_mul cur left (grad_forward_inv cur right)

/-- `grad_forward_neg` is `mul_c(grad, -1)`. -/
noncomputable def grad_forward_neg (cur : ℕ) (grad : grad_forward_t) :
    grad_forward_t :=
  grad_forward_mul_c cur grad (-1)

/-- `grad_forward_sub` is `add(left, neg(right))`. -/
noncomputable def grad_forward_sub (cur : ℕ) (left right : grad_forward_t) :
    grad_forward_t :=
  grad_forward_add cur left (grad_forward_neg cur right)

/-- `grad_forward_exp`: `value = exp v`, `d_i := value * d_i`. -/
noncomputable def grad_forward_exp (cur : ℕ) (grad : grad_forward_t) :
    grad_forward_t :=
  { fwdZeroStruct with
      value := Real.exp grad.value
      derivative := fun i =>
        if i < cur then Real.exp grad.value * grad.derivative i else 0 }

/-- `grad_forward_log`: `value = log v`, `d_i := (1/v) * d_i`. -/
noncomputable def grad_forward_log (cur : ℕ) (grad : grad_forward_t) :
    grad_forward_t :=
  { fwdZeroStruct with
      value := Real.log grad.value
      derivative := fun i =>
        if i < cur then 1 / grad.value * grad.derivative i else 0 }

/-- `grad_forward_sin`: `value = sin v`, `d_i := cos v * d_i`. -/
noncomputable def grad_forward_sin (cur : ℕ) (grad : grad_forward_t) :
    grad_forward_t :=
  { fwdZeroStruct with
      value := Real.sin grad.value
      derivative := fun i =>
        if i < cur then Real.cos grad.value * grad.derivative i else 0 }

/-- `grad_forward_cos`: `value = cos v`, `d_i := -sin v * d_i`. -/
noncomputable def grad_forward_cos (cur : ℕ) (grad : grad_forward_t) :
    grad_forward_t :=
  { fwdZeroStruct with
      value := Real.cos grad.value
      derivative := fun i =>
        if i < cur then -Real.sin grad.value * grad.derivative i else 0 }

/-- `grad_forward_tan` is `div(sin(grad), cos(grad))`. -/
noncomputable def grad_forward_tan (cur : ℕ) (grad : grad_forward_t) :
    grad_forward_t :=
  grad_forward_div cur (grad_forward_sin cur grad) (grad_forward_cos cur grad)

/-- `grad_forward_sqrt`: `value = sqrt v`, `d_i := (0.5/value) * d_i`. -/
noncomputable def grad_forward_sqrt (cur : ℕ) (grad : grad_forward_t) :
    grad_forward_t :=
  { fwdZeroStruct with
      value := Real.sqrt grad.value
      derivative := fun i =>
        if i < cur then 0.5 / Real.sqrt grad.value * grad.derivative i
        else 0 }

/-- `grad_forward_pow` with constant exponent: `value = v ^ e` (C `powf`,
modelled by `Real.rpow`), `d_i := e * v^(e-1) * d_i`. -/
noncomputable def grad_forward_pow (cur : ℕ) (grad : grad_forward_t)
    (e : ℝ) : grad_forward_t :=
  { fwdZeroStruct with
      value := grad.value ^ e
      derivative := fun i =>
        if i < cur then e * grad.value ^ (e - 1) * grad.derivative i
        else 0 }

/-! ## Reverse-mode data model -/

/-- `enum grad_reverse_op_t`. -/
inductive grad_reverse_op_t where
  | NONE
  | ADD
  | MUL
  | NEG
  | INV
  | SIN
  | COS
  | EXP
  | LOG
deriving DecidableEq, Repr

/-- `struct grad_reverse_t`; the operand pointers `left`/`right` become tape
indices (the C pointers are always `&grad_reverse_tape[k]` for some `k`). -/
structure grad_reverse_t where
  value : ℝ
  derivative : ℝ
  operation : grad_reverse_op_t
  left : ℕ
  right : ℕ

/-- The global reverse-engine state: the tape array (a total function; the C
array has `GRAD_REVERSE_TAPE_SIZE` cells and every constructed index stays
below that bound) and `grad_reverse_current_id`. -/
structure RevState where
  tape : ℕ → grad_reverse_t
  current_id : ℕ

/-- `grad_reverse_start_scope`: resets the counter, keeps the tape storage
(with whatever stale nodes it holds). -/
def grad_reverse_start_scope (s : RevState) : RevState :=
  { s with current_id := 0 }

/-- `grad_reverse_init`: asserts capacity (`none` = aborted run), takes the
cell at the current counter, bumps the counter, and sets `value`,
`operation := NONE`, `derivative := 0` of that cell.  The fields `left` and
`right` are NOT written: a leaf keeps whatever stale pointers the reused cell
held. Returns the node's index (the C pointer). -/
noncomputable def grad_reverse_init (value : ℝ) (s : RevState) :
    Option (ℕ × RevState) :=
  if s.current_id < GRAD_REVERSE_TAPE_SIZE then
    some (s.current_id,
      { tape := Function.update s.tape s.current_id
          { s.tape s.current_id with
              value := value
              operation := .NONE
              derivative := 0 }
        current_id := s.current_id + 1 })
  else
    none

/-- Helper for the construction functions: overwrite the fields of the node
at index `r` with `f` applied to the current cell (the C `result->... = ...`
assignments). -/
def setNode (s : RevState) (r : ℕ)
    (f : grad_reverse_t → grad_reverse_t) : RevState :=
  { s with tape := Function.update s.tape r (f (s.tape r)) }

/-- `grad_reverse_add`: `init(left->value + right->value)` then set
`operation/left/right`. -/
noncomputable def grad_reverse_add (li ri : ℕ) (s : RevState) :
    Option (ℕ × RevState) :=
  match grad_reverse_init ((s.tape li).value + (s.tape ri).value) s with
  | none => none
  | some (r, s1) =>
      some (r, setNode s1 r fun nd =>
        { nd with operation := .ADD, left := li, right := ri })

/-- `grad_reverse_mul`. -/
noncomputable def grad_reverse_mul (li ri : ℕ) (s : RevState) :
    Option (ℕ × RevState) :=
  match grad_reverse_init ((s.tape li).value * (s.tape ri).value) s with
  | none => none
  | some (r, s1) =>
      some (r, setNode s1 r fun nd =>
        { nd with operation := .MUL, left := li, right := ri })

/-- `grad_reverse_neg`: unary, only `left` is set (the `right` of the reused
cell stays stale). -/
noncomputable def grad_reverse_neg (gi : ℕ) (s : RevState) :
    Option (ℕ × RevState) :=
  match grad_reverse_init (-(s.tape gi).value) s with
  | none => none
  | some (r, s1) =>
      some (r, setNode s1 r fun nd => { nd with operation := .NEG, left := gi })

/-- `grad_reverse_inv`. -/
noncomputable def grad_reverse_inv (gi : ℕ) (s : RevState) :
    Option (ℕ × RevState) :=
  match grad_reverse_init (1 / (s.tape gi).value) s with
  | none => none
  | some (r, s1) =>
      some (r, setNode s1 r fun nd => { nd with operation := .INV, left := gi })

/-- `grad_reverse_sub` is `add(left, neg(right))`: it records an intermediate
NEG node, then the combining ADD node. -/
noncomputable def grad_reverse_sub (li ri : ℕ) (s : RevState) :
    Option (ℕ × RevState) :=
  match grad_reverse_neg ri s with
  | none => none
  | some (nr, s1) => grad_reverse_add li nr s1

/-- `grad_reverse_div` is `mul(left, inv(right))`: an intermediate INV node,
then the combining MUL node. -/
noncomputable def grad_reverse_div (li ri : ℕ) (s : RevState) :
    Option (ℕ × RevState) :=
  match grad_reverse_inv ri s with
  | none => none
  | some (ir, s1) => grad_reverse_mul li ir s1

/-- `grad_reverse_sin`. -/
noncomputable def grad_reverse_sin (gi : ℕ) (s : RevState) :
    Option (ℕ × RevState) :=
  match grad_reverse_init (Real.sin (s.tape gi).value) s with
  | none => none
  | some (r, s1) =>
      some (r, setNode s1 r fun nd => { nd with operation := .SIN, left := gi })

/-- `grad_reverse_cos`. -/
noncomputable def grad_reverse_cos (gi : ℕ) (s : RevState) :
    Option (ℕ × RevState) :=
  match grad_reverse_init (Real.cos (s.tape gi).value) s with
  | none => none
  | some (r, s1) =>
      some (r, setNode s1 r fun nd => { nd with operation := .COS, left := gi })

/-- `grad_reverse_exp`. -/
noncomputable def grad_reverse_exp (gi : ℕ) (s : RevState) :
    Option (ℕ × RevState) :=
  match grad_reverse_init (Real.exp (s.tape gi).value) s with
  | none => none
  | some (r, s1) =>
      some (r, setNode s1 r fun nd => { nd with operation := .EXP, left := gi })

/-- `grad_reverse_log`. -/
noncomputable def grad_reverse_log (gi : ℕ) (s : RevState) :
    Option (ℕ × RevState) :=
  match grad_reverse_init (Real.log (s.tape gi).value) s with
  | none => none
  | some (r, s1) =>
      some (r, setNode s1 r fun nd => { nd with operation := .LOG, left := gi })

/-! ## The backward pass -/

/-- One C statement `tape[k].derivative += c`. -/
noncomputable def addD (t : ℕ → grad_reverse_t) (k : ℕ) (c : ℝ) :
    ℕ → grad_reverse_t :=
  Function.update t k { t k with derivative := (t k).derivative + c }

/-- The cases of the `switch` in the backward loop's body at tape index `i`,
split on the scrutinee `tape[i].operation`: propagate `tape[i].derivative`
to the operand(s).  Each C statement re-reads memory after the previous one,
exactly as the source does (`t1` is the memory after the first `+=`). -/
noncomputable def stepOp (t : ℕ → grad_reverse_t) (i : ℕ) :
    grad_reverse_op_t → (ℕ → grad_reverse_t)
  | .NONE => t
  | .ADD =>
      let t1 := addD t (t i).left (t i).derivative
      addD t1 ((t1 i).right) ((t1 i).derivative)
  | .MUL =>
      let t1 := addD t (t i).left ((t (t i).right).value * (t i).derivative)
      addD t1 ((t1 i).right) ((t1 ((t1 i).left)).value * (t1 i).derivative)
  | .NEG => addD t (t i).left (-1 * (t i).derivative)
  | .INV =>
      addD t (t i).left
        (-(t i).derivative / ((t (t i).left).value * (t (t i).left).value))
  | .SIN => addD t (t i).left (Real.cos (t (t i).left).value * (t i).derivative)
  | .COS => addD t (t i).left (-Real.sin (t (t i).left).value * (t i).derivative)
  | .EXP => addD t (t i).left (Real.exp (t (t i).left).value * (t i).derivative)
  | .LOG => addD t (t i).left ((t i).derivative / (t (t i).left).value)

/-- The body of the backward loop at tape index `i`: the `switch` on
`tape[i].operation`. -/
noncomputable def stepNode (t : ℕ → grad_reverse_t) (i : ℕ) :
    ℕ → grad_reverse_t :=
  stepOp t i (t i).operation

/-- The backward `for` loop run over indices `n-1, n-2, …, 0`. -/
noncomputable def backLoop : (ℕ → grad_reverse_t) → ℕ → (ℕ → grad_reverse_t)
  | t, 0 => t
  | t, n + 1 => backLoop (stepNode t n) n

/-- The first loop of `grad_reverse_backward`: zero the adjoint of every
live node (indices `< n`). -/
noncomputable def zeroBelow (t : ℕ → grad_reverse_t) (n : ℕ) :
    ℕ → grad_reverse_t :=
  fun k => if k < n then { t k with derivative := 0 } else t k

/-- `grad_reverse_backward(output)`: zero live adjoints, seed
`output->derivative = 1.0`, then run the loop from the top live index down
to zero. -/
noncomputable def grad_reverse_backward (output : ℕ) (s : RevState) :
    RevState :=
  let t0 := zeroBelow s.tape s.current_id
  let t1 := Function.update t0 output { t0 output with derivative := 1 }
  { s with tape := backLoop t1 s.current_id }

/-! ## Node shapes, the tape invariant, and the chain rule over the graph

The backward pass reads and writes only the `derivative` field; the
remaining fields — value, operation tag, operand indices — are a node's
*shape*.  The reference notion of "partial derivative computed by the chain
rule over the recorded graph" depends only on shapes. -/

/-- A reverse node without its adjoint: value, operation tag, operand
indices. -/
structure NodeShape where
  value : ℝ
  operation : grad_reverse_op_t
  left : ℕ
  right : ℕ

/-- The shape of a node. -/
def grad_reverse_t.shape (nd : grad_reverse_t) : NodeShape :=
  { value := nd.value, operation := nd.operation,
    left := nd.left, right := nd.right }

/-- The shapes of all tape cells of a state. -/
def RevState.shapes (s : RevState) : ℕ → NodeShape :=
  fun k => (s.tape k).shape

/-- The topological tape invariant: every operand reference of a live node
points to a strictly smaller tape index.  A `NONE` leaf has no operand
references, a unary node only its `left` one (its `right` field is a stale
leftover and is never read). -/
def TapeInv (m : ℕ → NodeShape) (n : ℕ) : Prop :=
  ∀ i, i < n →
    match (m i).operation with
    | .NONE => True
    | .ADD => (m i).left < i ∧ (m i).right < i
    | .MUL => (m i).left < i ∧ (m i).right < i
    | .NEG => (m i).left < i
    | .INV => (m i).left < i
    | .SIN => (m i).left < i
    | .COS => (m i).left < i
    | .EXP => (m i).left < i
    | .LOG => (m i).left < i

/-- Modelled from the spec: `dval m i j` is the partial derivative of node
`i`'s value with respect to node `j`'s value, computed by the chain rule
over the recorded graph, using the local partial of each operation (the
spec's adjoint-propagation table).  The guards `… < i` mirror the
topological invariant; when a (never constructed) malformed reference
violates them the contribution is `0`. -/
noncomputable def dval (m : ℕ → NodeShape) (i j : ℕ) : ℝ :=
  if i = j then 1
  else
    match (m i).operation with
    | .NONE => 0
    | .ADD =>
        (if h : (m i).left < i then dval m (m i).left j else 0) +
        (if h : (m i).right < i then dval m (m i).right j else 0)
    | .MUL =>
        (m (m i).right).value *
          (if h : (m i).left < i then dval m (m i).left j else 0) +
        (m (m i).left).value *
          (if h : (m i).right < i then dval m (m i).right j else 0)
    | .NEG => -(if h : (m i).left < i then dval m (m i).left j else 0)
    | .INV =>
        -(if h : (m i).left < i then dval m (m i).left j else 0) /
          ((m (m i).left).value * (m (m i).left).value)
    | .SIN =>
        Real.cos (m (m i).left).value *
          (if h : (m i).left < i then dval m (m i).left j else 0)
    | .COS =>
        -Real.sin (m (m i).left).value *
          (if h : (m i).left < i then dval m (m i).left j else 0)
    | .EXP =>
        Real.exp (m (m i).left).value *
          (if h : (m i).left < i then dval m (m i).left j else 0)
    | .LOG =>
        (if h : (m i).left < i then dval m (m i).left j else 0) /
          (m (m i).left).value
termination_by i

/-- `OperandRef m i o`: live node `i` holds an operand reference to node
`o` (according to its operation's arity). -/
inductive OperandRef (m : ℕ → NodeShape) : ℕ → ℕ → Prop where
  | left (i : ℕ) : (m i).operation ≠ .NONE → OperandRef m i ((m i).left)
  | right (i : ℕ) : ((m i).operation = .ADD ∨ (m i).operation = .MUL) →
      OperandRef m i ((m i).right)

/-- `Reaches m i j`: node `j` is reachable from node `i` along operand
references (reflexively). -/
def Reaches (m : ℕ → NodeShape) : ℕ → ℕ → Prop :=
  Relation.ReflTransGen (OperandRef m)

/-! ## Construction steps: tapes built in the current scope -/

/-- One construction call of the reverse engine in the current scope: an
`init`, or one of the recording operations applied to operand pointers
that were previously returned in this scope (hence: indices below the
current counter). -/
inductive RevStep : RevState → RevState → Prop where
  | init (v : ℝ) (r : ℕ) (s s' : RevState) :
      grad_reverse_init v s = some (r, s') → RevStep s s'
  | add (li ri r : ℕ) (s s' : RevState) :
      li < s.current_id → ri < s.current_id →
      grad_reverse_add li ri s = some (r, s') → RevStep s s'
  | mul (li ri r : ℕ) (s s' : RevState) :
      li < s.current_id → ri < s.current_id →
      grad_reverse_mul li ri s = some (r, s') → RevStep s s'
  | neg (gi r : ℕ) (s s' : RevState) :
      gi < s.current_id →
      grad_reverse_neg gi s = some (r, s') → RevStep s s'
  | inv (gi r : ℕ) (s s' : RevState) :
      gi < s.current_id →
      grad_reverse_inv gi s = some (r, s') → RevStep s s'
  | sub (li ri r : ℕ) (s s' : RevState) :
      li < s.current_id → ri < s.current_id →
      grad_reverse_sub li ri s = some (r, s') → RevStep s s'
  | div (li ri r : ℕ) (s s' : RevState) :
      li < s.current_id → ri < s.current_id →
      grad_reverse_div li ri s = some (r, s') → RevStep s s'
  | sin (gi r : ℕ) (s s' : RevState) :
      gi < s.current_id →
      grad_reverse_sin gi s = some (r, s') → RevStep s s'
  | cos (gi r : ℕ) (s s' : RevState) :
      gi < s.current_id →
      grad_reverse_cos gi s = some (r, s') → RevStep s s'
  | exp (gi r : ℕ) (s s' : RevState) :
      gi < s.current_id →
      grad_reverse_exp gi s = some (r, s') → RevStep s s'
  | log (gi r : ℕ) (s s' : RevState) :
      gi < s.current_id →
      grad_reverse_log gi s = some (r, s') → RevStep s s'

/-- `BuiltFrom s s'`: state `s'` arises from `s` by zero or more
construction calls. -/
def BuiltFrom : RevState → RevState → Prop :=
  Relation.ReflTransGen RevStep

/-- `Built s`: the tape of `s` was built, within the current scope (opened
by `grad_reverse_start_scope` on an arbitrary prior state), by `init` and
the recording operations. -/
def Built (s : RevState) : Prop :=
  ∃ s0 : RevState, BuiltFrom (grad_reverse_start_scope s0) s

/-! ## Expressions over the seed variables

The callers of either engine build a straight-line computation by chaining
the operation calls.  `Expr n` is such a computation over `n` seed
variables: exactly the operation set of the forward engine; `Expr.Core`
carves out the subset both engines support. -/

/-- An expression built from the elementary operations of the forward
engine over `n` seed variables.  `addC`/`mulC`/`pow` carry the constant
argument of `grad_forward_add_c`/`grad_forward_mul_c`/`grad_forward_pow`. -/
inductive Expr (n : ℕ) where
  | var : Fin n → Expr n
  | add : Expr n → Expr n → Expr n
  | addC : Expr n → ℝ → Expr n
  | mul : Expr n → Expr n → Expr n
  | mulC : Expr n → ℝ → Expr n
  | inv : Expr n → Expr n
  | div : Expr n → Expr n → Expr n
  | neg : Expr n → Expr n
  | sub : Expr n → Expr n → Expr n
  | exp : Expr n → Expr n
  | log : Expr n → Expr n
  | sin : Expr n → Expr n
  | cos : Expr n → Expr n
  | tan : Expr n → Expr n
  | sqrt : Expr n → Expr n
  | pow : Expr n → ℝ → Expr n

/-- The value either engine computes for an expression: the compositions
are exactly the source's (`neg` is `mul_c(·,-1)`, `sub` is
`add(l, neg(r))`, `div` is `mul(l, inv(r))`, `tan` is
`div(sin g, cos g)`). -/
noncomputable def Expr.eval {n : ℕ} (x : Fin n → ℝ) : Expr n → ℝ
  | .var i => x i
  | .add l r => Expr.eval x l + Expr.eval x r
  | .addC g c => Expr.eval x g + c
  | .mul l r => Expr.eval x l * Expr.eval x r
  | .mulC g c => Expr.eval x g * c
  | .inv g => 1 / Expr.eval x g
  | .div l r => Expr.eval x l * (1 / Expr.eval x r)
  | .neg g => Expr.eval x g * (-1)
  | .sub l r => Expr.eval x l + Expr.eval x r * (-1)
  | .exp g => Real.exp (Expr.eval x g)
  | .log g => Real.log (Expr.eval x g)
  | .sin g => Real.sin (Expr.eval x g)
  | .cos g => Real.cos (Expr.eval x g)
  | .tan g => Real.sin (Expr.eval x g) * (1 / Real.cos (Expr.eval x g))
  | .sqrt g => Real.sqrt (Expr.eval x g)
  | .pow g e => Expr.eval x g ^ e

/-- The symbolic partial derivative of an expression with respect to seed
`j`, written with exactly the coefficient shapes the forward engine
computes (used as the common reference both engines are compared to). -/
noncomputable def Expr.D {n : ℕ} (x : Fin n → ℝ) : Expr n → Fin n → ℝ
  | .var i, j => if (j : ℕ) = (i : ℕ) then 1 else 0
  | .add l r, j => Expr.D x l j + Expr.D x r j
  | .addC g _, j => Expr.D x g j
  | .mul l r, j =>
      Expr.D x l j * Expr.eval x r + Expr.eval x l * Expr.D x r j
  | .mulC g c, j => c * Expr.D x g j
  | .inv g, j =>
      -Expr.D x g j * (1 / (Expr.eval x g * Expr.eval x g))
  | .div l r, j =>
      Expr.D x l j * (1 / Expr.eval x r)
        + Expr.eval x l *
            (-Expr.D x r j * (1 / (Expr.eval x r * Expr.eval x r)))
  | .neg g, j => -1 * Expr.D x g j
  | .sub l r, j => Expr.D x l j + -1 * Expr.D x r j
  | .exp g, j => Real.exp (Expr.eval x g) * Expr.D x g j
  | .log g, j => 1 / Expr.eval x g * Expr.D x g j
  | .sin g, j => Real.cos (Expr.eval x g) * Expr.D x g j
  | .cos g, j => -Real.sin (Expr.eval x g) * Expr.D x g j
  | .tan g, j =>
      Real.cos (Expr.eval x g) * Expr.D x g j
          * (1 / Real.cos (Expr.eval x g))
        + Real.sin (Expr.eval x g) *
            (-(-Real.sin (Expr.eval x g) * Expr.D x g j)
              * (1 / (Real.cos (Expr.eval x g) * Real.cos (Expr.eval x g))))
  | .sqrt g, j => 0.5 / Real.sqrt (Expr.eval x g) * Expr.D x g j
  | .pow g e, j => e * Expr.eval x g ^ (e - 1) * Expr.D x g j

/-- The side conditions under which the mathematical derivative exists (the
spec's "undefined-derivative conditions" are exactly their violations):
nonzero denominators for `inv`/`div`/`log`/`tan`, nonzero radicand for
`sqrt`, and the usual condition for a real power. -/
def Expr.Safe {n : ℕ} (x : Fin n → ℝ) : Expr n → Prop
  | .var _ => True
  | .add l r => Expr.Safe x l ∧ Expr.Safe x r
  | .addC g _ => Expr.Safe x g
  | .mul l r => Expr.Safe x l ∧ Expr.Safe x r
  | .mulC g _ => Expr.Safe x g
  | .inv g => Expr.Safe x g ∧ Expr.eval x g ≠ 0
  | .div l r => Expr.Safe x l ∧ Expr.Safe x r ∧ Expr.eval x r ≠ 0
  | .neg g => Expr.Safe x g
  | .sub l r => Expr.Safe x l ∧ Expr.Safe x r
  | .exp g => Expr.Safe x g
  | .log g => Expr.Safe x g ∧ Expr.eval x g ≠ 0
  | .sin g => Expr.Safe x g
  | .cos g => Expr.Safe x g
  | .tan g => Expr.Safe x g ∧ Real.cos (Expr.eval x g) ≠ 0
  | .sqrt g => Expr.Safe x g ∧ Expr.eval x g ≠ 0
  | .pow g e => Expr.Safe x g ∧ (Expr.eval x g ≠ 0 ∨ 1 ≤ e)

/-- The operation set shared by both engines (`add, mul, neg, inv, sub,
div, sin, cos, exp, log` — no constants, `tan`, `sqrt` or `pow`). -/
def Expr.Core {n : ℕ} : Expr n → Prop
  | .var _ => True
  | .add l r => Expr.Core l ∧ Expr.Core r
  | .mul l r => Expr.Core l ∧ Expr.Core r
  | .inv g => Expr.Core g
  | .div l r => Expr.Core l ∧ Expr.Core r
  | .neg g => Expr.Core g
  | .sub l r => Expr.Core l ∧ Expr.Core r
  | .exp g => Expr.Core g
  | .log g => Expr.Core g
  | .sin g => Expr.Core g
  | .cos g => Expr.Core g
  | _ => False

/-- Evaluating an expression through the forward engine: each node is the
corresponding `grad_forward_*` call, with the current slot counter `cur`
read by every derivative loop. -/
noncomputable def fwdE {n : ℕ} (cur : ℕ) (env : Fin n → grad_forward_t) :
    Expr n → grad_forward_t
  | .var i => env i
  | .add l r => grad_forward_add cur (fwdE cur env l) (fwdE cur env r)
  | .addC g c => grad_forward_add_c (fwdE cur env g) c
  | .mul l r => grad_forward_mul cur (fwdE cur env l) (fwdE cur env r)
  | .mulC g c => grad_forward_mul_c cur (fwdE cur env g) c
  | .inv g => grad_forward_inv cur (fwdE cur env g)
  | .div l r => grad_forward_div cur (fwdE cur env l) (fwdE cur env r)
  | .neg g => grad_forward_neg cur (fwdE cur env g)
  | .sub l r => grad_forward_sub cur (fwdE cur env l) (fwdE cur env r)
  | .exp g => grad_forward_exp cur (fwdE cur env g)
  | .log g => grad_forward_log cur (fwdE cur env g)
  | .sin g => grad_forward_sin cur (fwdE cur env g)
  | .cos g => grad_forward_cos cur (fwdE cur env g)
  | .tan g => grad_forward_tan cur (fwdE cur env g)
  | .sqrt g => grad_forward_sqrt cur (fwdE cur env g)
  | .pow g e => grad_forward_pow cur (fwdE cur env g) e

/-- Running `grad_forward_init` once per value of a list, threading the
slot counter (the way a caller creates its seed variables). -/
noncomputable def fwdInitMany : List ℝ → ℕ → Option (List grad_forward_t × ℕ)
  | [], cur => some ([], cur)
  | v :: vs, cur =>
      match grad_forward_init v cur with
      | none => none
      | some (g, cur1) =>
          match fwdInitMany vs cur1 with
          | none => none
          | some (gs, cur2) => some (g :: gs, cur2)

/-- The list of variables `fwdInitMany` produces on success. -/
noncomputable def seedList : List ℝ → ℕ → List grad_forward_t
  | [], _ => []
  | v :: vs, cur =>
      { fwdZeroStruct with
          value := v
          id := cur
          derivative := Function.update (fun _ => (0 : ℝ)) cur 1 }
        :: seedList vs (cur + 1)

/-- Running `grad_reverse_init` once per value of a list (the reverse-mode
seed leaves; the returned pointers are the tape indices `0, 1, …` when the
scope is fresh). -/
noncomputable def revInitSeeds : List ℝ → RevState → Option RevState
  | [], s => some s
  | v :: vs, s =>
      match grad_reverse_init v s with
      | none => none
      | some (_, s1) => revInitSeeds vs s1

/-- Building an expression of the shared operation set through the reverse
engine: `var i` is the pointer to seed leaf `i`, every other supported
constructor is the corresponding `grad_reverse_*` call; the constructors
the reverse engine has no counterpart for yield `none`. -/
noncomputable def revE {n : ℕ} : Expr n → RevState → Option (ℕ × RevState)
  | .var i, s => some ((i : ℕ), s)
  | .add l r, s =>
      match revE l s with
      | none => none
      | some (a, s1) =>
          match revE r s1 with
          | none => none
          | some (b, s2) => grad_reverse_add a b s2
  | .mul l r, s =>
      match revE l s with
      | none => none
      | some (a, s1) =>
          match revE r s1 with
          | none => none
          | some (b, s2) => grad_reverse_mul a b s2
  | .sub l r, s =>
      match revE l s with
      | none => none
      | some (a, s1) =>
          match revE r s1 with
          | none => none
          | some (b, s2) => grad_reverse_sub a b s2
  | .div l r, s =>
      match revE l s with
      | none => none
      | some (a, s1) =>
          match revE r s1 with
          | none => none
          | some (b, s2) => grad_reverse_div a b s2
  | .inv g, s =>
      match revE g s with
      | none => none
      | some (a, s1) => grad_reverse_inv a s1
  | .neg g, s =>
      match revE g s with
      | none => none
      | some (a, s1) => grad_reverse_neg a s1
  | .exp g, s =>
      match revE g s with
      | none => none
      | some (a, s1) => grad_reverse_exp a s1
  | .log g, s =>
      match revE g s with
      | none => none
      | some (a, s1) => grad_reverse_log a s1
  | .sin g, s =>
      match revE g s with
      | none => none
      | some (a, s1) => grad_reverse_sin a s1
  | .cos g, s =>
      match revE g s with
      | none => none
      | some (a, s1) => grad_reverse_cos a s1
  | .addC _ _, _ => none
  | .mulC _ _, _ => none
  | .tan _, _ => none
  | .sqrt _, _ => none
  | .pow _ _, _ => none

/-! ## Operation sequences (caller programs) for the two engines

The hyperproperty claims quantify over arbitrary operation sequences; a
program is a list of instructions whose operands name previously returned
results by position. -/

/-- `void grad_forward_start_scope() { grad_forward_current_id = 0; }`:
the forward engine's entire global state is the slot counter. -/
def grad_forward_start_scope (_ : ℕ) : ℕ := 0

/-- One forward-engine call; operands are positions in the list of
previously returned Variables. -/
inductive FInstr where
  | init : ℝ → FInstr
  | add : ℕ → ℕ → FInstr
  | addC : ℕ → ℝ → FInstr
  | mul : ℕ → ℕ → FInstr
  | mulC : ℕ → ℝ → FInstr
  | inv : ℕ → FInstr
  | div : ℕ → ℕ → FInstr
  | neg : ℕ → FInstr
  | sub : ℕ → ℕ → FInstr
  | exp : ℕ → FInstr
  | log : ℕ → FInstr
  | sin : ℕ → FInstr
  | cos : ℕ → FInstr
  | tan : ℕ → FInstr
  | sqrt : ℕ → FInstr
  | pow : ℕ → ℝ → FInstr

/-- Execute one forward call against the counter and the list of results
produced so far (each call returns one new Variable, appended). -/
noncomputable def fwdStep :
    FInstr → ℕ → List grad_forward_t → Option (ℕ × List grad_forward_t)
  | .init v, cur, env =>
      match grad_forward_init v cur with
      | none => none
      | some (g, cur1) => some (cur1, env ++ [g])
  | .add a b, cur, env =>
      match env[a]?, env[b]? with
      | some l, some r => some (cur, env ++ [grad_forward_add cur l r])
      | _, _ => none
  | .addC a c, cur, env =>
      match env[a]? with
      | some g => some (cur, env ++ [grad_forward_add_c g c])
      | none => none
  | .mul a b, cur, env =>
      match env[a]?, env[b]? with
      | some l, some r => some (cur, env ++ [grad_forward_mul cur l r])
      | _, _ => none
  | .mulC a c, cur, env =>
      match env[a]? with
      | some g => some (cur, env ++ [grad_forward_mul_c cur g c])
      | none => none
  | .inv a, cur, env =>
      match env[a]? with
      | some g => some (cur, env ++ [grad_forward_inv cur g])
      | none => none
  | .div a b, cur, env =>
      match env[a]?, env[b]? with
      | some l, some r => some (cur, env ++ [grad_forward_div cur l r])
      | _, _ => none
  | .neg a, cur, env =>
      match env[a]? with
      | some g => some (cur, env ++ [grad_forward_neg cur g])
      | none => none
  | .sub a b, cur, env =>
      match env[a]?, env[b]? with
      | some l, some r => some (cur, env ++ [grad_forward_sub cur l r])
      | _, _ => none
  | .exp a, cur, env =>
      match env[a]? with
      | some g => some (cur, env ++ [grad_forward_exp cur g])
      | none => none
  | .log a, cur, env =>
      match env[a]? with
      | some g => some (cur, env ++ [grad_forward_log cur g])
      | none => none
  | .sin a, cur, env =>
      match env[a]? with
      | some g => some (cur, env ++ [grad_forward_sin cur g])
      | none => none
  | .cos a, cur, env =>
      match env[a]? with
      | some g => some (cur, env ++ [grad_forward_cos cur g])
      | none => none
  | .tan a, cur, env =>
      match env[a]? with
      | some g => some (cur, env ++ [grad_forward_tan cur g])
      | none => none
  | .sqrt a, cur, env =>
      match env[a]? with
      | some g => some (cur, env ++ [grad_forward_sqrt cur g])
      | none => none
  | .pow a c, cur, env =>
      match env[a]? with
      | some g => some (cur, env ++ [grad_forward_pow cur g c])
      | none => none

/-- Run a forward-engine program. -/
noncomputable def fwdRun :
    List FInstr → ℕ → List grad_forward_t → Option (ℕ × List grad_forward_t)
  | [], cur, env => some (cur, env)
  | ins :: rest, cur, env =>
      match fwdStep ins cur env with
      | none => none
      | some (cur1, env1) => fwdRun rest cur1 env1

/-- How many `init` calls (slot consumers) a program contains. -/
def countInits : List FInstr → ℕ
  | [] => 0
  | .init _ :: rest => countInits rest + 1
  | _ :: rest => countInits rest

/-- An instruction's operands refer to already-produced results. -/
def FInstrOk (m : ℕ) : FInstr → Prop
  | .init _ => True
  | .add a b => a < m ∧ b < m
  | .addC a _ => a < m
  | .mul a b => a < m ∧ b < m
  | .mulC a _ => a < m
  | .inv a => a < m
  | .div a b => a < m ∧ b < m
  | .neg a => a < m
  | .sub a b => a < m ∧ b < m
  | .exp a => a < m
  | .log a => a < m
  | .sin a => a < m
  | .cos a => a < m
  | .tan a => a < m
  | .sqrt a => a < m
  | .pow a _ => a < m

/-- Program validity: every instruction's operands point to results that
exist when it runs (each instruction appends exactly one result). -/
def FValid : ℕ → List FInstr → Prop
  | _, [] => True
  | m, ins :: rest => FInstrOk m ins ∧ FValid (m + 1) rest

/-- What C9 asserts of a run: it completes, the counter advanced by
exactly the number of `init`s, and the previously produced Variables are
untouched (they form the unchanged prefix of the result list). -/
def FwdRunOk (prog : List FInstr) (cur : ℕ)
    (env : List grad_forward_t) : Prop :=
  ∃ res : ℕ × List grad_forward_t,
    fwdRun prog cur env = some res ∧
    res.1 = cur + countInits prog ∧
    res.2.take env.length = env

/-- One reverse-engine call; operands are positions in the list of node
pointers returned so far. -/
inductive RInstr where
  | init : ℝ → RInstr
  | add : ℕ → ℕ → RInstr
  | mul : ℕ → ℕ → RInstr
  | neg : ℕ → RInstr
  | inv : ℕ → RInstr
  | sub : ℕ → ℕ → RInstr
  | div : ℕ → ℕ → RInstr
  | sin : ℕ → RInstr
  | cos : ℕ → RInstr
  | exp : ℕ → RInstr
  | log : ℕ → RInstr
  | backward : ℕ → RInstr

/-- Execute one reverse call against the state and the pointer list. -/
noncomputable def revStepI :
    RInstr → RevState → List ℕ → Option (RevState × List ℕ)
  | .init v, s, refs =>
      match grad_reverse_init v s with
      | none => none
      | some (r, s1) => some (s1, refs ++ [r])
  | .add a b, s, refs =>
      match refs[a]?, refs[b]? with
      | some ra, some rb =>
          match grad_reverse_add ra rb s with
          | none => none
          | some (r, s1) => some (s1, refs ++ [r])
      | _, _ => none
  | .mul a b, s, refs =>
      match refs[a]?, refs[b]? with
      | some ra, some rb =>
          match grad_reverse_mul ra rb s with
          | none => none
          | some (r, s1) => some (s1, refs ++ [r])
      | _, _ => none
  | .neg a, s, refs =>
      match refs[a]? with
      | some ra =>
          match grad_reverse_neg ra s with
          | none => none
          | some (r, s1) => some (s1, refs ++ [r])
      | none => none
  | .inv a, s, refs =>
      match refs[a]? with
      | some ra =>
          match grad_reverse_inv ra s with
          | none => none
          | some (r, s1) => some (s1, refs ++ [r])
      | none => none
  | .sub a b, s, refs =>
      match refs[a]?, refs[b]? with
      | some ra, some rb =>
          match grad_reverse_sub ra rb s with
          | none => none
          | some (r, s1) => some (s1, refs ++ [r])
      | _, _ => none
  | .div a b, s, refs =>
      match refs[a]?, refs[b]? with
      | some ra, some rb =>
          match grad_reverse_div ra rb s with
          | none => none
          | some (r, s1) => some (s1, refs ++ [r])
      | _, _ => none
  | .sin a, s, refs =>
      match refs[a]? with
      | some ra =>
          match grad_reverse_sin ra s with
          | none => none
          | some (r, s1) => some (s1, refs ++ [r])
      | none => none
  | .cos a, s, refs =>
      match refs[a]? with
      | some ra =>
          match grad_reverse_cos ra s with
          | none => none
          | some (r, s1) => some (s1, refs ++ [r])
      | none => none
  | .exp a, s, refs =>
      match refs[a]? with
      | some ra =>
          match grad_reverse_exp ra s with
          | none => none
          | some (r, s1) => some (s1, refs ++ [r])
      | none => none
  | .log a, s, refs =>
      match refs[a]? with
      | some ra =>
          match grad_reverse_log ra s with
          | none => none
          | some (r, s1) => some (s1, refs ++ [r])
      | none => none
  | .backward a, s, refs =>
      match refs[a]? with
      | some ra => some (grad_reverse_backward ra s, refs)
      | none => none

/-- Run a reverse-engine program. -/
noncomputable def revRun :
    List RInstr → RevState → List ℕ → Option (RevState × List ℕ)
  | [], s, refs => some (s, refs)
  | ins :: rest, s, refs =>
      match revStepI ins s refs with
      | none => none
      | some (s1, refs1) => revRun rest s1 refs1

/-- Pointwise agreement of the live tape segments of two memories: all
observable fields coincide — value, adjoint, operation tag, and the
operand indices the operation actually uses (a leaf's stale `left`/`right`
and a unary node's stale `right` are never read and may differ). -/
def MemAgree (n : ℕ) (t1 t2 : ℕ → grad_reverse_t) : Prop :=
  ∀ k, k < n →
    (t1 k).value = (t2 k).value ∧
    (t1 k).derivative = (t2 k).derivative ∧
    (t1 k).operation = (t2 k).operation ∧
    ((t1 k).operation ≠ .NONE → (t1 k).left = (t2 k).left) ∧
    (((t1 k).operation = .ADD ∨ (t1 k).operation = .MUL) →
      (t1 k).right = (t2 k).right)

/-- Observable agreement of two reverse states: equal counters and
agreeing live tape segments. -/
def AgreeLive (s1 s2 : RevState) : Prop :=
  s1.current_id = s2.current_id ∧ MemAgree s1.current_id s1.tape s2.tape

/-- Observational equivalence of two run outcomes: both aborted, or both
succeeded with identical returned pointers and agreeing live states. -/
def ObsEq : Option (RevState × List ℕ) → Option (RevState × List ℕ) → Prop
  | none, none => True
  | some (t1, r1), some (t2, r2) => r1 = r2 ∧ AgreeLive t1 t2
  | _, _ => False

/-! ## Concrete scenario states (used to instantiate the theorems) -/

/-- An empty reverse state: all-zero tape cells, counter `0`. -/
noncomputable def wRevS0 : RevState :=
  ⟨fun _ => ⟨0, 0, .NONE, 0, 0⟩, 0⟩

/-- After `grad_reverse_init 5` on the empty state. -/
noncomputable def wRevS1 : RevState :=
  ((grad_reverse_init 5 wRevS0).getD (0, wRevS0)).2

/-- After `grad_reverse_mul` of node `0` with itself (`x*x` at `x = 5`). -/
noncomputable def wRevS2 : RevState :=
  ((grad_reverse_mul 0 0 wRevS1).getD (0, wRevS1)).2

/-- One more (dead) `grad_reverse_init 7` on top of `wRevS2`. -/
noncomputable def wRevS3 : RevState :=
  ((grad_reverse_init 7 wRevS2).getD (0, wRevS2)).2

/-! ## C4: specification of `grad_forward_init` -/

/-- C4: `grad_forward_init(value)` fails (the capacity `assert` aborts) when
the live slot count has reached `GRAD_FORWARD_TAPE_SIZE`; otherwise it
returns the Variable whose `id` is the current counter, whose `value` is the
argument, whose derivative vector is all zeros except a `1` at the counter's
slot, and the counter incremented by one. -/
theorem grad_forward_init_spec (v : ℝ) (cur : ℕ) :
    grad_forward_init v cur =
      if cur < GRAD_FORWARD_TAPE_SIZE then
        some ({ id := cur, value := v,
                derivative := fun i => if i = cur then 1 else 0 }, cur + 1)
      else none := by
  unfold grad_forward_init fwdZeroStruct
  split
  · have hupd : Function.update (fun _ => (0 : ℝ)) cur 1 =
        fun i => if i = cur then (1 : ℝ) else 0 := by
      funext i; simp [Function.update_apply]
    rw [hupd]
  · rfl

/-! ## C10: `sub` and `div` append exactly two nodes -/

/-- C10: when two slots are free, `grad_reverse_sub` appends exactly two
nodes — first the NEG node recording the right operand, then the combining
ADD node whose operands are the left argument and that NEG node — and bumps
the counter by two; `grad_reverse_div` does the same with INV and MUL. -/
theorem grad_reverse_sub_div_append_two (li ri : ℕ) (s : RevState)
    (h : s.current_id + 2 ≤ GRAD_REVERSE_TAPE_SIZE) :
    ((grad_reverse_sub li ri s).map fun p =>
        (p.1, p.2.current_id,
         (p.2.tape s.current_id).operation, (p.2.tape s.current_id).left,
         (p.2.tape (s.current_id + 1)).operation,
         (p.2.tape (s.current_id + 1)).left,
         (p.2.tape (s.current_id + 1)).right)) =
      some (s.current_id + 1, s.current_id + 2,
            .NEG, ri, .ADD, li, s.current_id) ∧
    ((grad_reverse_div li ri s).map fun p =>
        (p.1, p.2.current_id,
         (p.2.tape s.current_id).operation, (p.2.tape s.current_id).left,
         (p.2.tape (s.current_id + 1)).operation,
         (p.2.tape (s.current_id + 1)).left,
         (p.2.tape (s.current_id + 1)).right)) =
      some (s.current_id + 1, s.current_id + 2,
            .INV, ri, .MUL, li, s.current_id) := by
  have h1 : s.current_id < GRAD_REVERSE_TAPE_SIZE := by omega
  have h2 : s.current_id + 1 < GRAD_REVERSE_TAPE_SIZE := by omega
  constructor
  · simp only [grad_reverse_sub, grad_reverse_neg, grad_reverse_add,
      grad_reverse_init, setNode, h1, if_pos, Function.update_apply]
    simp [h2, Function.update_apply]
  · simp only [grad_reverse_div, grad_reverse_inv, grad_reverse_mul,
      grad_reverse_init, setNode, h1, if_pos, Function.update_apply]
    simp [h2, Function.update_apply]

/-- Witness for C10 at the empty tape. -/
theorem grad_reverse_sub_div_append_two_witness :
    ((grad_reverse_sub 0 0
        ⟨fun _ => ⟨0, 0, .NONE, 0, 0⟩, 0⟩).map fun p =>
        (p.1, p.2.current_id,
         (p.2.tape 0).operation, (p.2.tape 0).left,
         (p.2.tape 1).operation, (p.2.tape 1).left, (p.2.tape 1).right)) =
      some (1, 2, .NEG, 0, .ADD, 0, 0) ∧
    ((grad_reverse_div 0 0
        ⟨fun _ => ⟨0, 0, .NONE, 0, 0⟩, 0⟩).map fun p =>
        (p.1, p.2.current_id,
         (p.2.tape 0).operation, (p.2.tape 0).left,
         (p.2.tape 1).operation, (p.2.tape 1).left, (p.2.tape 1).right)) =
      some (1, 2, .INV, 0, .MUL, 0, 0) := by
  have h := grad_reverse_sub_div_append_two 0 0
    ⟨fun _ => ⟨0, 0, .NONE, 0, 0⟩, 0⟩ (by norm_num [GRAD_REVERSE_TAPE_SIZE])
  simpa using h

/-! ## Lemmas about the backward pass -/

theorem addD_deriv (t : ℕ → grad_reverse_t) (a : ℕ) (c : ℝ) (k : ℕ) :
    ((addD t a c) k).derivative =
      (t k).derivative + if k = a then c else 0 := by
  unfold addD
  rw [Function.update_apply]
  by_cases hk : k = a <;> simp [hk]

theorem addD_shape (t : ℕ → grad_reverse_t) (a : ℕ) (c : ℝ) (k : ℕ) :
    ((addD t a c) k).shape = (t k).shape := by
  unfold addD
  rw [Function.update_apply]
  by_cases hk : k = a <;> simp [hk, grad_reverse_t.shape]

theorem addD_value (t : ℕ → grad_reverse_t) (a : ℕ) (c : ℝ) (k : ℕ) :
    ((addD t a c) k).value = (t k).value :=
  congrArg NodeShape.value (addD_shape t a c k)

theorem addD_op (t : ℕ → grad_reverse_t) (a : ℕ) (c : ℝ) (k : ℕ) :
    ((addD t a c) k).operation = (t k).operation :=
  congrArg NodeShape.operation (addD_shape t a c k)

theorem addD_left (t : ℕ → grad_reverse_t) (a : ℕ) (c : ℝ) (k : ℕ) :
    ((addD t a c) k).left = (t k).left :=
  congrArg NodeShape.left (addD_shape t a c k)

theorem addD_right (t : ℕ → grad_reverse_t) (a : ℕ) (c : ℝ) (k : ℕ) :
    ((addD t a c) k).right = (t k).right :=
  congrArg NodeShape.right (addD_shape t a c k)

theorem stepOp_shape (t : ℕ → grad_reverse_t) (i : ℕ)
    (op : grad_reverse_op_t) (k : ℕ) :
    ((stepOp t i op) k).shape = (t k).shape := by
  cases op <;> simp [stepOp, addD_shape]

theorem stepNode_shape (t : ℕ → grad_reverse_t) (i k : ℕ) :
    ((stepNode t i) k).shape = (t k).shape :=
  stepOp_shape t i ((t i).operation) k

theorem backLoop_shape (n : ℕ) :
    ∀ (t : ℕ → grad_reverse_t) (k : ℕ),
      ((backLoop t n) k).shape = (t k).shape := by
  induction n with
  | zero => intro t k; rfl
  | succ n ih =>
      intro t k
      show ((backLoop (stepNode t n) n) k).shape = (t k).shape
      rw [ih (stepNode t n) k, stepNode_shape]

theorem dval_self (m : ℕ → NodeShape) (i j : ℕ) (h : i = j) :
    dval m i j = 1 := by
  rw [dval]
  simp [h]

theorem dval_eq_zero_of_lt (m : ℕ → NodeShape) :
    ∀ (i j : ℕ), i < j → dval m i j = 0 := by
  intro i
  induction i using Nat.strong_induction_on with
  | _ i ih =>
    intro j hij
    rw [dval]
    rw [if_neg (by omega : ¬ i = j)]
    have hL : ∀ (o : ℕ), (if h : o < i then dval m o j else 0) = 0 := by
      intro o
      split_ifs with h
      · exact ih o h j (by omega)
      · rfl
    cases hop : (m i).operation <;> simp [hL]

theorem stepNode_deriv_ge (t : ℕ → grad_reverse_t) (n : ℕ)
    (hinv : TapeInv (fun x => (t x).shape) (n + 1)) (j : ℕ) (hj : n ≤ j) :
    ((stepNode t n) j).derivative = (t j).derivative := by
  have h := hinv n (by omega)
  unfold stepNode
  cases hop : (t n).operation <;>
    simp only [grad_reverse_t.shape, hop] at h <;>
    simp only [stepOp]
  case ADD =>
    obtain ⟨hl, hr⟩ := h
    rw [addD_deriv, addD_right, addD_deriv]
    rw [if_neg (by omega : ¬ j = (t n).right), if_neg (by omega : ¬ j = (t n).left)]
    ring
  case MUL =>
    obtain ⟨hl, hr⟩ := h
    rw [addD_deriv, addD_right, addD_deriv]
    rw [if_neg (by omega : ¬ j = (t n).right), if_neg (by omega : ¬ j = (t n).left)]
    ring
  all_goals
    rw [addD_deriv, if_neg (by omega : ¬ j = (t n).left)]
  all_goals ring

theorem sum_addD (t : ℕ → grad_reverse_t) (a : ℕ) (c : ℝ) (n : ℕ)
    (ha : a < n) (w : ℕ → ℝ) :
    ∑ k ∈ Finset.range n, ((addD t a c) k).derivative * w k
      = (∑ k ∈ Finset.range n, (t k).derivative * w k) + c * w a := by
  have hsplit : ∀ k, ((addD t a c) k).derivative * w k
      = (t k).derivative * w k + (if k = a then c * w k else 0) := by
    intro k
    rw [addD_deriv]
    by_cases hk : k = a <;> simp [hk] <;> ring
  rw [Finset.sum_congr rfl fun k _ => hsplit k, Finset.sum_add_distrib,
    Finset.sum_ite_eq' (Finset.range n) a fun k => c * w k]
  simp [Finset.mem_range.mpr ha]

theorem step_sum (t : ℕ → grad_reverse_t) (n : ℕ)
    (hinv : TapeInv (fun x => (t x).shape) (n + 1)) (j : ℕ) (hj : j < n) :
    ∑ k ∈ Finset.range n,
        ((stepNode t n) k).derivative * dval (fun x => (t x).shape) k j
      = (∑ k ∈ Finset.range n,
          (t k).derivative * dval (fun x => (t x).shape) k j)
        + (t n).derivative * dval (fun x => (t x).shape) n j := by
  set m := fun x => (t x).shape with hm
  have h := hinv n (by omega)
  unfold stepNode
  cases hop : (t n).operation <;>
    simp only [hm, grad_reverse_t.shape, hop] at h <;>
    simp only [stepOp]
  case NONE =>
    have hdn : dval m n j = 0 := by
      rw [dval, if_neg (by omega : ¬ n = j),
        show (m n).operation = .NONE from hop]
    rw [hdn]
    ring
  case ADD =>
    obtain ⟨hl, hr⟩ := h
    have hB : ((addD t (t n).left (t n).derivative) n).right = (t n).right :=
      addD_right ..
    have hc : ((addD t (t n).left (t n).derivative) n).derivative
        = (t n).derivative := by
      rw [addD_deriv, if_neg (by omega : ¬ n = (t n).left)]; ring
    rw [hB, hc,
      sum_addD (addD t (t n).left (t n).derivative) (t n).right
        (t n).derivative n hr,
      sum_addD t (t n).left (t n).derivative n hl]
    have hdn : dval m n j
        = dval m (t n).left j + dval m (t n).right j := by
      rw [dval, if_neg (by omega : ¬ n = j),
        show (m n).operation = .ADD from hop]
      rw [dif_pos (show (m n).left < n from hl),
        dif_pos (show (m n).right < n from hr)]
      rfl
    rw [hdn]
    ring
  case MUL =>
    obtain ⟨hl, hr⟩ := h
    set c1 := (t (t n).right).value * (t n).derivative with hc1
    have hB : ((addD t (t n).left c1) n).right = (t n).right := addD_right ..
    have hA : ((addD t (t n).left c1) n).left = (t n).left := addD_left ..
    have hc : ((addD t (t n).left c1) n).derivative = (t n).derivative := by
      rw [addD_deriv, if_neg (by omega : ¬ n = (t n).left)]; ring
    have hv : ((addD t (t n).left c1) ((addD t (t n).left c1) n).left).value
        = (t (t n).left).value := by rw [hA, addD_value]
    rw [hB, hc, hv,
      sum_addD (addD t (t n).left c1) (t n).right
        ((t (t n).left).value * (t n).derivative) n hr,
      sum_addD t (t n).left c1 n hl]
    have hdn : dval m n j
        = (t (t n).right).value * dval m (t n).left j
          + (t (t n).left).value * dval m (t n).right j := by
      rw [dval, if_neg (by omega : ¬ n = j),
        show (m n).operation = .MUL from hop]
      rw [dif_pos (show (m n).left < n from hl),
        dif_pos (show (m n).right < n from hr)]
      rfl
    rw [hdn, hc1]
    ring
  case NEG =>
    rw [sum_addD t (t n).left (-1 * (t n).derivative) n h]
    have hdn : dval m n j = -(dval m (t n).left j) := by
      rw [dval, if_neg (by omega : ¬ n = j),
        show (m n).operation = .NEG from hop]
      rw [dif_pos (show (m n).left < n from h)]
      rfl
    rw [hdn]
    ring
  case INV =>
    rw [sum_addD t (t n).left
      (-(t n).derivative / ((t (t n).left).value * (t (t n).left).value)) n h]
    have hdn : dval m n j
        = -(dval m (t n).left j)
          / ((t (t n).left).value * (t (t n).left).value) := by
      rw [dval, if_neg (by omega : ¬ n = j),
        show (m n).operation = .INV from hop]
      rw [dif_pos (show (m n).left < n from h)]
      rfl
    rw [hdn]
    ring
  case SIN =>
    rw [sum_addD t (t n).left
      (Real.cos (t (t n).left).value * (t n).derivative) n h]
    have hdn : dval m n j
        = Real.cos (t (t n).left).value * dval m (t n).left j := by
      rw [dval, if_neg (by omega : ¬ n = j),
        show (m n).operation = .SIN from hop]
      rw [dif_pos (show (m n).left < n from h)]
      rfl
    rw [hdn]
    ring
  case COS =>
    rw [sum_addD t (t n).left
      (-Real.sin (t (t n).left).value * (t n).derivative) n h]
    have hdn : dval m n j
        = -Real.sin (t (t n).left).value * dval m (t n).left j := by
      rw [dval, if_neg (by omega : ¬ n = j),
        show (m n).operation = .COS from hop]
      rw [dif_pos (show (m n).left < n from h)]
      rfl
    rw [hdn]
    ring
  case EXP =>
    rw [sum_addD t (t n).left
      (Real.exp (t (t n).left).value * (t n).derivative) n h]
    have hdn : dval m n j
        = Real.exp (t (t n).left).value * dval m (t n).left j := by
      rw [dval, if_neg (by omega : ¬ n = j),
        show (m n).operation = .EXP from hop]
      rw [dif_pos (show (m n).left < n from h)]
      rfl
    rw [hdn]
    ring
  case LOG =>
    rw [sum_addD t (t n).left
      ((t n).derivative / (t (t n).left).value) n h]
    have hdn : dval m n j
        = dval m (t n).left j / (t (t n).left).value := by
      rw [dval, if_neg (by omega : ¬ n = j),
        show (m n).operation = .LOG from hop]
      rw [dif_pos (show (m n).left < n from h)]
      rfl
    rw [hdn]
    ring

theorem backLoop_deriv (n : ℕ) :
    ∀ (t : ℕ → grad_reverse_t),
      TapeInv (fun x => (t x).shape) n → ∀ j,
      ((backLoop t n) j).derivative =
        if j < n then
          ∑ k ∈ Finset.range n,
            (t k).derivative * dval (fun x => (t x).shape) k j
        else (t j).derivative := by
  induction n with
  | zero => intro t _ j; simp [backLoop]
  | succ n ih =>
    intro t hinv j
    have hsh : (fun x => ((stepNode t n) x).shape) = fun x => (t x).shape := by
      funext x; exact stepNode_shape t n x
    have hinv' : TapeInv (fun x => ((stepNode t n) x).shape) n := by
      rw [hsh]; intro i hi; exact hinv i (by omega)
    show ((backLoop (stepNode t n) n) j).derivative = _
    rw [ih (stepNode t n) hinv' j, hsh]
    by_cases hjn : j < n
    · rw [if_pos hjn, if_pos (by omega : j < n + 1),
        step_sum t n hinv j hjn, Finset.sum_range_succ]
    · rw [if_neg hjn, stepNode_deriv_ge t n hinv j (by omega)]
      by_cases hje : j = n
      · rw [if_pos (by omega : j < n + 1), Finset.sum_range_succ]
        subst hje
        rw [dval_self _ j j rfl]
        have hz : ∀ k ∈ Finset.range j,
            (t k).derivative * dval (fun x => (t x).shape) k j = 0 := by
          intro k hk
          rw [dval_eq_zero_of_lt _ k j (Finset.mem_range.mp hk)]
          ring
        rw [Finset.sum_eq_zero hz]
        ring
      · rw [if_neg (by omega : ¬ j < n + 1)]

/-! ## Characterizations of the construction calls -/

theorem rev_init_char {v : ℝ} {s s' : RevState} {r : ℕ}
    (h : grad_reverse_init v s = some (r, s')) :
    s.current_id < GRAD_REVERSE_TAPE_SIZE ∧ r = s.current_id ∧
    s'.current_id = s.current_id + 1 ∧
    (∀ k, k ≠ s.current_id → s'.tape k = s.tape k) ∧
    (s'.tape s.current_id).value = v ∧
    (s'.tape s.current_id).derivative = 0 ∧
    (s'.tape s.current_id).operation = .NONE := by
  unfold grad_reverse_init at h
  split at h
  case isTrue hcap =>
    rw [Option.some.injEq, Prod.mk.injEq] at h
    obtain ⟨hr, hs⟩ := h
    subst hr
    subst hs
    refine ⟨hcap, rfl, rfl, ?_, ?_, ?_, ?_⟩ <;>
      simp [Function.update_apply]
    intro k hk
    simp [hk]
  case isFalse => exact absurd h (by simp)

theorem rev_binary_char {X : ℝ} {op : grad_reverse_op_t} {li ri : ℕ}
    {s s' : RevState} {r : ℕ}
    (h : (match grad_reverse_init X s with
          | none => none
          | some (r, s1) =>
              some (r, setNode s1 r fun nd =>
                { nd with operation := op, left := li, right := ri }))
         = some (r, s')) :
    s.current_id < GRAD_REVERSE_TAPE_SIZE ∧ r = s.current_id ∧
    s'.current_id = s.current_id + 1 ∧
    (∀ k, k ≠ s.current_id → s'.tape k = s.tape k) ∧
    (s'.tape s.current_id).value = X ∧
    (s'.tape s.current_id).derivative = 0 ∧
    (s'.tape s.current_id).operation = op ∧
    (s'.tape s.current_id).left = li ∧
    (s'.tape s.current_id).right = ri := by
  rcases hinit : grad_reverse_init X s with _ | ⟨r0, s1⟩
  · rw [hinit] at h; exact absurd h (by simp)
  · rw [hinit] at h
    rw [Option.some.injEq, Prod.mk.injEq] at h
    obtain ⟨hr, hs⟩ := h
    obtain ⟨hcap, hr0, hcnt, hag, hv, hd, hop⟩ := rev_init_char hinit
    subst hr
    subst hr0
    subst hs
    refine ⟨hcap, rfl, by simp [setNode, hcnt], ?_, ?_, ?_, ?_, ?_, ?_⟩
    · intro k hk
      simp only [setNode, Function.update_apply, if_neg hk]
      exact hag k hk
    all_goals simp [setNode, Function.update_apply, hv, hd]

theorem rev_unary_char {X : ℝ} {op : grad_reverse_op_t} {gi : ℕ}
    {s s' : RevState} {r : ℕ}
    (h : (match grad_reverse_init X s with
          | none => none
          | some (r, s1) =>
              some (r, setNode s1 r fun nd =>
                { nd with operation := op, left := gi }))
         = some (r, s')) :
    s.current_id < GRAD_REVERSE_TAPE_SIZE ∧ r = s.current_id ∧
    s'.current_id = s.current_id + 1 ∧
    (∀ k, k ≠ s.current_id → s'.tape k = s.tape k) ∧
    (s'.tape s.current_id).value = X ∧
    (s'.tape s.current_id).derivative = 0 ∧
    (s'.tape s.current_id).operation = op ∧
    (s'.tape s.current_id).left = gi := by
  rcases hinit : grad_reverse_init X s with _ | ⟨r0, s1⟩
  · rw [hinit] at h; exact absurd h (by simp)
  · rw [hinit] at h
    rw [Option.some.injEq, Prod.mk.injEq] at h
    obtain ⟨hr, hs⟩ := h
    obtain ⟨hcap, hr0, hcnt, hag, hv, hd, hop⟩ := rev_init_char hinit
    subst hr
    subst hr0
    subst hs
    refine ⟨hcap, rfl, by simp [setNode, hcnt], ?_, ?_, ?_, ?_, ?_⟩
    · intro k hk
      simp only [setNode, Function.update_apply, if_neg hk]
      exact hag k hk
    all_goals simp [setNode, Function.update_apply, hv, hd]


theorem tapeInv_extend {s s' : RevState}
    (hcnt : s'.current_id = s.current_id + 1)
    (hag : ∀ k, k ≠ s.current_id → s'.tape k = s.tape k)
    (hnewL : (s'.tape s.current_id).operation ≠ .NONE →
      (s'.tape s.current_id).left < s.current_id)
    (hnewR : ((s'.tape s.current_id).operation = .ADD ∨
        (s'.tape s.current_id).operation = .MUL) →
      (s'.tape s.current_id).right < s.current_id)
    (hinv : TapeInv s.shapes s.current_id) :
    TapeInv s'.shapes s'.current_id := by
  intro i hi
  rw [hcnt] at hi
  by_cases hic : i = s.current_id
  · subst hic
    cases hcase : (s'.shapes (s.current_id)).operation
    · simp [hcase]
    · have hop : (s'.tape s.current_id).operation = .ADD := hcase
      simp only [hcase]
      exact ⟨hnewL (by rw [hop]; simp), hnewR (Or.inl hop)⟩
    · have hop : (s'.tape s.current_id).operation = .MUL := hcase
      simp only [hcase]
      exact ⟨hnewL (by rw [hop]; simp), hnewR (Or.inr hop)⟩
    · have hop : (s'.tape s.current_id).operation = .NEG := hcase
      simp only [hcase]
      exact hnewL (by rw [hop]; simp)
    · have hop : (s'.tape s.current_id).operation = .INV := hcase
      simp only [hcase]
      exact hnewL (by rw [hop]; simp)
    · have hop : (s'.tape s.current_id).operation = .SIN := hcase
      simp only [hcase]
      exact hnewL (by rw [hop]; simp)
    · have hop : (s'.tape s.current_id).operation = .COS := hcase
      simp only [hcase]
      exact hnewL (by rw [hop]; simp)
    · have hop : (s'.tape s.current_id).operation = .EXP := hcase
      simp only [hcase]
      exact hnewL (by rw [hop]; simp)
    · have hop : (s'.tape s.current_id).operation = .LOG := hcase
      simp only [hcase]
      exact hnewL (by rw [hop]; simp)
  · have hsh : s'.shapes i = s.shapes i := by
      unfold RevState.shapes
      rw [hag i hic]
    rw [hsh]
    exact hinv i (by omega)

theorem revStep_props {s s' : RevState} (h : RevStep s s') :
    s.current_id ≤ s'.current_id ∧
    s'.current_id ≤ GRAD_REVERSE_TAPE_SIZE ∧
    (∀ k, k < s.current_id → s'.tape k = s.tape k) ∧
    (TapeInv s.shapes s.current_id → TapeInv s'.shapes s'.current_id) := by
  cases h
  case init v r hdef =>
    obtain ⟨hcap, hr, hcnt, hag, hv, hd, hop⟩ := rev_init_char hdef
    exact ⟨by omega, by omega, fun k hk => hag k (by omega),
      fun hinv => tapeInv_extend hcnt hag
        (fun hne => absurd hop hne) (fun hc => by
          rcases hc with hc | hc <;> rw [hop] at hc <;> contradiction) hinv⟩
  case add li ri r hli hri hdef =>
    unfold grad_reverse_add at hdef
    obtain ⟨hcap, hr, hcnt, hag, hv, hd, hop, hl, hrr⟩ := rev_binary_char hdef
    exact ⟨by omega, by omega, fun k hk => hag k (by omega),
      fun hinv => tapeInv_extend hcnt hag
        (fun _ => by omega) (fun _ => by omega) hinv⟩
  case mul li ri r hli hri hdef =>
    unfold grad_reverse_mul at hdef
    obtain ⟨hcap, hr, hcnt, hag, hv, hd, hop, hl, hrr⟩ := rev_binary_char hdef
    exact ⟨by omega, by omega, fun k hk => hag k (by omega),
      fun hinv => tapeInv_extend hcnt hag
        (fun _ => by omega) (fun _ => by omega) hinv⟩
  case neg gi r hgi hdef =>
    unfold grad_reverse_neg at hdef
    obtain ⟨hcap, hr, hcnt, hag, hv, hd, hop, hl⟩ := rev_unary_char hdef
    exact ⟨by omega, by omega, fun k hk => hag k (by omega),
      fun hinv => tapeInv_extend hcnt hag
        (fun _ => by omega) (fun hc => by
          rcases hc with hc | hc <;> rw [hop] at hc <;> contradiction) hinv⟩
  case inv gi r hgi hdef =>
    unfold grad_reverse_inv at hdef
    obtain ⟨hcap, hr, hcnt, hag, hv, hd, hop, hl⟩ := rev_unary_char hdef
    exact ⟨by omega, by omega, fun k hk => hag k (by omega),
      fun hinv => tapeInv_extend hcnt hag
        (fun _ => by omega) (fun hc => by
          rcases hc with hc | hc <;> rw [hop] at hc <;> contradiction) hinv⟩
  case sin gi r hgi hdef =>
    unfold grad_reverse_sin at hdef
    obtain ⟨hcap, hr, hcnt, hag, hv, hd, hop, hl⟩ := rev_unary_char hdef
    exact ⟨by omega, by omega, fun k hk => hag k (by omega),
      fun hinv => tapeInv_extend hcnt hag
        (fun _ => by omega) (fun hc => by
          rcases hc with hc | hc <;> rw [hop] at hc <;> contradiction) hinv⟩
  case cos gi r hgi hdef =>
    unfold grad_reverse_cos at hdef
    obtain ⟨hcap, hr, hcnt, hag, hv, hd, hop, hl⟩ := rev_unary_char hdef
    exact ⟨by omega, by omega, fun k hk => hag k (by omega),
      fun hinv => tapeInv_extend hcnt hag
        (fun _ => by omega) (fun hc => by
          rcases hc with hc | hc <;> rw [hop] at hc <;> contradiction) hinv⟩
  case exp gi r hgi hdef =>
    unfold grad_reverse_exp at hdef
    obtain ⟨hcap, hr, hcnt, hag, hv, hd, hop, hl⟩ := rev_unary_char hdef
    exact ⟨by omega, by omega, fun k hk => hag k (by omega),
      fun hinv => tapeInv_extend hcnt hag
        (fun _ => by omega) (fun hc => by
          rcases hc with hc | hc <;> rw [hop] at hc <;> contradiction) hinv⟩
  case log gi r hgi hdef =>
    unfold grad_reverse_log at hdef
    obtain ⟨hcap, hr, hcnt, hag, hv, hd, hop, hl⟩ := rev_unary_char hdef
    exact ⟨by omega, by omega, fun k hk => hag k (by omega),
      fun hinv => tapeInv_extend hcnt hag
        (fun _ => by omega) (fun hc => by
          rcases hc with hc | hc <;> rw [hop] at hc <;> contradiction) hinv⟩
  case sub li ri r hli hri hdef =>
    unfold grad_reverse_sub at hdef
    rcases hneg : grad_reverse_neg ri s with _ | ⟨nr, s1⟩
    · rw [hneg] at hdef
      exact absurd hdef (by simp)
    · rw [hneg] at hdef
      unfold grad_reverse_neg at hneg
      obtain ⟨hcap1, hnr, hcnt1, hag1, hv1, hd1, hop1, hl1⟩ :=
        rev_unary_char hneg
      unfold grad_reverse_add at hdef
      obtain ⟨hcap2, hr2, hcnt2, hag2, hv2, hd2, hop2, hl2, hrr2⟩ :=
        rev_binary_char hdef
      refine ⟨by omega, by omega, ?_, ?_⟩
      · intro k hk
        rw [hag2 k (by omega), hag1 k (by omega)]
      · intro hinv
        have hinv1 : TapeInv s1.shapes s1.current_id :=
          tapeInv_extend hcnt1 hag1 (fun _ => by omega) (fun hc => by
            rcases hc with hc | hc <;> rw [hop1] at hc <;> contradiction) hinv
        exact tapeInv_extend hcnt2 hag2
          (fun _ => by omega) (fun _ => by omega) hinv1
  case div li ri r hli hri hdef =>
    unfold grad_reverse_div at hdef
    rcases hinv0 : grad_reverse_inv ri s with _ | ⟨ir, s1⟩
    · rw [hinv0] at hdef
      exact absurd hdef (by simp)
    · rw [hinv0] at hdef
      unfold grad_reverse_inv at hinv0
      obtain ⟨hcap1, hir, hcnt1, hag1, hv1, hd1, hop1, hl1⟩ :=
        rev_unary_char hinv0
      unfold grad_reverse_mul at hdef
      obtain ⟨hcap2, hr2, hcnt2, hag2, hv2, hd2, hop2, hl2, hrr2⟩ :=
        rev_binary_char hdef
      refine ⟨by omega, by omega, ?_, ?_⟩
      · intro k hk
        rw [hag2 k (by omega), hag1 k (by omega)]
      · intro hinv
        have hinv1 : TapeInv s1.shapes s1.current_id :=
          tapeInv_extend hcnt1 hag1 (fun _ => by omega) (fun hc => by
            rcases hc with hc | hc <;> rw [hop1] at hc <;> contradiction) hinv
        exact tapeInv_extend hcnt2 hag2
          (fun _ => by omega) (fun _ => by omega) hinv1

theorem builtFrom_props {s s' : RevState} (h : BuiltFrom s s') :
    s.current_id ≤ s'.current_id ∧
    (∀ k, k < s.current_id → s'.tape k = s.tape k) ∧
    (TapeInv s.shapes s.current_id → s.current_id ≤ GRAD_REVERSE_TAPE_SIZE →
      TapeInv s'.shapes s'.current_id ∧
        s'.current_id ≤ GRAD_REVERSE_TAPE_SIZE) := by
  induction h with
  | refl => exact ⟨le_refl _, fun k _ => rfl, fun hi hc => ⟨hi, hc⟩⟩
  | tail hab hbc ih =>
    obtain ⟨hle, hag, hinv⟩ := ih
    obtain ⟨hle2, hcap2, hag2, hinv2⟩ := revStep_props hbc
    refine ⟨by omega, ?_, ?_⟩
    · intro k hk
      rw [hag2 k (by omega), hag k hk]
    · intro hi hc
      exact ⟨hinv2 ((hinv hi hc).1), hcap2⟩

theorem built_props {s : RevState} (h : Built s) :
    TapeInv s.shapes s.current_id ∧
      s.current_id ≤ GRAD_REVERSE_TAPE_SIZE := by
  obtain ⟨s0, hb⟩ := h
  have h0 : TapeInv (grad_reverse_start_scope s0).shapes
      (grad_reverse_start_scope s0).current_id := by
    intro i hi
    exact absurd hi (by simp [grad_reverse_start_scope])
  exact (builtFrom_props hb).2.2 h0 (by simp [grad_reverse_start_scope])

theorem backward_dval (s : RevState)
    (hinv : TapeInv s.shapes s.current_id)
    (out : ℕ) (hout : out < s.current_id)
    (j : ℕ) (hj : j < s.current_id) :
    ((grad_reverse_backward out s).tape j).derivative
      = dval s.shapes out j := by
  unfold grad_reverse_backward
  set t0 := zeroBelow s.tape s.current_id with ht0
  set t1 := Function.update t0 out { t0 out with derivative := 1 } with ht1
  have hsh1 : (fun x => (t1 x).shape) = s.shapes := by
    funext x
    rw [ht1, Function.update_apply]
    by_cases hx : x = out
    · subst hx
      rw [if_pos rfl, ht0]
      unfold zeroBelow
      split <;> rfl
    · rw [if_neg hx, ht0]
      unfold zeroBelow
      split <;> rfl
  have hd : ∀ k, k < s.current_id →
      (t1 k).derivative = if k = out then 1 else 0 := by
    intro k hk
    rw [ht1, Function.update_apply]
    by_cases hko : k = out
    · simp [hko]
    · rw [if_neg hko, if_neg hko, ht0]
      unfold zeroBelow
      rw [if_pos hk]
  show (backLoop t1 s.current_id j).derivative = _
  rw [backLoop_deriv s.current_id t1 (by rw [hsh1]; exact hinv) j,
    if_pos hj, hsh1]
  calc ∑ k ∈ Finset.range s.current_id,
        (t1 k).derivative * dval s.shapes k j
      = ∑ k ∈ Finset.range s.current_id,
          (if k = out then dval s.shapes k j else 0) := by
        refine Finset.sum_congr rfl fun k hk => ?_
        rw [hd k (Finset.mem_range.mp hk)]
        by_cases hko : k = out <;> simp [hko]
    _ = dval s.shapes out j := by
        rw [Finset.sum_ite_eq' (Finset.range s.current_id) out
          fun k => dval s.shapes k j]
        simp [Finset.mem_range.mpr hout]

theorem dval_congr_below (m m' : ℕ → NodeShape) (n : ℕ)
    (hinv : TapeInv m n) :
    ∀ i, i < n → (∀ k, k ≤ i → m' k = m k) → ∀ j, dval m' i j = dval m i j := by
  intro i
  induction i using Nat.strong_induction_on with
  | _ i ih =>
    intro hin hag j
    have hii : m' i = m i := hag i (le_refl i)
    have hb := hinv i hin
    conv_lhs => rw [dval]
    conv_rhs => rw [dval]
    rw [hii]
    by_cases hij : i = j
    · rw [if_pos hij, if_pos hij]
    · rw [if_neg hij, if_neg hij]
      cases hop : (m i).operation <;> simp only [hop] at hb ⊢
      · obtain ⟨hl, hr⟩ := hb
        rw [dif_pos hl, dif_pos hl, dif_pos hr, dif_pos hr,
          ih _ hl (by omega) (fun k hk => hag k (by omega)) j,
          ih _ hr (by omega) (fun k hk => hag k (by omega)) j]
      · obtain ⟨hl, hr⟩ := hb
        rw [dif_pos hl, dif_pos hl, dif_pos hr, dif_pos hr,
          ih _ hl (by omega) (fun k hk => hag k (by omega)) j,
          ih _ hr (by omega) (fun k hk => hag k (by omega)) j,
          hag ((m i).left) (by omega), hag ((m i).right) (by omega)]
      · rw [dif_pos hb, dif_pos hb,
          ih _ hb (by omega) (fun k hk => hag k (by omega)) j]
      · rw [dif_pos hb, dif_pos hb,
          ih _ hb (by omega) (fun k hk => hag k (by omega)) j,
          hag ((m i).left) (by omega)]
      · rw [dif_pos hb, dif_pos hb,
          ih _ hb (by omega) (fun k hk => hag k (by omega)) j,
          hag ((m i).left) (by omega)]
      · rw [dif_pos hb, dif_pos hb,
          ih _ hb (by omega) (fun k hk => hag k (by omega)) j,
          hag ((m i).left) (by omega)]
      · rw [dif_pos hb, dif_pos hb,
          ih _ hb (by omega) (fun k hk => hag k (by omega)) j,
          hag ((m i).left) (by omega)]
      · rw [dif_pos hb, dif_pos hb,
          ih _ hb (by omega) (fun k hk => hag k (by omega)) j,
          hag ((m i).left) (by omega)]

theorem operandRef_lt {m : ℕ → NodeShape} {n i o : ℕ}
    (hinv : TapeInv m n) (hi : i < n) (h : OperandRef m i o) : o < i := by
  have hb := hinv i hi
  cases h with
  | left hop =>
      cases hcase : (m i).operation <;> simp only [hcase] at hb hop
      · exact absurd rfl hop
      · exact hb.1
      · exact hb.1
      · exact hb
      · exact hb
      · exact hb
      · exact hb
      · exact hb
      · exact hb
  | right hop =>
      rcases hop with hc | hc <;> simp only [hc] at hb <;> exact hb.2

theorem reaches_le {m : ℕ → NodeShape} {n out j : ℕ}
    (hinv : TapeInv m n) (hout : out < n) (h : Reaches m out j) : j ≤ out := by
  induction h with
  | refl => exact le_refl _
  | @tail b c hab hbc ih =>
      exact le_trans (le_of_lt (operandRef_lt hinv (by omega) hbc)) ih

/-! ## Witness construction chain: x*x at x = 5, plus a dead node -/

theorem wRevInit1 :
    grad_reverse_init 5 (grad_reverse_start_scope wRevS0) = some (0, wRevS1) :=
  rfl

theorem wRevMul2 : grad_reverse_mul 0 0 wRevS1 = some (1, wRevS2) := rfl

theorem wRevInit3 : grad_reverse_init 7 wRevS2 = some (2, wRevS3) := rfl

theorem built_wRevS2 : Built wRevS2 :=
  ⟨wRevS0,
    Relation.ReflTransGen.tail
      (Relation.ReflTransGen.single (RevStep.init 5 0 _ _ wRevInit1))
      (RevStep.mul 0 0 1 _ _ (by decide) (by decide) wRevMul2)⟩

theorem builtFrom_wRevS3 : BuiltFrom wRevS2 wRevS3 :=
  Relation.ReflTransGen.single (RevStep.init 7 2 _ _ wRevInit3)

/-! ## C1, C6, C7 -/

/-- C1: for every tape built in the current scope from `init` and the
operations `add, mul, neg, inv, sub, div, sin, cos, exp, log`, and every
node `output` of that tape, after `grad_reverse_backward(output)` returns,
every live node's adjoint (its `derivative` field) equals the partial
derivative of `output`'s value with respect to that node's value, computed
by the chain rule over the recorded graph (`dval`). -/
theorem grad_reverse_backward_correct (s : RevState) (h : Built s)
    (out : ℕ) (hout : out < s.current_id)
    (j : ℕ) (hj : j < s.current_id) :
    ((grad_reverse_backward out s).tape j).derivative
      = dval s.shapes out j :=
  backward_dval s (built_props h).1 out hout j hj

/-- Witness for C1: the tape of `x*x` at `x = 5`, output node `1`, leaf
node `0`. -/
theorem grad_reverse_backward_correct_witness :
    ((grad_reverse_backward 1 wRevS2).tape 0).derivative
      = dval wRevS2.shapes 1 0 :=
  grad_reverse_backward_correct wRevS2 built_wRevS2 1 (by decide) 0 (by decide)

/-- C6: for every reverse-mode tape built within one scope by `init` and the
construction operations, every node's operand reference points to a node
with a strictly smaller tape index, so iterating the tape from the highest
live index down to zero is a valid reverse-topological traversal. -/
theorem tape_topological_invariant (s : RevState) (h : Built s) :
    TapeInv s.shapes s.current_id :=
  (built_props h).1

/-- Witness for C6 at the `x*x` tape. -/
theorem tape_topological_invariant_witness :
    TapeInv wRevS2.shapes wRevS2.current_id :=
  tape_topological_invariant wRevS2 built_wRevS2

/-- C7: appending further reverse-mode nodes after the designated output
node (which the output cannot reference) and then running
`backward(output)` yields the same adjoint at every node reachable from
`output` as running `backward(output)` without the extra nodes. -/
theorem dead_nodes_irrelevant (s s' : RevState) (h : Built s)
    (hext : BuiltFrom s s') (out : ℕ) (hout : out < s.current_id)
    (j : ℕ) (hreach : Reaches s.shapes out j) :
    ((grad_reverse_backward out s').tape j).derivative
      = ((grad_reverse_backward out s).tape j).derivative := by
  obtain ⟨hinv, hcap⟩ := built_props h
  have h' : Built s' := by
    obtain ⟨s0, hb⟩ := h
    exact ⟨s0, hb.trans hext⟩
  obtain ⟨hinv', hcap'⟩ := built_props h'
  obtain ⟨hle, hag, _⟩ := builtFrom_props hext
  have hj : j ≤ out := reaches_le hinv hout hreach
  rw [backward_dval s hinv out hout j (by omega),
    backward_dval s' hinv' out (by omega) j (by omega)]
  exact dval_congr_below s.shapes s'.shapes s.current_id hinv out hout
    (fun k hk => by unfold RevState.shapes; rw [hag k (by omega)]) j

/-- Witness for C7: a dead `init 7` after the `x*x` output does not change
the leaf's adjoint. -/
theorem dead_nodes_irrelevant_witness :
    ((grad_reverse_backward 1 wRevS3).tape 0).derivative
      = ((grad_reverse_backward 1 wRevS2).tape 0).derivative :=
  dead_nodes_irrelevant wRevS2 wRevS3 built_wRevS2 builtFrom_wRevS3 1
    (by decide) 0
    (Relation.ReflTransGen.single (OperandRef.left 1 (by decide)))

/-! ## Forward-mode evaluation computes the symbolic derivative -/

theorem fwdE_correct {n : ℕ} (hn : n ≤ GRAD_FORWARD_TAPE_SIZE)
    (x : Fin n → ℝ) (env : Fin n → grad_forward_t)
    (henv : ∀ v : Fin n, (env v).value = x v ∧
      ∀ i : Fin n, (env v).derivative i = if (i : ℕ) = (v : ℕ) then 1 else 0) :
    ∀ e : Expr n, (fwdE n env e).value = Expr.eval x e ∧
      ∀ i : Fin n, (fwdE n env e).derivative i = Expr.D x e i := by
  intro e
  induction e with
  | var v =>
      exact ⟨(henv v).1, fun i => by
        simpa [fwdE, Expr.D] using (henv v).2 i⟩
  | add l r ihl ihr =>
      refine ⟨?_, fun i => ?_⟩
      · simp [fwdE, grad_forward_add, Expr.eval, ihl.1, ihr.1]
      · simp [fwdE, grad_forward_add, Expr.D, i.isLt, ihl.2 i, ihr.2 i]
  | addC g c ihg =>
      refine ⟨?_, fun i => ?_⟩
      · simp [fwdE, grad_forward_add_c, Expr.eval, ihg.1]
      · have hi : (i : ℕ) < GRAD_FORWARD_TAPE_SIZE := lt_of_lt_of_le i.isLt hn
        simp [fwdE, grad_forward_add_c, Expr.D, hi, ihg.2 i]
  | mul l r ihl ihr =>
      refine ⟨?_, fun i => ?_⟩
      · simp [fwdE, grad_forward_mul, Expr.eval, ihl.1, ihr.1]
      · simp [fwdE, grad_forward_mul, Expr.D, i.isLt,
          ihl.1, ihr.1, ihl.2 i, ihr.2 i]
  | mulC g c ihg =>
      refine ⟨?_, fun i => ?_⟩
      · simp [fwdE, grad_forward_mul_c, Expr.eval, ihg.1]
      · simp [fwdE, grad_forward_mul_c, Expr.D, i.isLt, ihg.2 i]
  | inv g ihg =>
      refine ⟨?_, fun i => ?_⟩
      · simp [fwdE, grad_forward_inv, Expr.eval, ihg.1]
      · simp [fwdE, grad_forward_inv, Expr.D, i.isLt, ihg.1, ihg.2 i]
  | div l r ihl ihr =>
      refine ⟨?_, fun i => ?_⟩
      · simp [fwdE, grad_forward_div, grad_forward_mul, grad_forward_inv,
          Expr.eval, ihl.1, ihr.1]
      · simp [fwdE, grad_forward_div, grad_forward_mul, grad_forward_inv,
          Expr.D, i.isLt, ihl.1, ihr.1, ihl.2 i, ihr.2 i]
  | neg g ihg =>
      refine ⟨?_, fun i => ?_⟩
      · simp [fwdE, grad_forward_neg, grad_forward_mul_c, Expr.eval, ihg.1]
      · simp [fwdE, grad_forward_neg, grad_forward_mul_c, Expr.D,
          i.isLt, ihg.2 i]
  | sub l r ihl ihr =>
      refine ⟨?_, fun i => ?_⟩
      · simp [fwdE, grad_forward_sub, grad_forward_add, grad_forward_neg,
          grad_forward_mul_c, Expr.eval, ihl.1, ihr.1]
      · simp [fwdE, grad_forward_sub, grad_forward_add, grad_forward_neg,
          grad_forward_mul_c, Expr.D, i.isLt, ihl.2 i, ihr.2 i]
  | exp g ihg =>
      refine ⟨?_, fun i => ?_⟩
      · simp [fwdE, grad_forward_exp, Expr.eval, ihg.1]
      · simp [fwdE, grad_forward_exp, Expr.D, i.isLt, ihg.1, ihg.2 i]
  | log g ihg =>
      refine ⟨?_, fun i => ?_⟩
      · simp [fwdE, grad_forward_log, Expr.eval, ihg.1]
      · simp [fwdE, grad_forward_log, Expr.D, i.isLt, ihg.1, ihg.2 i]
  | sin g ihg =>
      refine ⟨?_, fun i => ?_⟩
      · simp [fwdE, grad_forward_sin, Expr.eval, ihg.1]
      · simp [fwdE, grad_forward_sin, Expr.D, i.isLt, ihg.1, ihg.2 i]
  | cos g ihg =>
      refine ⟨?_, fun i => ?_⟩
      · simp [fwdE, grad_forward_cos, Expr.eval, ihg.1]
      · simp [fwdE, grad_forward_cos, Expr.D, i.isLt, ihg.1, ihg.2 i]
  | tan g ihg =>
      refine ⟨?_, fun i => ?_⟩
      · simp [fwdE, grad_forward_tan, grad_forward_div, grad_forward_mul,
          grad_forward_inv, grad_forward_sin, grad_forward_cos,
          Expr.eval, ihg.1]
      · simp [fwdE, grad_forward_tan, grad_forward_div, grad_forward_mul,
          grad_forward_inv, grad_forward_sin, grad_forward_cos,
          Expr.D, i.isLt, ihg.1, ihg.2 i]
  | sqrt g ihg =>
      refine ⟨?_, fun i => ?_⟩
      · simp [fwdE, grad_forward_sqrt, Expr.eval, ihg.1]
      · simp [fwdE, grad_forward_sqrt, Expr.D, i.isLt, ihg.1, ihg.2 i]
  | pow g e ihg =>
      refine ⟨?_, fun i => ?_⟩
      · simp [fwdE, grad_forward_pow, Expr.eval, ihg.1]
      · simp [fwdE, grad_forward_pow, Expr.D, i.isLt, ihg.1, ihg.2 i]

theorem fwdInitMany_seedList :
    ∀ (vs : List ℝ) (cur : ℕ), cur + vs.length ≤ GRAD_FORWARD_TAPE_SIZE →
      fwdInitMany vs cur = some (seedList vs cur, cur + vs.length) := by
  intro vs
  induction vs with
  | nil => intro cur h; simp [fwdInitMany, seedList]
  | cons v rest ih =>
      intro cur h
      have hcur : cur < GRAD_FORWARD_TAPE_SIZE := by
        simp [List.length_cons] at h; omega
      have hrec := ih (cur + 1) (by simp [List.length_cons] at h ⊢; omega)
      simp only [fwdInitMany, grad_forward_init, if_pos hcur, hrec,
        seedList, List.length_cons, Option.some.injEq, Prod.mk.injEq]
      exact ⟨trivial, by omega⟩

theorem seedList_getD :
    ∀ (vs : List ℝ) (cur k : ℕ), k < vs.length →
      (seedList vs cur).getD k fwdZeroStruct =
        { fwdZeroStruct with
            value := vs.getD k 0
            id := cur + k
            derivative := Function.update (fun _ => (0 : ℝ)) (cur + k) 1 } := by
  intro vs
  induction vs with
  | nil => intro cur k h; simp at h
  | cons v rest ih =>
      intro cur k h
      cases k with
      | zero => simp [seedList]
      | succ k =>
          have hk : k < rest.length := by simp [List.length_cons] at h; omega
          have := ih (cur + 1) k hk
          simp only [seedList, List.getD_cons_succ]
          rw [this]
          have : cur + 1 + k = cur + (k + 1) := by omega
          rw [this]

/-! ## The symbolic derivative is the mathematical derivative -/

theorem expr_hasDerivAt {n : ℕ} (x : Fin n → ℝ) :
    ∀ e : Expr n, Expr.Safe x e → ∀ i : Fin n,
      HasDerivAt (fun t => Expr.eval (Function.update x i t) e)
        (Expr.D x e i) (x i) := by
  intro e
  induction e with
  | var v =>
      intro hs i
      simp only [Expr.eval, Expr.D]
      by_cases hiv : (i : ℕ) = (v : ℕ)
      · have hv : v = i := Fin.ext hiv.symm
        subst hv
        simp only [Function.update_same, if_pos rfl]
        exact hasDerivAt_id (x v)
      · have hv : v ≠ i := fun hc => hiv (by rw [hc])
        simp only [Function.update_noteq hv, if_neg hiv]
        exact hasDerivAt_const (x i) (x v)
  | add l r ihl ihr =>
      intro hs i
      obtain ⟨hsl, hsr⟩ := hs
      have h := (ihl hsl i).add (ihr hsr i)
      simp only [Expr.eval, Expr.D]
      exact h
  | addC g c ihg =>
      intro hs i
      have h := (ihg hs i).add_const c
      simp only [Expr.eval, Expr.D]
      exact h
  | mul l r ihl ihr =>
      intro hs i
      obtain ⟨hsl, hsr⟩ := hs
      have h := (ihl hsl i).mul (ihr hsr i)
      rw [Function.update_eq_self] at h
      simp only [Expr.eval, Expr.D]
      exact h
  | mulC g c ihg =>
      intro hs i
      have h := (ihg hs i).mul_const c
      simp only [Expr.eval, Expr.D]
      convert h using 1
      ring
  | inv g ihg =>
      intro hs i
      obtain ⟨hsg, hne⟩ := hs
      have hne' : Expr.eval (Function.update x i (x i)) g ≠ 0 := by
        rw [Function.update_eq_self]; exact hne
      have h := (ihg hsg i).inv hne'
      rw [Function.update_eq_self] at h
      simp only [Expr.eval, Expr.D, one_div]
      convert h using 1
      ring
  | div l r ihl ihr =>
      intro hs i
      obtain ⟨hsl, hsr, hne⟩ := hs
      have hne' : Expr.eval (Function.update x i (x i)) r ≠ 0 := by
        rw [Function.update_eq_self]; exact hne
      have h := (ihl hsl i).mul ((ihr hsr i).inv hne')
      rw [Function.update_eq_self] at h
      simp only [Expr.eval, Expr.D, one_div]
      convert h using 1
      ring
  | neg g ihg =>
      intro hs i
      have h := (ihg hs i).mul_const (-1)
      simp only [Expr.eval, Expr.D]
      convert h using 1
      ring
  | sub l r ihl ihr =>
      intro hs i
      obtain ⟨hsl, hsr⟩ := hs
      have h := (ihl hsl i).add ((ihr hsr i).mul_const (-1))
      simp only [Expr.eval, Expr.D]
      convert h using 1
      ring
  | exp g ihg =>
      intro hs i
      have h := HasDerivAt.exp (ihg hs i)
      rw [Function.update_eq_self] at h
      simp only [Expr.eval, Expr.D]
      exact h
  | log g ihg =>
      intro hs i
      obtain ⟨hsg, hne⟩ := hs
      have hne' : Expr.eval (Function.update x i (x i)) g ≠ 0 := by
        rw [Function.update_eq_self]; exact hne
      have h := HasDerivAt.log (ihg hsg i) hne'
      rw [Function.update_eq_self] at h
      simp only [Expr.eval, Expr.D]
      convert h using 1
      ring
  | sin g ihg =>
      intro hs i
      have h := HasDerivAt.sin (ihg hs i)
      rw [Function.update_eq_self] at h
      simp only [Expr.eval, Expr.D]
      exact h
  | cos g ihg =>
      intro hs i
      have h := HasDerivAt.cos (ihg hs i)
      rw [Function.update_eq_self] at h
      simp only [Expr.eval, Expr.D]
      exact h
  | tan g ihg =>
      intro hs i
      obtain ⟨hsg, hne⟩ := hs
      have hne' : Real.cos (Expr.eval (Function.update x i (x i)) g) ≠ 0 := by
        rw [Function.update_eq_self]; exact hne
      have h := (HasDerivAt.sin (ihg hsg i)).mul
        ((HasDerivAt.cos (ihg hsg i)).inv hne')
      rw [Function.update_eq_self] at h
      simp only [Expr.eval, Expr.D, one_div]
      convert h using 1
      ring
  | sqrt g ihg =>
      intro hs i
      obtain ⟨hsg, hne⟩ := hs
      have hne' : Expr.eval (Function.update x i (x i)) g ≠ 0 := by
        rw [Function.update_eq_self]; exact hne
      have h := HasDerivAt.sqrt (ihg hsg i) hne'
      rw [Function.update_eq_self] at h
      simp only [Expr.eval, Expr.D]
      convert h using 1
      rw [show (0.5 : ℝ) = 1 / 2 by norm_num]
      ring
  | pow g e ihg =>
      intro hs i
      obtain ⟨hsg, hcond⟩ := hs
      have hcond' : Expr.eval (Function.update x i (x i)) g ≠ 0 ∨ 1 ≤ e := by
        rw [Function.update_eq_self]; exact hcond
      have h := HasDerivAt.rpow_const (ihg hsg i) hcond'
      rw [Function.update_eq_self] at h
      simp only [Expr.eval, Expr.D]
      convert h using 1
      ring

theorem seed_env_ok {n : ℕ} (x : Fin n → ℝ) :
    ∀ v : Fin n,
      ((seedList (List.ofFn x) 0).getD v fwdZeroStruct).value = x v ∧
      ∀ k : Fin n,
        ((seedList (List.ofFn x) 0).getD v fwdZeroStruct).derivative k =
          if (k : ℕ) = (v : ℕ) then 1 else 0 := by
  intro v
  have hv : (v : ℕ) < (List.ofFn x).length := by
    rw [List.length_ofFn]; exact v.isLt
  rw [seedList_getD (List.ofFn x) 0 v hv]
  constructor
  · show (List.ofFn x).getD (v : ℕ) 0 = x v
    rw [List.getD_eq_getElem _ _ hv, List.getElem_ofFn]
  · intro k
    show Function.update (fun _ => (0 : ℝ)) (0 + (v : ℕ)) 1 (k : ℕ) = _
    rw [Function.update_apply]
    simp

/-! ## C2: the forward-mode master theorem -/

/-- C2: every Variable produced by the elementary forward operations from
seed Variables created by `grad_forward_init` in the current scope holds
the value of its expression and, at each index `i` below the current slot
count, the exact partial derivative (in the sense of `HasDerivAt`) of its
value with respect to the seed variable with slot id `i`; the derivative
side conditions (`Expr.Safe`) exclude the spec's undefined-derivative
points.  In particular `mul(l,r)` carries `l.value * r.value` and the
product-rule entries, which is the `Expr.mul` case of the statement. -/
theorem grad_forward_master (n : ℕ) (hn : n ≤ GRAD_FORWARD_TAPE_SIZE)
    (x : Fin n → ℝ) (gs : List grad_forward_t) (cur1 : ℕ)
    (hinit : fwdInitMany (List.ofFn x) 0 = some (gs, cur1))
    (e : Expr n) (hs : Expr.Safe x e) (i : Fin n) :
    (fwdE n (fun k => gs.getD k fwdZeroStruct) e).value = Expr.eval x e ∧
    HasDerivAt (fun t => Expr.eval (Function.update x i t) e)
      ((fwdE n (fun k => gs.getD k fwdZeroStruct) e).derivative i) (x i) := by
  have hlen : (List.ofFn x).length = n := List.length_ofFn x
  have heq := fwdInitMany_seedList (List.ofFn x) 0 (by rw [hlen]; omega)
  rw [heq, Option.some.injEq, Prod.mk.injEq] at hinit
  obtain ⟨hgs, _⟩ := hinit
  subst hgs
  have hF := fwdE_correct hn x (fun k => (seedList (List.ofFn x) 0).getD k
    fwdZeroStruct) (seed_env_ok x) e
  exact ⟨hF.1, by rw [hF.2 i]; exact expr_hasDerivAt x e hs i⟩

/-- Witness for C2: `x*x` at `x = 3` built from one seed. -/
theorem grad_forward_master_witness :
    (fwdE 1 (fun k =>
        (seedList (List.ofFn fun _ : Fin 1 => (3 : ℝ)) 0).getD k
          fwdZeroStruct) (Expr.mul (Expr.var (0 : Fin 1)) (Expr.var 0))).value
      = Expr.eval (fun _ : Fin 1 => (3 : ℝ))
          (Expr.mul (Expr.var (0 : Fin 1)) (Expr.var 0)) ∧
    HasDerivAt
      (fun t => Expr.eval
        (Function.update (fun _ : Fin 1 => (3 : ℝ)) 0 t)
        (Expr.mul (Expr.var (0 : Fin 1)) (Expr.var 0)))
      ((fwdE 1 (fun k =>
          (seedList (List.ofFn fun _ : Fin 1 => (3 : ℝ)) 0).getD k
            fwdZeroStruct) (Expr.mul (Expr.var (0 : Fin 1)) (Expr.var 0))).derivative
        (0 : Fin 1))
      ((fun _ : Fin 1 => (3 : ℝ)) 0) :=
  grad_forward_master 1 (by norm_num [GRAD_FORWARD_TAPE_SIZE])
    (fun _ => (3 : ℝ)) _ _
    (fwdInitMany_seedList _ 0 (by norm_num [GRAD_FORWARD_TAPE_SIZE]))
    (Expr.mul (Expr.var (0 : Fin 1)) (Expr.var 0)) ⟨trivial, trivial⟩ 0

/-! ## Reverse-mode construction computes the symbolic derivative -/

theorem built_tail {s s' : RevState} (h : Built s) (hstep : RevStep s s') :
    Built s' := by
  obtain ⟨s0, hb⟩ := h
  exact ⟨s0, hb.tail hstep⟩

theorem dval_transfer {s2 s' : RevState} (hB2 : Built s2)
    (hag : ∀ k, k < s2.current_id → s'.tape k = s2.tape k)
    {a : ℕ} (ha : a < s2.current_id) (j : ℕ) :
    dval s'.shapes a j = dval s2.shapes a j :=
  dval_congr_below s2.shapes s'.shapes s2.current_id (built_props hB2).1 a ha
    (fun k hk => by unfold RevState.shapes; rw [hag k (by omega)]) j

theorem seeds_transfer {n : ℕ} {x : Fin n → ℝ} {s s1 : RevState}
    (hn : n ≤ s.current_id)
    (hag : ∀ k, k < s.current_id → s1.tape k = s.tape k)
    (hseeds : ∀ k : Fin n,
      (s.tape k).value = x k ∧ (s.tape k).operation = .NONE) :
    ∀ k : Fin n, (s1.tape k).value = x k ∧ (s1.tape k).operation = .NONE :=
  fun k => by
    rw [hag k (by have := k.isLt; omega)]
    exact hseeds k

theorem revE_correct {n : ℕ} (x : Fin n → ℝ) :
    ∀ e : Expr n, Expr.Core e →
    ∀ (s : RevState) (root : ℕ) (s' : RevState),
      Built s → n ≤ s.current_id →
      (∀ k : Fin n, (s.tape k).value = x k ∧ (s.tape k).operation = .NONE) →
      revE e s = some (root, s') →
      Built s' ∧ s.current_id ≤ s'.current_id ∧ root < s'.current_id ∧
      (∀ k, k < s.current_id → s'.tape k = s.tape k) ∧
      (s'.tape root).value = Expr.eval x e ∧
      (∀ i' : Fin n, dval s'.shapes root (i' : ℕ) = Expr.D x e i') := by
  intro e
  induction e with
  | var v =>
      intro hcore s root s' hbuilt hn hseeds hrun
      simp only [revE, Option.some.injEq, Prod.mk.injEq] at hrun
      obtain ⟨hroot, hs'⟩ := hrun
      subst hroot
      subst hs'
      have hv := v.isLt
      refine ⟨hbuilt, le_refl _, by omega, fun k hk => rfl, (hseeds v).1, ?_⟩
      intro i'
      rw [dval]
      by_cases hvi : (v : ℕ) = (i' : ℕ)
      · rw [if_pos hvi]
        simp only [Expr.D]
        rw [if_pos hvi.symm]
      · rw [if_neg hvi,
          show ((RevState.shapes s (v : ℕ)).operation) = grad_reverse_op_t.NONE
            from (hseeds v).2]
        simp only [Expr.D]
        rw [if_neg (fun hc => hvi hc.symm)]
  | add l r ihl ihr =>
      intro hcore s root s' hbuilt hn hseeds hrun
      obtain ⟨hcl, hcr⟩ := hcore
      simp only [revE] at hrun
      rcases h1 : revE l s with _ | ⟨a, s1⟩
      · simp only [h1] at hrun
        exact absurd hrun (by simp)
      simp only [h1] at hrun
      rcases h2 : revE r s1 with _ | ⟨b, s2⟩
      · simp only [h2] at hrun
        exact absurd hrun (by simp)
      simp only [h2] at hrun
      obtain ⟨hB1, hle1, ha1, hag1, hv1, hdv1⟩ :=
        ihl hcl s a s1 hbuilt hn hseeds h1
      obtain ⟨hB2, hle2, hb2, hag2, hv2, hdv2⟩ :=
        ihr hcr s1 b s2 hB1 (by omega)
          (seeds_transfer (by omega) hag1 hseeds) h2
      have hBx : Built s' := built_tail hB2
        (RevStep.add a b root s2 s' (by omega) hb2 hrun)
      have hrun2 := hrun
      unfold grad_reverse_add at hrun2
      obtain ⟨hcap, hroot, hcnt, hag3, hv3, hd3, hop3, hl3, hr3⟩ :=
        rev_binary_char hrun2
      subst hroot
      have hvala : (s2.tape a).value = Expr.eval x l := by
        rw [hag2 a (by omega)]
        exact hv1
      refine ⟨hBx, by omega, by omega, ?_, ?_, ?_⟩
      · intro k hk
        rw [hag3 k (by omega), hag2 k (by omega), hag1 k hk]
      · rw [hv3, hvala, hv2]
        simp only [Expr.eval]
      · intro i'
        have hfin := i'.isLt
        have hd : dval s'.shapes s2.current_id (i' : ℕ)
            = dval s'.shapes a (i' : ℕ) + dval s'.shapes b (i' : ℕ) := by
          rw [dval, if_neg (by omega : ¬ s2.current_id = (i' : ℕ)),
            show ((s'.shapes s2.current_id).operation) = grad_reverse_op_t.ADD
              from hop3,
            show ((s'.shapes s2.current_id).left) = a from hl3,
            show ((s'.shapes s2.current_id).right) = b from hr3,
            dif_pos (show a < s2.current_id from by omega),
            dif_pos (show b < s2.current_id from hb2)]
        rw [hd,
          dval_transfer hB2 (fun k hk => hag3 k (by omega))
            (show a < s2.current_id from by omega) (i' : ℕ),
          dval_transfer hB1 hag2 ha1 (i' : ℕ),
          dval_transfer hB2 (fun k hk => hag3 k (by omega)) hb2 (i' : ℕ),
          hdv1 i', hdv2 i']
        simp only [Expr.D]
  | mul l r ihl ihr =>
      intro hcore s root s' hbuilt hn hseeds hrun
      obtain ⟨hcl, hcr⟩ := hcore
      simp only [revE] at hrun
      rcases h1 : revE l s with _ | ⟨a, s1⟩
      · simp only [h1] at hrun
        exact absurd hrun (by simp)
      simp only [h1] at hrun
      rcases h2 : revE r s1 with _ | ⟨b, s2⟩
      · simp only [h2] at hrun
        exact absurd hrun (by simp)
      simp only [h2] at hrun
      obtain ⟨hB1, hle1, ha1, hag1, hv1, hdv1⟩ :=
        ihl hcl s a s1 hbuilt hn hseeds h1
      obtain ⟨hB2, hle2, hb2, hag2, hv2, hdv2⟩ :=
        ihr hcr s1 b s2 hB1 (by omega)
          (seeds_transfer (by omega) hag1 hseeds) h2
      have hBx : Built s' := built_tail hB2
        (RevStep.mul a b root s2 s' (by omega) hb2 hrun)
      have hrun2 := hrun
      unfold grad_reverse_mul at hrun2
      obtain ⟨hcap, hroot, hcnt, hag3, hv3, hd3, hop3, hl3, hr3⟩ :=
        rev_binary_char hrun2
      subst hroot
      have hvala : (s2.tape a).value = Expr.eval x l := by
        rw [hag2 a (by omega)]
        exact hv1
      have hva' : (s'.shapes a).value = Expr.eval x l := by
        show (s'.tape a).value = _
        rw [hag3 a (by omega)]
        exact hvala
      have hvb' : (s'.shapes b).value = Expr.eval x r := by
        show (s'.tape b).value = _
        rw [hag3 b (by omega)]
        exact hv2
      refine ⟨hBx, by omega, by omega, ?_, ?_, ?_⟩
      · intro k hk
        rw [hag3 k (by omega), hag2 k (by omega), hag1 k hk]
      · rw [hv3, hvala, hv2]
        simp only [Expr.eval]
      · intro i'
        have hfin := i'.isLt
        have hd : dval s'.shapes s2.current_id (i' : ℕ)
            = (s'.shapes b).value * dval s'.shapes a (i' : ℕ)
              + (s'.shapes a).value * dval s'.shapes b (i' : ℕ) := by
          rw [dval, if_neg (by omega : ¬ s2.current_id = (i' : ℕ)),
            show ((s'.shapes s2.current_id).operation) = grad_reverse_op_t.MUL
              from hop3,
            show ((s'.shapes s2.current_id).left) = a from hl3,
            show ((s'.shapes s2.current_id).right) = b from hr3,
            dif_pos (show a < s2.current_id from by omega),
            dif_pos (show b < s2.current_id from hb2)]
        rw [hd, hva', hvb',
          dval_transfer hB2 (fun k hk => hag3 k (by omega))
            (show a < s2.current_id from by omega) (i' : ℕ),
          dval_transfer hB1 hag2 ha1 (i' : ℕ),
          dval_transfer hB2 (fun k hk => hag3 k (by omega)) hb2 (i' : ℕ),
          hdv1 i', hdv2 i']
        simp only [Expr.D]
        try ring
  | sub l r ihl ihr =>
      intro hcore s root s' hbuilt hn hseeds hrun
      obtain ⟨hcl, hcr⟩ := hcore
      simp only [revE] at hrun
      rcases h1 : revE l s with _ | ⟨a, s1⟩
      · simp only [h1] at hrun
        exact absurd hrun (by simp)
      simp only [h1] at hrun
      rcases h2 : revE r s1 with _ | ⟨b, s2⟩
      · simp only [h2] at hrun
        exact absurd hrun (by simp)
      simp only [h2] at hrun
      obtain ⟨hB1, hle1, ha1, hag1, hv1, hdv1⟩ :=
        ihl hcl s a s1 hbuilt hn hseeds h1
      obtain ⟨hB2, hle2, hb2, hag2, hv2, hdv2⟩ :=
        ihr hcr s1 b s2 hB1 (by omega)
          (seeds_transfer (by omega) hag1 hseeds) h2
      have hBx : Built s' := built_tail hB2
        (RevStep.sub a b root s2 s' (by omega) hb2 hrun)
      have hrun2 := hrun
      unfold grad_reverse_sub at hrun2
      rcases h3 : grad_reverse_neg b s2 with _ | ⟨nb, s3⟩
      · simp only [h3] at hrun2
        exact absurd hrun2 (by simp)
      simp only [h3] at hrun2
      have h3c := h3
      unfold grad_reverse_neg at h3c
      obtain ⟨hcapA, hnb, hcntA, hagA, hvA, hdA, hopA, hlA⟩ :=
        rev_unary_char h3c
      have hrun3 := hrun2
      unfold grad_reverse_add at hrun3
      obtain ⟨hcapB, hroot, hcntB, hagB, hvB, hdB, hopB, hlB, hrB⟩ :=
        rev_binary_char hrun3
      subst hnb
      subst hroot
      have hvala : (s2.tape a).value = Expr.eval x l := by
        rw [hag2 a (by omega)]
        exact hv1
      have hvalaS3 : (s3.tape a).value = Expr.eval x l := by
        rw [hagA a (by omega)]
        exact hvala
      have hvalnb : (s3.tape s2.current_id).value = -(Expr.eval x r) := by
        rw [hvA, hv2]
      refine ⟨hBx, by omega, by omega, ?_, ?_, ?_⟩
      · intro k hk
        rw [hagB k (by omega), hagA k (by omega), hag2 k (by omega), hag1 k hk]
      · rw [hvB, hvalaS3, hvalnb]
        simp only [Expr.eval]
        try ring
      · intro i'
        have hfin := i'.isLt
        have hopN : (s'.tape s2.current_id).operation = .NEG := by
          rw [hagB s2.current_id (by omega)]
          exact hopA
        have hlN : (s'.tape s2.current_id).left = b := by
          rw [hagB s2.current_id (by omega)]
          exact hlA
        have hd1 : dval s'.shapes s3.current_id (i' : ℕ)
            = dval s'.shapes a (i' : ℕ)
              + dval s'.shapes s2.current_id (i' : ℕ) := by
          rw [dval, if_neg (by omega : ¬ s3.current_id = (i' : ℕ)),
            show ((s'.shapes s3.current_id).operation) = grad_reverse_op_t.ADD
              from hopB,
            show ((s'.shapes s3.current_id).left) = a from hlB,
            show ((s'.shapes s3.current_id).right) = s2.current_id from hrB,
            dif_pos (show a < s3.current_id from by omega),
            dif_pos (show s2.current_id < s3.current_id from by omega)]
        have hd2 : dval s'.shapes s2.current_id (i' : ℕ)
            = -(dval s'.shapes b (i' : ℕ)) := by
          rw [dval, if_neg (by omega : ¬ s2.current_id = (i' : ℕ)),
            show ((s'.shapes s2.current_id).operation) = grad_reverse_op_t.NEG
              from hopN,
            show ((s'.shapes s2.current_id).left) = b from hlN,
            dif_pos (show b < s2.current_id from hb2)]
        have hagS2 : ∀ k, k < s2.current_id → s'.tape k = s2.tape k := by
          intro k hk
          rw [hagB k (by omega), hagA k (by omega)]
        rw [hd1, hd2,
          dval_transfer hB2 hagS2 (show a < s2.current_id from by omega)
            (i' : ℕ),
          dval_transfer hB1 hag2 ha1 (i' : ℕ),
          dval_transfer hB2 hagS2 hb2 (i' : ℕ),
          hdv1 i', hdv2 i']
        simp only [Expr.D]
        try ring
  | div l r ihl ihr =>
      intro hcore s root s' hbuilt hn hseeds hrun
      obtain ⟨hcl, hcr⟩ := hcore
      simp only [revE] at hrun
      rcases h1 : revE l s with _ | ⟨a, s1⟩
      · simp only [h1] at hrun
        exact absurd hrun (by simp)
      simp only [h1] at hrun
      rcases h2 : revE r s1 with _ | ⟨b, s2⟩
      · simp only [h2] at hrun
        exact absurd hrun (by simp)
      simp only [h2] at hrun
      obtain ⟨hB1, hle1, ha1, hag1, hv1, hdv1⟩ :=
        ihl hcl s a s1 hbuilt hn hseeds h1
      obtain ⟨hB2, hle2, hb2, hag2, hv2, hdv2⟩ :=
        ihr hcr s1 b s2 hB1 (by omega)
          (seeds_transfer (by omega) hag1 hseeds) h2
      have hBx : Built s' := built_tail hB2
        (RevStep.div a b root s2 s' (by omega) hb2 hrun)
      have hrun2 := hrun
      unfold grad_reverse_div at hrun2
      rcases h3 : grad_reverse_inv b s2 with _ | ⟨nb, s3⟩
      · simp only [h3] at hrun2
        exact absurd hrun2 (by simp)
      simp only [h3] at hrun2
      have h3c := h3
      unfold grad_reverse_inv at h3c
      obtain ⟨hcapA, hnb, hcntA, hagA, hvA, hdA, hopA, hlA⟩ :=
        rev_unary_char h3c
      have hrun3 := hrun2
      unfold grad_reverse_mul at hrun3
      obtain ⟨hcapB, hroot, hcntB, hagB, hvB, hdB, hopB, hlB, hrB⟩ :=
        rev_binary_char hrun3
      subst hnb
      subst hroot
      have hvala : (s2.tape a).value = Expr.eval x l := by
        rw [hag2 a (by omega)]
        exact hv1
      have hvalaS3 : (s3.tape a).value = Expr.eval x l := by
        rw [hagA a (by omega)]
        exact hvala
      have hvalnb : (s3.tape s2.current_id).value = 1 / Expr.eval x r := by
        rw [hvA, hv2]
      have hva' : (s'.shapes a).value = Expr.eval x l := by
        show (s'.tape a).value = _
        rw [hagB a (by omega)]
        exact hvalaS3
      have hvb' : (s'.shapes b).value = Expr.eval x r := by
        show (s'.tape b).value = _
        rw [hagB b (by omega), hagA b (by omega)]
        exact hv2
      have hvnb' : (s'.shapes s2.current_id).value = 1 / Expr.eval x r := by
        show (s'.tape s2.current_id).value = _
        rw [hagB s2.current_id (by omega)]
        exact hvalnb
      refine ⟨hBx, by omega, by omega, ?_, ?_, ?_⟩
      · intro k hk
        rw [hagB k (by omega), hagA k (by omega), hag2 k (by omega), hag1 k hk]
      · rw [hvB, hvalaS3, hvalnb]
        simp only [Expr.eval]
      · intro i'
        have hfin := i'.isLt
        have hopN : (s'.tape s2.current_id).operation = .INV := by
          rw [hagB s2.current_id (by omega)]
          exact hopA
        have hlN : (s'.tape s2.current_id).left = b := by
          rw [hagB s2.current_id (by omega)]
          exact hlA
        have hd1 : dval s'.shapes s3.current_id (i' : ℕ)
            = (s'.shapes s2.current_id).value * dval s'.shapes a (i' : ℕ)
              + (s'.shapes a).value
                  * dval s'.shapes s2.current_id (i' : ℕ) := by
          rw [dval, if_neg (by omega : ¬ s3.current_id = (i' : ℕ)),
            show ((s'.shapes s3.current_id).operation) = grad_reverse_op_t.MUL
              from hopB,
            show ((s'.shapes s3.current_id).left) = a from hlB,
            show ((s'.shapes s3.current_id).right) = s2.current_id from hrB,
            dif_pos (show a < s3.current_id from by omega),
            dif_pos (show s2.current_id < s3.current_id from by omega)]
        have hd2 : dval s'.shapes s2.current_id (i' : ℕ)
            = -(dval s'.shapes b (i' : ℕ))
              / ((s'.shapes b).value * (s'.shapes b).value) := by
          rw [dval, if_neg (by omega : ¬ s2.current_id = (i' : ℕ)),
            show ((s'.shapes s2.current_id).operation) = grad_reverse_op_t.INV
              from hopN,
            show ((s'.shapes s2.current_id).left) = b from hlN,
            dif_pos (show b < s2.current_id from hb2)]
        have hagS2 : ∀ k, k < s2.current_id → s'.tape k = s2.tape k := by
          intro k hk
          rw [hagB k (by omega), hagA k (by omega)]
        rw [hd1, hd2, hva', hvb', hvnb',
          dval_transfer hB2 hagS2 (show a < s2.current_id from by omega)
            (i' : ℕ),
          dval_transfer hB1 hag2 ha1 (i' : ℕ),
          dval_transfer hB2 hagS2 hb2 (i' : ℕ),
          hdv1 i', hdv2 i']
        simp only [Expr.D]
        try ring
  | inv g ihg =>
      intro hcore s root s' hbuilt hn hseeds hrun
      simp only [revE] at hrun
      rcases h1 : revE g s with _ | ⟨a, s1⟩
      · simp only [h1] at hrun
        exact absurd hrun (by simp)
      simp only [h1] at hrun
      obtain ⟨hB1, hle1, ha1, hag1, hv1, hdv1⟩ :=
        ihg hcore s a s1 hbuilt hn hseeds h1
      have hBx : Built s' := built_tail hB1
        (RevStep.inv a root s1 s' ha1 hrun)
      have hrun2 := hrun
      unfold grad_reverse_inv at hrun2
      obtain ⟨hcap, hroot, hcnt, hag2, hv2, hd2n, hop2, hl2⟩ :=
        rev_unary_char hrun2
      subst hroot
      have hva' : (s'.shapes a).value = Expr.eval x g := by
        show (s'.tape a).value = _
        rw [hag2 a (by omega)]
        exact hv1
      refine ⟨hBx, by omega, by omega, ?_, ?_, ?_⟩
      · intro k hk
        rw [hag2 k (by omega), hag1 k hk]
      · rw [hv2, hv1]
        simp only [Expr.eval]
        try ring
      · intro i'
        have hfin := i'.isLt
        have hd : dval s'.shapes s1.current_id (i' : ℕ)
            = -(dval s'.shapes a (i' : ℕ)) / ((s'.shapes a).value * (s'.shapes a).value) := by
          rw [dval, if_neg (by omega : ¬ s1.current_id = (i' : ℕ)),
            show ((s'.shapes s1.current_id).operation)
              = grad_reverse_op_t.INV from hop2,
            show ((s'.shapes s1.current_id).left) = a from hl2,
            dif_pos (show a < s1.current_id from ha1)]
        rw [hd, hva', 
          dval_transfer hB1 (fun k hk => hag2 k (by omega)) ha1 (i' : ℕ),
          hdv1 i']
        simp only [Expr.D]
        try ring
  | neg g ihg =>
      intro hcore s root s' hbuilt hn hseeds hrun
      simp only [revE] at hrun
      rcases h1 : revE g s with _ | ⟨a, s1⟩
      · simp only [h1] at hrun
        exact absurd hrun (by simp)
      simp only [h1] at hrun
      obtain ⟨hB1, hle1, ha1, hag1, hv1, hdv1⟩ :=
        ihg hcore s a s1 hbuilt hn hseeds h1
      have hBx : Built s' := built_tail hB1
        (RevStep.neg a root s1 s' ha1 hrun)
      have hrun2 := hrun
      unfold grad_reverse_neg at hrun2
      obtain ⟨hcap, hroot, hcnt, hag2, hv2, hd2n, hop2, hl2⟩ :=
        rev_unary_char hrun2
      subst hroot
      refine ⟨hBx, by omega, by omega, ?_, ?_, ?_⟩
      · intro k hk
        rw [hag2 k (by omega), hag1 k hk]
      · rw [hv2, hv1]
        simp only [Expr.eval]
        try ring
      · intro i'
        have hfin := i'.isLt
        have hd : dval s'.shapes s1.current_id (i' : ℕ)
            = -(dval s'.shapes a (i' : ℕ)) := by
          rw [dval, if_neg (by omega : ¬ s1.current_id = (i' : ℕ)),
            show ((s'.shapes s1.current_id).operation)
              = grad_reverse_op_t.NEG from hop2,
            show ((s'.shapes s1.current_id).left) = a from hl2,
            dif_pos (show a < s1.current_id from ha1)]
        rw [hd, 
          dval_transfer hB1 (fun k hk => hag2 k (by omega)) ha1 (i' : ℕ),
          hdv1 i']
        simp only [Expr.D]
        try ring
  | exp g ihg =>
      intro hcore s root s' hbuilt hn hseeds hrun
      simp only [revE] at hrun
      rcases h1 : revE g s with _ | ⟨a, s1⟩
      · simp only [h1] at hrun
        exact absurd hrun (by simp)
      simp only [h1] at hrun
      obtain ⟨hB1, hle1, ha1, hag1, hv1, hdv1⟩ :=
        ihg hcore s a s1 hbuilt hn hseeds h1
      have hBx : Built s' := built_tail hB1
        (RevStep.exp a root s1 s' ha1 hrun)
      have hrun2 := hrun
      unfold grad_reverse_exp at hrun2
      obtain ⟨hcap, hroot, hcnt, hag2, hv2, hd2n, hop2, hl2⟩ :=
        rev_unary_char hrun2
      subst hroot
      have hva' : (s'.shapes a).value = Expr.eval x g := by
        show (s'.tape a).value = _
        rw [hag2 a (by omega)]
        exact hv1
      refine ⟨hBx, by omega, by omega, ?_, ?_, ?_⟩
      · intro k hk
        rw [hag2 k (by omega), hag1 k hk]
      · rw [hv2, hv1]
        simp only [Expr.eval]
        try ring
      · intro i'
        have hfin := i'.isLt
        have hd : dval s'.shapes s1.current_id (i' : ℕ)
            = Real.exp ((s'.shapes a).value) * dval s'.shapes a (i' : ℕ) := by
          rw [dval, if_neg (by omega : ¬ s1.current_id = (i' : ℕ)),
            show ((s'.shapes s1.current_id).operation)
              = grad_reverse_op_t.EXP from hop2,
            show ((s'.shapes s1.current_id).left) = a from hl2,
            dif_pos (show a < s1.current_id from ha1)]
        rw [hd, hva', 
          dval_transfer hB1 (fun k hk => hag2 k (by omega)) ha1 (i' : ℕ),
          hdv1 i']
        simp only [Expr.D]
        try ring
  | log g ihg =>
      intro hcore s root s' hbuilt hn hseeds hrun
      simp only [revE] at hrun
      rcases h1 : revE g s with _ | ⟨a, s1⟩
      · simp only [h1] at hrun
        exact absurd hrun (by simp)
      simp only [h1] at hrun
      obtain ⟨hB1, hle1, ha1, hag1, hv1, hdv1⟩ :=
        ihg hcore s a s1 hbuilt hn hseeds h1
      have hBx : Built s' := built_tail hB1
        (RevStep.log a root s1 s' ha1 hrun)
      have hrun2 := hrun
      unfold grad_reverse_log at hrun2
      obtain ⟨hcap, hroot, hcnt, hag2, hv2, hd2n, hop2, hl2⟩ :=
        rev_unary_char hrun2
      subst hroot
      have hva' : (s'.shapes a).value = Expr.eval x g := by
        show (s'.tape a).value = _
        rw [hag2 a (by omega)]
        exact hv1
      refine ⟨hBx, by omega, by omega, ?_, ?_, ?_⟩
      · intro k hk
        rw [hag2 k (by omega), hag1 k hk]
      · rw [hv2, hv1]
        simp only [Expr.eval]
        try ring
      · intro i'
        have hfin := i'.isLt
        have hd : dval s'.shapes s1.current_id (i' : ℕ)
            = dval s'.shapes a (i' : ℕ) / (s'.shapes a).value := by
          rw [dval, if_neg (by omega : ¬ s1.current_id = (i' : ℕ)),
            show ((s'.shapes s1.current_id).operation)
              = grad_reverse_op_t.LOG from hop2,
            show ((s'.shapes s1.current_id).left) = a from hl2,
            dif_pos (show a < s1.current_id from ha1)]
        rw [hd, hva', 
          dval_transfer hB1 (fun k hk => hag2 k (by omega)) ha1 (i' : ℕ),
          hdv1 i']
        simp only [Expr.D]
        try ring
  | sin g ihg =>
      intro hcore s root s' hbuilt hn hseeds hrun
      simp only [revE] at hrun
      rcases h1 : revE g s with _ | ⟨a, s1⟩
      · simp only [h1] at hrun
        exact absurd hrun (by simp)
      simp only [h1] at hrun
      obtain ⟨hB1, hle1, ha1, hag1, hv1, hdv1⟩ :=
        ihg hcore s a s1 hbuilt hn hseeds h1
      have hBx : Built s' := built_tail hB1
        (RevStep.sin a root s1 s' ha1 hrun)
      have hrun2 := hrun
      unfold grad_reverse_sin at hrun2
      obtain ⟨hcap, hroot, hcnt, hag2, hv2, hd2n, hop2, hl2⟩ :=
        rev_unary_char hrun2
      subst hroot
      have hva' : (s'.shapes a).value = Expr.eval x g := by
        show (s'.tape a).value = _
        rw [hag2 a (by omega)]
        exact hv1
      refine ⟨hBx, by omega, by omega, ?_, ?_, ?_⟩
      · intro k hk
        rw [hag2 k (by omega), hag1 k hk]
      · rw [hv2, hv1]
        simp only [Expr.eval]
        try ring
      · intro i'
        have hfin := i'.isLt
        have hd : dval s'.shapes s1.current_id (i' : ℕ)
            = Real.cos ((s'.shapes a).value) * dval s'.shapes a (i' : ℕ) := by
          rw [dval, if_neg (by omega : ¬ s1.current_id = (i' : ℕ)),
            show ((s'.shapes s1.current_id).operation)
              = grad_reverse_op_t.SIN from hop2,
            show ((s'.shapes s1.current_id).left) = a from hl2,
            dif_pos (show a < s1.current_id from ha1)]
        rw [hd, hva', 
          dval_transfer hB1 (fun k hk => hag2 k (by omega)) ha1 (i' : ℕ),
          hdv1 i']
        simp only [Expr.D]
        try ring
  | cos g ihg =>
      intro hcore s root s' hbuilt hn hseeds hrun
      simp only [revE] at hrun
      rcases h1 : revE g s with _ | ⟨a, s1⟩
      · simp only [h1] at hrun
        exact absurd hrun (by simp)
      simp only [h1] at hrun
      obtain ⟨hB1, hle1, ha1, hag1, hv1, hdv1⟩ :=
        ihg hcore s a s1 hbuilt hn hseeds h1
      have hBx : Built s' := built_tail hB1
        (RevStep.cos a root s1 s' ha1 hrun)
      have hrun2 := hrun
      unfold grad_reverse_cos at hrun2
      obtain ⟨hcap, hroot, hcnt, hag2, hv2, hd2n, hop2, hl2⟩ :=
        rev_unary_char hrun2
      subst hroot
      have hva' : (s'.shapes a).value = Expr.eval x g := by
        show (s'.tape a).value = _
        rw [hag2 a (by omega)]
        exact hv1
      refine ⟨hBx, by omega, by omega, ?_, ?_, ?_⟩
      · intro k hk
        rw [hag2 k (by omega), hag1 k hk]
      · rw [hv2, hv1]
        simp only [Expr.eval]
        try ring
      · intro i'
        have hfin := i'.isLt
        have hd : dval s'.shapes s1.current_id (i' : ℕ)
            = -Real.sin ((s'.shapes a).value) * dval s'.shapes a (i' : ℕ) := by
          rw [dval, if_neg (by omega : ¬ s1.current_id = (i' : ℕ)),
            show ((s'.shapes s1.current_id).operation)
              = grad_reverse_op_t.COS from hop2,
            show ((s'.shapes s1.current_id).left) = a from hl2,
            dif_pos (show a < s1.current_id from ha1)]
        rw [hd, hva', 
          dval_transfer hB1 (fun k hk => hag2 k (by omega)) ha1 (i' : ℕ),
          hdv1 i']
        simp only [Expr.D]
        try ring
  | addC g c ihg =>
      intro hcore s root s' hbuilt hn hseeds hrun
      exact hcore.elim
  | mulC g c ihg =>
      intro hcore s root s' hbuilt hn hseeds hrun
      exact hcore.elim
  | tan g ihg =>
      intro hcore s root s' hbuilt hn hseeds hrun
      exact hcore.elim
  | sqrt g ihg =>
      intro hcore s root s' hbuilt hn hseeds hrun
      exact hcore.elim
  | pow g e ihg =>
      intro hcore s root s' hbuilt hn hseeds hrun
      exact hcore.elim

/-! ## C3: cross-mode agreement -/

theorem revInitSeeds_char :
    ∀ (vs : List ℝ) (s s1 : RevState),
      revInitSeeds vs s = some s1 →
      BuiltFrom s s1 ∧ s1.current_id = s.current_id + vs.length ∧
      (∀ k, k < s.current_id → s1.tape k = s.tape k) ∧
      (∀ j, j < vs.length →
        (s1.tape (s.current_id + j)).value = vs.getD j 0 ∧
        (s1.tape (s.current_id + j)).operation = .NONE) := by
  intro vs
  induction vs with
  | nil =>
      intro s s1 h
      simp only [revInitSeeds, Option.some.injEq] at h
      subst h
      exact ⟨Relation.ReflTransGen.refl, by simp, fun k _ => rfl,
        fun j hj => absurd hj (by simp)⟩
  | cons v rest ih =>
      intro s s1 h
      simp only [revInitSeeds] at h
      rcases h2 : grad_reverse_init v s with _ | ⟨r, s2⟩
      · simp only [h2] at h
        exact absurd h (by simp)
      simp only [h2] at h
      obtain ⟨hcap, hr, hcnt, hag, hv, hd, hop⟩ := rev_init_char h2
      obtain ⟨hbf, hcnt1, hag1, hsds⟩ := ih s2 s1 h
      refine ⟨Relation.ReflTransGen.head (RevStep.init v r s s2 h2) hbf,
        by simp [hcnt1, hcnt, List.length_cons]; omega, ?_, ?_⟩
      · intro k hk
        rw [hag1 k (by omega), hag k (by omega)]
      · intro j hj
        cases j with
        | zero =>
            have : s1.tape (s.current_id + 0) = s2.tape s.current_id := by
              have h0 : s.current_id + 0 = s.current_id := by omega
              rw [h0]
              exact hag1 s.current_id (by omega)
            rw [this]
            exact ⟨hv, hop⟩
        | succ j =>
            have hj' : j < rest.length := by
              simp [List.length_cons] at hj; omega
            have := hsds j hj'
            have harith : s.current_id + (j + 1) = s2.current_id + j := by
              omega
            rw [harith]
            simpa using this

/-- C3: for every expression built from the operation set supported by both
engines and every seed variable `i`, the forward-mode derivative read at
that seed's slot index equals the reverse-mode adjoint read from the
corresponding leaf node after `grad_reverse_backward`. -/
theorem cross_mode_agreement (n : ℕ) (hn : n ≤ GRAD_FORWARD_TAPE_SIZE)
    (x : Fin n → ℝ) (e : Expr n) (hcore : Expr.Core e)
    (gs : List grad_forward_t) (cur1 : ℕ)
    (hfwd : fwdInitMany (List.ofFn x) 0 = some (gs, cur1))
    (s0 s1 : RevState)
    (hseeds : revInitSeeds (List.ofFn x) (grad_reverse_start_scope s0)
      = some s1)
    (root : ℕ) (s2 : RevState) (hbuild : revE e s1 = some (root, s2))
    (i : Fin n) :
    ((grad_reverse_backward root s2).tape (i : ℕ)).derivative
      = (fwdE n (fun k => gs.getD k fwdZeroStruct) e).derivative i := by
  have hlen : (List.ofFn x).length = n := List.length_ofFn x
  obtain ⟨hbf, hcnt1, hag0, hsds⟩ :=
    revInitSeeds_char (List.ofFn x) _ s1 hseeds
  have hB1 : Built s1 := ⟨s0, hbf⟩
  have hn1 : n ≤ s1.current_id := by
    rw [hcnt1]
    simp [grad_reverse_start_scope, hlen]
  have hseedsF : ∀ k : Fin n,
      (s1.tape (k : ℕ)).value = x k ∧
      (s1.tape (k : ℕ)).operation = .NONE := by
    intro k
    have hk : (k : ℕ) < (List.ofFn x).length := by rw [hlen]; exact k.isLt
    have h := hsds (k : ℕ) hk
    rw [show (grad_reverse_start_scope s0).current_id = 0 from rfl] at h
    simp only [Nat.zero_add] at h
    refine ⟨?_, h.2⟩
    rw [h.1, List.getD_eq_getElem _ _ hk, List.getElem_ofFn]
  obtain ⟨hB2, hle2, hroot2, hag2, hv2, hdv2⟩ :=
    revE_correct x e hcore s1 root s2 hB1 hn1 hseedsF hbuild
  have hiB : (i : ℕ) < s2.current_id := by have := i.isLt; omega
  rw [backward_dval s2 (built_props hB2).1 root hroot2 (i : ℕ) hiB, hdv2 i]
  have heq := fwdInitMany_seedList (List.ofFn x) 0 (by rw [hlen]; omega)
  rw [heq, Option.some.injEq, Prod.mk.injEq] at hfwd
  obtain ⟨hgs, _⟩ := hfwd
  subst hgs
  rw [(fwdE_correct hn x (fun k => (seedList (List.ofFn x) 0).getD k
    fwdZeroStruct) (seed_env_ok x) e).2 i]

/-- Witness for C3: `x*x` at `x = 5` in both engines. -/
theorem cross_mode_agreement_witness :
    ((grad_reverse_backward 1 wRevS2).tape ((0 : Fin 1) : ℕ)).derivative
      = (fwdE 1 (fun k =>
          (seedList (List.ofFn fun _ : Fin 1 => (5 : ℝ)) 0).getD k
            fwdZeroStruct)
          (Expr.mul (Expr.var (0 : Fin 1)) (Expr.var 0))).derivative
          (0 : Fin 1) :=
  cross_mode_agreement 1 (by norm_num [GRAD_FORWARD_TAPE_SIZE])
    (fun _ => (5 : ℝ)) (Expr.mul (Expr.var (0 : Fin 1)) (Expr.var 0))
    ⟨trivial, trivial⟩ _ _
    (fwdInitMany_seedList _ 0 (by norm_num [GRAD_FORWARD_TAPE_SIZE]))
    wRevS0 wRevS1 rfl 1 wRevS2 rfl 0

/-! ## C5: the capacity boundary -/

theorem fwdRun_replicate_init_ok (v : ℝ) :
    ∀ (k cur : ℕ) (env : List grad_forward_t),
      cur + k ≤ GRAD_FORWARD_TAPE_SIZE →
      (fwdRun (List.replicate k (FInstr.init v)) cur env).isSome = true := by
  intro k
  induction k with
  | zero => intro cur env h; simp [fwdRun]
  | succ k ih =>
      intro cur env h
      have hcur : cur < GRAD_FORWARD_TAPE_SIZE := by omega
      simp only [List.replicate_succ, fwdRun, fwdStep, grad_forward_init,
        if_pos hcur]
      exact ih (cur + 1) _ (by omega)

theorem fwdRun_replicate_init_none (v : ℝ) :
    ∀ (k cur : ℕ) (env : List grad_forward_t),
      cur ≤ GRAD_FORWARD_TAPE_SIZE →
      GRAD_FORWARD_TAPE_SIZE < cur + k →
      fwdRun (List.replicate k (FInstr.init v)) cur env = none := by
  intro k
  induction k with
  | zero => intro cur env h1 h2; exact absurd h2 (by omega)
  | succ k ih =>
      intro cur env h1 h2
      by_cases hcur : cur < GRAD_FORWARD_TAPE_SIZE
      · simp only [List.replicate_succ, fwdRun, fwdStep, grad_forward_init,
          if_pos hcur]
        exact ih (cur + 1) _ (by omega) (by omega)
      · simp only [List.replicate_succ, fwdRun, fwdStep, grad_forward_init,
          if_neg hcur]

theorem revRun_replicate_init_ok (v : ℝ) :
    ∀ (k : ℕ) (s : RevState) (refs : List ℕ),
      s.current_id + k ≤ GRAD_REVERSE_TAPE_SIZE →
      (revRun (List.replicate k (RInstr.init v)) s refs).isSome = true := by
  intro k
  induction k with
  | zero => intro s refs h; simp [revRun]
  | succ k ih =>
      intro s refs h
      have hcur : s.current_id < GRAD_REVERSE_TAPE_SIZE := by omega
      simp only [List.replicate_succ, revRun, revStepI, grad_reverse_init,
        if_pos hcur]
      exact ih _ _ (by show s.current_id + 1 + k ≤ GRAD_REVERSE_TAPE_SIZE
                       omega)

theorem revRun_replicate_init_none (v : ℝ) :
    ∀ (k : ℕ) (s : RevState) (refs : List ℕ),
      s.current_id ≤ GRAD_REVERSE_TAPE_SIZE →
      GRAD_REVERSE_TAPE_SIZE < s.current_id + k →
      revRun (List.replicate k (RInstr.init v)) s refs = none := by
  intro k
  induction k with
  | zero => intro s refs h1 h2; exact absurd h2 (by omega)
  | succ k ih =>
      intro s refs h1 h2
      by_cases hcur : s.current_id < GRAD_REVERSE_TAPE_SIZE
      · simp only [List.replicate_succ, revRun, revStepI, grad_reverse_init,
          if_pos hcur]
        exact ih _ _
          (by show s.current_id + 1 ≤ GRAD_REVERSE_TAPE_SIZE
              omega)
          (by show GRAD_REVERSE_TAPE_SIZE < s.current_id + 1 + k
              omega)
      · simp only [List.replicate_succ, revRun, revStepI, grad_reverse_init,
          if_neg hcur]

/-- C5: in each engine, from a fresh scope, creating exactly the configured
maximum number of variables/nodes succeeds and one more creation
deterministically hits the fatal capacity `assert` (the aborted run,
`none`). -/
theorem capacity_boundary (v : ℝ) (c : ℕ) (s : RevState) :
    (fwdRun (List.replicate GRAD_FORWARD_TAPE_SIZE (FInstr.init v))
        (grad_forward_start_scope c) []).isSome = true ∧
    fwdRun (List.replicate (GRAD_FORWARD_TAPE_SIZE + 1) (FInstr.init v))
        (grad_forward_start_scope c) [] = none ∧
    (revRun (List.replicate GRAD_REVERSE_TAPE_SIZE (RInstr.init v))
        (grad_reverse_start_scope s) []).isSome = true ∧
    revRun (List.replicate (GRAD_REVERSE_TAPE_SIZE + 1) (RInstr.init v))
        (grad_reverse_start_scope s) [] = none :=
  ⟨fwdRun_replicate_init_ok v _ _ []
      (by simp [grad_forward_start_scope]),
   fwdRun_replicate_init_none v _ _ []
      (by simp [grad_forward_start_scope])
      (by simp [grad_forward_start_scope]),
   revRun_replicate_init_ok v _ _ []
      (by show (0 : ℕ) + GRAD_REVERSE_TAPE_SIZE ≤ GRAD_REVERSE_TAPE_SIZE
          omega),
   revRun_replicate_init_none v _ _ []
      (by show (0 : ℕ) ≤ GRAD_REVERSE_TAPE_SIZE
          omega)
      (by show GRAD_REVERSE_TAPE_SIZE < (0 : ℕ) + (GRAD_REVERSE_TAPE_SIZE + 1)
          omega)⟩

/-! ## C9: operations are frame-preserving; only init consumes a slot -/

theorem fwdRun_cons_op {ins : FInstr} {rest : List FInstr} {cur : ℕ}
    {env : List grad_forward_t}
    (hstep : ∃ g, fwdStep ins cur env = some (cur, env ++ [g]))
    (hcnt : countInits (ins :: rest) = countInits rest)
    (hvalid : FValid (env.length + 1) rest)
    (hcap : cur + countInits rest ≤ GRAD_FORWARD_TAPE_SIZE)
    (IH : ∀ (cur' : ℕ) (env' : List grad_forward_t),
      FValid env'.length rest →
      cur' + countInits rest ≤ GRAD_FORWARD_TAPE_SIZE →
      FwdRunOk rest cur' env') :
    FwdRunOk (ins :: rest) cur env := by
  obtain ⟨g, hg⟩ := hstep
  obtain ⟨res, h1, h2, h3⟩ := IH cur (env ++ [g]) (by simpa using hvalid) hcap
  refine ⟨res, ?_, by rw [hcnt]; exact h2, ?_⟩
  · simp only [fwdRun, hg]
    exact h1
  · rw [show (env ++ [g]).length = env.length + 1 by simp] at h3
    have hmin : res.2.take env.length
        = (res.2.take (env.length + 1)).take env.length := by
      rw [List.take_take, Nat.min_eq_left (by omega)]
    rw [hmin, h3, List.take_left]

theorem fwdRun_cons_init {v : ℝ} {rest : List FInstr} {cur : ℕ}
    {env : List grad_forward_t}
    (hvalid : FValid (env.length + 1) rest)
    (hcap : cur + countInits (FInstr.init v :: rest) ≤ GRAD_FORWARD_TAPE_SIZE)
    (IH : ∀ (cur' : ℕ) (env' : List grad_forward_t),
      FValid env'.length rest →
      cur' + countInits rest ≤ GRAD_FORWARD_TAPE_SIZE →
      FwdRunOk rest cur' env') :
    FwdRunOk (FInstr.init v :: rest) cur env := by
  have hcap' : cur + (countInits rest + 1) ≤ GRAD_FORWARD_TAPE_SIZE := hcap
  have hcur : cur < GRAD_FORWARD_TAPE_SIZE := by omega
  obtain ⟨res, h1, h2, h3⟩ := IH (cur + 1)
    (env ++ [{ fwdZeroStruct with
        value := v
        id := cur
        derivative := Function.update (fun _ => (0 : ℝ)) cur 1 }])
    (by simpa using hvalid) (by omega)
  refine ⟨res, ?_, by rw [show countInits (FInstr.init v :: rest)
      = countInits rest + 1 from rfl]; omega, ?_⟩
  · simp only [fwdRun, fwdStep, grad_forward_init, if_pos hcur]
    exact h1
  · simp only [List.length_append, List.length_singleton] at h3
    have hmin : res.2.take env.length
        = (res.2.take (env.length + 1)).take env.length := by
      rw [List.take_take, Nat.min_eq_left (by omega)]
    rw [hmin, h3, List.take_left]

/-- C9: every forward elementary operation leaves the live slot counter
and all previously created Variables unchanged and can never trigger the
capacity violation; only `grad_forward_init` consumes a slot, so a valid
program with `countInits` inits within capacity always completes, ends
with counter `cur + countInits`, and preserves the earlier results. -/
theorem forward_ops_frame :
    ∀ (prog : List FInstr) (cur : ℕ) (env : List grad_forward_t),
      FValid env.length prog →
      cur + countInits prog ≤ GRAD_FORWARD_TAPE_SIZE →
      FwdRunOk prog cur env := by
  intro prog
  induction prog with
  | nil =>
      intro cur env _ _
      exact ⟨(cur, env), rfl, by simp [countInits], by simp⟩
  | cons ins rest ih =>
      intro cur env hvalid hcap
      obtain ⟨hok, hrest⟩ := hvalid
      cases ins with
      | init v => exact fwdRun_cons_init hrest hcap ih
      | add a b =>
          obtain ⟨ha, hb⟩ := hok
          exact fwdRun_cons_op
            ⟨grad_forward_add cur (env.get ⟨a, ha⟩) (env.get ⟨b, hb⟩), by
              simp [fwdStep, List.getElem?_eq_getElem ha,
                List.getElem?_eq_getElem hb, List.get_eq_getElem]⟩
            rfl hrest hcap ih
      | addC a c =>
          exact fwdRun_cons_op
            ⟨grad_forward_add_c (env.get ⟨a, hok⟩) c, by
              simp [fwdStep, List.getElem?_eq_getElem hok,
                List.get_eq_getElem]⟩ rfl hrest hcap ih
      | mul a b =>
          obtain ⟨ha, hb⟩ := hok
          exact fwdRun_cons_op
            ⟨grad_forward_mul cur (env.get ⟨a, ha⟩) (env.get ⟨b, hb⟩), by
              simp [fwdStep, List.getElem?_eq_getElem ha,
                List.getElem?_eq_getElem hb, List.get_eq_getElem]⟩
            rfl hrest hcap ih
      | mulC a c =>
          exact fwdRun_cons_op
            ⟨grad_forward_mul_c cur (env.get ⟨a, hok⟩) c, by
              simp [fwdStep, List.getElem?_eq_getElem hok,
                List.get_eq_getElem]⟩ rfl hrest hcap ih
      | inv a =>
          exact fwdRun_cons_op
            ⟨grad_forward_inv cur (env.get ⟨a, hok⟩), by
              simp [fwdStep, List.getElem?_eq_getElem hok,
                List.get_eq_getElem]⟩ rfl hrest hcap ih
      | div a b =>
          obtain ⟨ha, hb⟩ := hok
          exact fwdRun_cons_op
            ⟨grad_forward_div cur (env.get ⟨a, ha⟩) (env.get ⟨b, hb⟩), by
              simp [fwdStep, List.getElem?_eq_getElem ha,
                List.getElem?_eq_getElem hb, List.get_eq_getElem]⟩
            rfl hrest hcap ih
      | neg a =>
          exact fwdRun_cons_op
            ⟨grad_forward_neg cur (env.get ⟨a, hok⟩), by
              simp [fwdStep, List.getElem?_eq_getElem hok,
                List.get_eq_getElem]⟩ rfl hrest hcap ih
      | sub a b =>
          obtain ⟨ha, hb⟩ := hok
          exact fwdRun_cons_op
            ⟨grad_forward_sub cur (env.get ⟨a, ha⟩) (env.get ⟨b, hb⟩), by
              simp [fwdStep, List.getElem?_eq_getElem ha,
                List.getElem?_eq_getElem hb, List.get_eq_getElem]⟩
            rfl hrest hcap ih
      | exp a =>
          exact fwdRun_cons_op
            ⟨grad_forward_exp cur (env.get ⟨a, hok⟩), by
              simp [fwdStep, List.getElem?_eq_getElem hok,
                List.get_eq_getElem]⟩ rfl hrest hcap ih
      | log a =>
          exact fwdRun_cons_op
            ⟨grad_forward_log cur (env.get ⟨a, hok⟩), by
              simp [fwdStep, List.getElem?_eq_getElem hok,
                List.get_eq_getElem]⟩ rfl hrest hcap ih
      | sin a =>
          exact fwdRun_cons_op
            ⟨grad_forward_sin cur (env.get ⟨a, hok⟩), by
              simp [fwdStep, List.getElem?_eq_getElem hok,
                List.get_eq_getElem]⟩ rfl hrest hcap ih
      | cos a =>
          exact fwdRun_cons_op
            ⟨grad_forward_cos cur (env.get ⟨a, hok⟩), by
              simp [fwdStep, List.getElem?_eq_getElem hok,
                List.get_eq_getElem]⟩ rfl hrest hcap ih
      | tan a =>
          exact fwdRun_cons_op
            ⟨grad_forward_tan cur (env.get ⟨a, hok⟩), by
              simp [fwdStep, List.getElem?_eq_getElem hok,
                List.get_eq_getElem]⟩ rfl hrest hcap ih
      | sqrt a =>
          exact fwdRun_cons_op
            ⟨grad_forward_sqrt cur (env.get ⟨a, hok⟩), by
              simp [fwdStep, List.getElem?_eq_getElem hok,
                List.get_eq_getElem]⟩ rfl hrest hcap ih
      | pow a c =>
          exact fwdRun_cons_op
            ⟨grad_forward_pow cur (env.get ⟨a, hok⟩) c, by
              simp [fwdStep, List.getElem?_eq_getElem hok,
                List.get_eq_getElem]⟩ rfl hrest hcap ih

/-- Witness for C9: one multiplication after one existing Variable, with
the counter at 5: the run succeeds, the counter stays 5, the old Variable
survives untouched. -/
theorem forward_ops_frame_witness :
    FwdRunOk [FInstr.mul 0 0] 5 [fwdZeroStruct] :=
  forward_ops_frame [FInstr.mul 0 0] 5 [fwdZeroStruct]
    ⟨⟨by simp, by simp⟩, trivial⟩
    (by show 5 + 0 ≤ GRAD_FORWARD_TAPE_SIZE
        norm_num [GRAD_FORWARD_TAPE_SIZE])

/-! ## C8: agreement machinery for scope-reset determinism -/

theorem addD_memAgree {n : ℕ} {t1 t2 : ℕ → grad_reverse_t}
    (hag : MemAgree n t1 t2) (k : ℕ) {c1 c2 : ℝ} (hc : c1 = c2) :
    MemAgree n (addD t1 k c1) (addD t2 k c2) := by
  subst hc
  intro j hj
  obtain ⟨hv, hd, hop, hl, hr⟩ := hag j hj
  refine ⟨?_, ?_, ?_, ?_, ?_⟩
  · rw [addD_value, addD_value]; exact hv
  · rw [addD_deriv, addD_deriv, hd]
  · rw [addD_op, addD_op]; exact hop
  · intro hne
    rw [addD_left, addD_left]
    exact hl (by rwa [addD_op] at hne)
  · intro hor
    rw [addD_right, addD_right]
    refine hr ?_
    rcases hor with hc | hc <;> rw [addD_op] at hc
    · exact Or.inl hc
    · exact Or.inr hc

theorem stepNode_memAgree {n : ℕ} {t1 t2 : ℕ → grad_reverse_t}
    (hag : MemAgree n t1 t2)
    (hinv : TapeInv (fun x => (t1 x).shape) n)
    {i : ℕ} (hi : i < n) :
    MemAgree n (stepNode t1 i) (stepNode t2 i) := by
  obtain ⟨hv, hd, hop, hl, hr⟩ := hag i hi
  have hb := hinv i hi
  unfold stepNode
  rw [← hop]
  cases hcase : (t1 i).operation <;>
    simp only [grad_reverse_t.shape, hcase] at hb <;>
    simp only [stepOp]
  case NONE => exact hag
  case ADD =>
      obtain ⟨hbl, hbr⟩ := hb
      have hleq := hl (by rw [hcase]; simp)
      have hreq := hr (Or.inl hcase)
      rw [addD_right, addD_right, addD_deriv, addD_deriv, ← hleq, ← hreq, ← hd]
      exact addD_memAgree (addD_memAgree hag ((t1 i).left) rfl)
        ((t1 i).right) rfl
  case MUL =>
      obtain ⟨hbl, hbr⟩ := hb
      have hleq := hl (by rw [hcase]; simp)
      have hreq := hr (Or.inr hcase)
      have hvr : (t1 (t1 i).right).value = (t2 (t2 i).right).value := by
        rw [← hreq]; exact (hag ((t1 i).right) (by omega)).1
      have hvl : (t1 (t1 i).left).value = (t2 (t2 i).left).value := by
        rw [← hleq]; exact (hag ((t1 i).left) (by omega)).1
      rw [addD_right, addD_right, addD_left, addD_left, addD_deriv,
        addD_deriv, addD_value, addD_value, ← hvr, ← hvl, ← hleq, ← hreq, ← hd]
      exact addD_memAgree (addD_memAgree hag ((t1 i).left) rfl)
        ((t1 i).right) rfl
  case NEG =>
      have hleq := hl (by rw [hcase]; simp)
      rw [← hleq]
      exact addD_memAgree hag ((t1 i).left) (by rw [hd])
  case INV =>
      have hleq := hl (by rw [hcase]; simp)
      rw [← hleq]
      exact addD_memAgree hag ((t1 i).left)
        (by rw [hd, (hag ((t1 i).left) (by omega)).1])
  case SIN =>
      have hleq := hl (by rw [hcase]; simp)
      rw [← hleq]
      exact addD_memAgree hag ((t1 i).left)
        (by rw [hd, (hag ((t1 i).left) (by omega)).1])
  case COS =>
      have hleq := hl (by rw [hcase]; simp)
      rw [← hleq]
      exact addD_memAgree hag ((t1 i).left)
        (by rw [hd, (hag ((t1 i).left) (by omega)).1])
  case EXP =>
      have hleq := hl (by rw [hcase]; simp)
      rw [← hleq]
      exact addD_memAgree hag ((t1 i).left)
        (by rw [hd, (hag ((t1 i).left) (by omega)).1])
  case LOG =>
      have hleq := hl (by rw [hcase]; simp)
      rw [← hleq]
      exact addD_memAgree hag ((t1 i).left)
        (by rw [hd, (hag ((t1 i).left) (by omega)).1])

theorem backLoop_memAgree :
    ∀ (n : ℕ) (t1 t2 : ℕ → grad_reverse_t) (N : ℕ),
      MemAgree N t1 t2 → TapeInv (fun x => (t1 x).shape) N → n ≤ N →
      MemAgree N (backLoop t1 n) (backLoop t2 n) := by
  intro n
  induction n with
  | zero => intro t1 t2 N hag _ _; exact hag
  | succ n ih =>
      intro t1 t2 N hag hinv hn
      show MemAgree N (backLoop (stepNode t1 n) n) (backLoop (stepNode t2 n) n)
      have hsh : (fun x => ((stepNode t1 n) x).shape) = fun x => (t1 x).shape :=
        funext fun x => stepNode_shape t1 n x
      exact ih (stepNode t1 n) (stepNode t2 n) N
        (stepNode_memAgree hag hinv (by omega))
        (by rw [hsh]; exact hinv) (by omega)

theorem grad_reverse_backward_shape (out : ℕ) (s : RevState) (k : ℕ) :
    ((grad_reverse_backward out s).tape k).shape = (s.tape k).shape := by
  show ((backLoop _ s.current_id) k).shape = _
  rw [backLoop_shape]
  rw [Function.update_apply]
  by_cases hk : k = out
  · subst hk
    rw [if_pos rfl]
    show ((zeroBelow s.tape s.current_id) k).shape = _
    unfold zeroBelow
    split <;> rfl
  · rw [if_neg hk]
    unfold zeroBelow
    split <;> rfl

theorem backward_agree {s1 s2 : RevState} (hag : AgreeLive s1 s2)
    (hinv1 : TapeInv s1.shapes s1.current_id)
    (out : ℕ) (hout : out < s1.current_id) :
    AgreeLive (grad_reverse_backward out s1) (grad_reverse_backward out s2) := by
  obtain ⟨hcnt, hmem⟩ := hag
  refine ⟨hcnt, ?_⟩
  show MemAgree s1.current_id
    (grad_reverse_backward out s1).tape (grad_reverse_backward out s2).tape
  have h1eq : (grad_reverse_backward out s1).tape
      = backLoop (Function.update (zeroBelow s1.tape s1.current_id) out
        { zeroBelow s1.tape s1.current_id out with derivative := 1 })
        s1.current_id := rfl
  have h2eq : (grad_reverse_backward out s2).tape
      = backLoop (Function.update (zeroBelow s2.tape s1.current_id) out
        { zeroBelow s2.tape s1.current_id out with derivative := 1 })
        s1.current_id := by rw [hcnt]; rfl
  have hag0 : MemAgree s1.current_id
      (Function.update (zeroBelow s1.tape s1.current_id) out
        { zeroBelow s1.tape s1.current_id out with derivative := 1 })
      (Function.update (zeroBelow s2.tape s1.current_id) out
        { zeroBelow s2.tape s1.current_id out with derivative := 1 }) := by
    intro k hk
    obtain ⟨hv, hd, hop, hl, hr⟩ := hmem k hk
    have hz : ∀ (t : ℕ → grad_reverse_t) (n : ℕ), k < n →
        zeroBelow t n k = { t k with derivative := 0 } := by
      intro t n hkn
      unfold zeroBelow
      rw [if_pos hkn]
    rw [Function.update_apply, Function.update_apply]
    by_cases hko : k = out
    · subst hko
      rw [if_pos rfl, if_pos rfl, hz s1.tape _ hk, hz s2.tape _ hk]
      exact ⟨hv, rfl, hop, hl, hr⟩
    · rw [if_neg hko, if_neg hko, hz s1.tape _ hk, hz s2.tape _ hk]
      exact ⟨hv, rfl, hop, hl, hr⟩
  have hsh0 : (fun x => ((Function.update (zeroBelow s1.tape s1.current_id) out
      { zeroBelow s1.tape s1.current_id out with derivative := 1 }) x).shape)
      = s1.shapes := by
    funext k
    rw [Function.update_apply]
    by_cases hk : k = out
    · subst hk
      rw [if_pos rfl]
      show ((zeroBelow s1.tape s1.current_id) k).shape = _
      unfold zeroBelow
      split <;> rfl
    · rw [if_neg hk]
      unfold zeroBelow
      split <;> rfl
  rw [h1eq, h2eq]
  exact backLoop_memAgree s1.current_id _ _ s1.current_id hag0
    (by rw [hsh0]; exact hinv1) (le_refl _)

theorem agreeLive_extend {s1 s2 s1' s2' : RevState}
    (hag : AgreeLive s1 s2)
    (hcnt1 : s1'.current_id = s1.current_id + 1)
    (hcnt2 : s2'.current_id = s2.current_id + 1)
    (hold1 : ∀ k, k ≠ s1.current_id → s1'.tape k = s1.tape k)
    (hold2 : ∀ k, k ≠ s2.current_id → s2'.tape k = s2.tape k)
    (hv : (s1'.tape s1.current_id).value = (s2'.tape s2.current_id).value)
    (hd : (s1'.tape s1.current_id).derivative
      = (s2'.tape s2.current_id).derivative)
    (hop : (s1'.tape s1.current_id).operation
      = (s2'.tape s2.current_id).operation)
    (hl : (s1'.tape s1.current_id).operation ≠ .NONE →
      (s1'.tape s1.current_id).left = (s2'.tape s2.current_id).left)
    (hr : ((s1'.tape s1.current_id).operation = .ADD ∨
        (s1'.tape s1.current_id).operation = .MUL) →
      (s1'.tape s1.current_id).right = (s2'.tape s2.current_id).right) :
    AgreeLive s1' s2' := by
  obtain ⟨hcnt, hmem⟩ := hag
  refine ⟨by omega, ?_⟩
  intro k hk
  rw [hcnt1] at hk
  by_cases hke : k = s1.current_id
  · subst hke
    have h2 : s2'.tape s1.current_id = s2'.tape s2.current_id := by rw [hcnt]
    rw [h2]
    exact ⟨hv, hd, hop, hl, hr⟩
  · rw [hold1 k hke, hold2 k (by omega)]
    exact hmem k (by omega)

/-- `grad_reverse_init` aborts exactly on a full tape. -/
theorem rev_init_none {v : ℝ} {s : RevState}
    (h : grad_reverse_init v s = none) :
    GRAD_REVERSE_TAPE_SIZE ≤ s.current_id := by
  unfold grad_reverse_init at h
  by_contra hcap
  rw [if_pos (by omega)] at h
  exact absurd h (by simp)

/-- An aborted `grad_reverse_add` means the tape was full. -/
theorem grad_reverse_add_none {li ri : ℕ} {s : RevState}
    (h : grad_reverse_add li ri s = none) :
    GRAD_REVERSE_TAPE_SIZE ≤ s.current_id := by
  unfold grad_reverse_add at h
  rcases hinit : grad_reverse_init ((s.tape li).value + (s.tape ri).value) s with _ | ⟨r0, s1⟩
  · exact rev_init_none hinit
  · simp only [hinit] at h
    exact absurd h (by simp)

/-- An aborted `grad_reverse_mul` means the tape was full. -/
theorem grad_reverse_mul_none {li ri : ℕ} {s : RevState}
    (h : grad_reverse_mul li ri s = none) :
    GRAD_REVERSE_TAPE_SIZE ≤ s.current_id := by
  unfold grad_reverse_mul at h
  rcases hinit : grad_reverse_init ((s.tape li).value * (s.tape ri).value) s with _ | ⟨r0, s1⟩
  · exact rev_init_none hinit
  · simp only [hinit] at h
    exact absurd h (by simp)

/-- An aborted `grad_reverse_neg` means the tape was full. -/
theorem grad_reverse_neg_none {gi : ℕ} {s : RevState}
    (h : grad_reverse_neg gi s = none) :
    GRAD_REVERSE_TAPE_SIZE ≤ s.current_id := by
  unfold grad_reverse_neg at h
  rcases hinit : grad_reverse_init (-(s.tape gi).value) s with _ | ⟨r0, s1⟩
  · exact rev_init_none hinit
  · simp only [hinit] at h
    exact absurd h (by simp)

/-- An aborted `grad_reverse_inv` means the tape was full. -/
theorem grad_reverse_inv_none {gi : ℕ} {s : RevState}
    (h : grad_reverse_inv gi s = none) :
    GRAD_REVERSE_TAPE_SIZE ≤ s.current_id := by
  unfold grad_reverse_inv at h
  rcases hinit : grad_reverse_init (1 / (s.tape gi).value) s with _ | ⟨r0, s1⟩
  · exact rev_init_none hinit
  · simp only [hinit] at h
    exact absurd h (by simp)

/-- An aborted `grad_reverse_sin` means the tape was full. -/
theorem grad_reverse_sin_none {gi : ℕ} {s : RevState}
    (h : grad_reverse_sin gi s = none) :
    GRAD_REVERSE_TAPE_SIZE ≤ s.current_id := by
  unfold grad_reverse_sin at h
  rcases hinit : grad_reverse_init (Real.sin (s.tape gi).value) s with _ | ⟨r0, s1⟩
  · exact rev_init_none hinit
  · simp only [hinit] at h
    exact absurd h (by simp)

/-- An aborted `grad_reverse_cos` means the tape was full. -/
theorem grad_reverse_cos_none {gi : ℕ} {s : RevState}
    (h : grad_reverse_cos gi s = none) :
    GRAD_REVERSE_TAPE_SIZE ≤ s.current_id := by
  unfold grad_reverse_cos at h
  rcases hinit : grad_reverse_init (Real.cos (s.tape gi).value) s with _ | ⟨r0, s1⟩
  · exact rev_init_none hinit
  · simp only [hinit] at h
    exact absurd h (by simp)

/-- An aborted `grad_reverse_exp` means the tape was full. -/
theorem grad_reverse_exp_none {gi : ℕ} {s : RevState}
    (h : grad_reverse_exp gi s = none) :
    GRAD_REVERSE_TAPE_SIZE ≤ s.current_id := by
  unfold grad_reverse_exp at h
  rcases hinit : grad_reverse_init (Real.exp (s.tape gi).value) s with _ | ⟨r0, s1⟩
  · exact rev_init_none hinit
  · simp only [hinit] at h
    exact absurd h (by simp)

/-- An aborted `grad_reverse_log` means the tape was full. -/
theorem grad_reverse_log_none {gi : ℕ} {s : RevState}
    (h : grad_reverse_log gi s = none) :
    GRAD_REVERSE_TAPE_SIZE ≤ s.current_id := by
  unfold grad_reverse_log at h
  rcases hinit : grad_reverse_init (Real.log (s.tape gi).value) s with _ | ⟨r0, s1⟩
  · exact rev_init_none hinit
  · simp only [hinit] at h
    exact absurd h (by simp)

/-- An aborted `grad_reverse_sub` means there was no room for two nodes. -/
theorem grad_reverse_sub_none {li ri : ℕ} {s : RevState}
    (h : grad_reverse_sub li ri s = none) :
    GRAD_REVERSE_TAPE_SIZE ≤ s.current_id + 1 := by
  unfold grad_reverse_sub at h
  rcases hx : grad_reverse_neg ri s with _ | ⟨nr, s1⟩
  · have := grad_reverse_neg_none hx
    omega
  · simp only [hx] at h
    have hnx := hx
    unfold grad_reverse_neg at hnx
    obtain ⟨-, -, hcnt1, -⟩ := rev_unary_char hnx
    have := grad_reverse_add_none h
    omega

/-- A successful `grad_reverse_sub` had room for both recorded nodes. -/
theorem grad_reverse_sub_some {li ri : ℕ} {s s₃ : RevState} {r : ℕ}
    (h : grad_reverse_sub li ri s = some (r, s₃)) :
    s.current_id + 1 < GRAD_REVERSE_TAPE_SIZE := by
  unfold grad_reverse_sub at h
  rcases hx : grad_reverse_neg ri s with _ | ⟨nr, s1⟩
  · simp only [hx] at h
    exact absurd h (by simp)
  · simp only [hx] at h
    have hnx := hx
    unfold grad_reverse_neg at hnx
    obtain ⟨-, -, hcnt1, -⟩ := rev_unary_char hnx
    have hax := h
    unfold grad_reverse_add at hax
    obtain ⟨hcap, -⟩ := rev_binary_char hax
    omega

/-- An aborted `grad_reverse_div` means there was no room for two nodes. -/
theorem grad_reverse_div_none {li ri : ℕ} {s : RevState}
    (h : grad_reverse_div li ri s = none) :
    GRAD_REVERSE_TAPE_SIZE ≤ s.current_id + 1 := by
  unfold grad_reverse_div at h
  rcases hx : grad_reverse_inv ri s with _ | ⟨nr, s1⟩
  · have := grad_reverse_inv_none hx
    omega
  · simp only [hx] at h
    have hnx := hx
    unfold grad_reverse_inv at hnx
    obtain ⟨-, -, hcnt1, -⟩ := rev_unary_char hnx
    have := grad_reverse_mul_none h
    omega

/-- A successful `grad_reverse_div` had room for both recorded nodes. -/
theorem grad_reverse_div_some {li ri : ℕ} {s s₃ : RevState} {r : ℕ}
    (h : grad_reverse_div li ri s = some (r, s₃)) :
    s.current_id + 1 < GRAD_REVERSE_TAPE_SIZE := by
  unfold grad_reverse_div at h
  rcases hx : grad_reverse_inv ri s with _ | ⟨nr, s1⟩
  · simp only [hx] at h
    exact absurd h (by simp)
  · simp only [hx] at h
    have hnx := hx
    unfold grad_reverse_inv at hnx
    obtain ⟨-, -, hcnt1, -⟩ := rev_unary_char hnx
    have hax := h
    unfold grad_reverse_mul at hax
    obtain ⟨hcap, -⟩ := rev_binary_char hax
    omega

/-- Running one reverse-engine program from two observably-agreeing states
with in-range pointer lists gives observably equivalent outcomes. -/
theorem revRun_obsEq (prog : List RInstr) :
    ∀ (s1 s2 : RevState) (refs : List ℕ),
      AgreeLive s1 s2 →
      (∀ r ∈ refs, r < s1.current_id) →
      TapeInv s1.shapes s1.current_id →
      TapeInv s2.shapes s2.current_id →
      ObsEq (revRun prog s1 refs) (revRun prog s2 refs) := by
  induction prog with
  | nil =>
      intro s1 s2 refs hag hrefs hinv1 hinv2
      exact ⟨rfl, hag⟩
  | cons ins rest ih =>
      intro s1 s2 refs hag hrefs hinv1 hinv2
      cases ins with
      | init v =>
          rcases h1 : grad_reverse_init v s1 with _ | ⟨r1, s1x⟩
          · rcases h2 : grad_reverse_init v s2 with _ | ⟨r2, s2x⟩
            · simp only [revRun, revStepI, h1, h2]
              trivial
            · have hn := rev_init_none h1
              obtain ⟨hcap2, -⟩ := rev_init_char h2
              rw [hag.1] at hn
              omega
          have h1c := rev_init_char h1
          obtain ⟨hcap1, hr1, hcnt1, hold1, hv1, hd1, ho1⟩ := h1c
          rcases h2 : grad_reverse_init v s2 with _ | ⟨r2, s2x⟩
          · have hn := rev_init_none h2
            rw [← hag.1] at hn
            omega
          obtain ⟨hcap2, hr2, hcnt2, hold2, hv2, hd2, ho2⟩ := rev_init_char h2
          simp only [revRun, revStepI, h1, h2]
          have hreq : r2 = r1 := by rw [hr1, hr2, hag.1]
          rw [hreq]
          have hagx : AgreeLive s1x s2x :=
            agreeLive_extend hag hcnt1 hcnt2 hold1 hold2
              (by rw [hv1, hv2]) (by rw [hd1, hd2]) (by rw [ho1, ho2])
              (fun hne => absurd ho1 hne)
              (fun hor => by rcases hor with hc | hc <;> rw [ho1] at hc <;> contradiction)
          refine ih s1x s2x (refs ++ [r1]) hagx ?_ ?_ ?_
          · intro r hr
            rw [hcnt1]
            rcases List.mem_append.mp hr with hr | hr
            · have := hrefs r hr
              omega
            · simp at hr
              omega
          · exact (revStep_props (RevStep.init v r1 s1 s1x h1)).2.2.2 hinv1
          · exact (revStep_props (RevStep.init v r2 s2 s2x h2)).2.2.2 hinv2
      | add a b =>
          rcases hla : refs[a]? with _ | ra
          · simp only [revRun, revStepI, hla]
            trivial
          rcases hlb : refs[b]? with _ | rb
          · simp only [revRun, revStepI, hla, hlb]
            trivial
          have hra : ra < s1.current_id := hrefs ra (List.getElem?_mem hla)
          have hrb : rb < s1.current_id := hrefs rb (List.getElem?_mem hlb)
          rcases h1 : grad_reverse_add ra rb s1 with _ | ⟨r1, s1x⟩
          · rcases h2 : grad_reverse_add ra rb s2 with _ | ⟨r2, s2x⟩
            · simp only [revRun, revStepI, hla, hlb, h1, h2]
              trivial
            · have hn := grad_reverse_add_none h1
              have h2x := h2
              unfold grad_reverse_add at h2x
              obtain ⟨hcap2, -⟩ := rev_binary_char h2x
              rw [hag.1] at hn
              omega
          have h1x := h1
          unfold grad_reverse_add at h1x
          obtain ⟨hcap1, hr1, hcnt1, hold1, hv1, hd1, ho1, hl1, hrr1⟩ := rev_binary_char h1x
          rcases h2 : grad_reverse_add ra rb s2 with _ | ⟨r2, s2x⟩
          · have hn := grad_reverse_add_none h2
            rw [← hag.1] at hn
            omega
          have h2x := h2
          unfold grad_reverse_add at h2x
          obtain ⟨hcap2, hr2, hcnt2, hold2, hv2, hd2, ho2, hl2, hrr2⟩ := rev_binary_char h2x
          simp only [revRun, revStepI, hla, hlb, h1, h2]
          have hreq : r2 = r1 := by rw [hr1, hr2, hag.1]
          rw [hreq]
          have hagx : AgreeLive s1x s2x :=
            agreeLive_extend hag hcnt1 hcnt2 hold1 hold2
              (by rw [hv1, hv2, (hag.2 ra hra).1, (hag.2 rb hrb).1])
              (by rw [hd1, hd2]) (by rw [ho1, ho2])
              (fun hne => by rw [hl1, hl2])
              (fun hor => by rw [hrr1, hrr2])
          refine ih s1x s2x (refs ++ [r1]) hagx ?_ ?_ ?_
          · intro r hr
            rw [hcnt1]
            rcases List.mem_append.mp hr with hr | hr
            · have := hrefs r hr
              omega
            · simp at hr
              omega
          · exact (revStep_props (RevStep.add ra rb r1 s1 s1x hra hrb h1)).2.2.2 hinv1
          · exact (revStep_props (RevStep.add ra rb r2 s2 s2x
              (by rw [← hag.1]; exact hra) (by rw [← hag.1]; exact hrb) h2)).2.2.2 hinv2
      | mul a b =>
          rcases hla : refs[a]? with _ | ra
          · simp only [revRun, revStepI, hla]
            trivial
          rcases hlb : refs[b]? with _ | rb
          · simp only [revRun, revStepI, hla, hlb]
            trivial
          have hra : ra < s1.current_id := hrefs ra (List.getElem?_mem hla)
          have hrb : rb < s1.current_id := hrefs rb (List.getElem?_mem hlb)
          rcases h1 : grad_reverse_mul ra rb s1 with _ | ⟨r1, s1x⟩
          · rcases h2 : grad_reverse_mul ra rb s2 with _ | ⟨r2, s2x⟩
            · simp only [revRun, revStepI, hla, hlb, h1, h2]
              trivial
            · have hn := grad_reverse_mul_none h1
              have h2x := h2
              unfold grad_reverse_mul at h2x
              obtain ⟨hcap2, -⟩ := rev_binary_char h2x
              rw [hag.1] at hn
              omega
          have h1x := h1
          unfold grad_reverse_mul at h1x
          obtain ⟨hcap1, hr1, hcnt1, hold1, hv1, hd1, ho1, hl1, hrr1⟩ := rev_binary_char h1x
          rcases h2 : grad_reverse_mul ra rb s2 with _ | ⟨r2, s2x⟩
          · have hn := grad_reverse_mul_none h2
            rw [← hag.1] at hn
            omega
          have h2x := h2
          unfold grad_reverse_mul at h2x
          obtain ⟨hcap2, hr2, hcnt2, hold2, hv2, hd2, ho2, hl2, hrr2⟩ := rev_binary_char h2x
          simp only [revRun, revStepI, hla, hlb, h1, h2]
          have hreq : r2 = r1 := by rw [hr1, hr2, hag.1]
          rw [hreq]
          have hagx : AgreeLive s1x s2x :=
            agreeLive_extend hag hcnt1 hcnt2 hold1 hold2
              (by rw [hv1, hv2, (hag.2 ra hra).1, (hag.2 rb hrb).1])
              (by rw [hd1, hd2]) (by rw [ho1, ho2])
              (fun hne => by rw [hl1, hl2])
              (fun hor => by rw [hrr1, hrr2])
          refine ih s1x s2x (refs ++ [r1]) hagx ?_ ?_ ?_
          · intro r hr
            rw [hcnt1]
            rcases List.mem_append.mp hr with hr | hr
            · have := hrefs r hr
              omega
            · simp at hr
              omega
          · exact (revStep_props (RevStep.mul ra rb r1 s1 s1x hra hrb h1)).2.2.2 hinv1
          · exact (revStep_props (RevStep.mul ra rb r2 s2 s2x
              (by rw [← hag.1]; exact hra) (by rw [← hag.1]; exact hrb) h2)).2.2.2 hinv2
      | neg a =>
          rcases hla : refs[a]? with _ | ra
          · simp only [revRun, revStepI, hla]
            trivial
          have hra : ra < s1.current_id := hrefs ra (List.getElem?_mem hla)
          rcases h1 : grad_reverse_neg ra s1 with _ | ⟨r1, s1x⟩
          · rcases h2 : grad_reverse_neg ra s2 with _ | ⟨r2, s2x⟩
            · simp only [revRun, revStepI, hla, h1, h2]
              trivial
            · have hn := grad_reverse_neg_none h1
              have h2x := h2
              unfold grad_reverse_neg at h2x
              obtain ⟨hcap2, -⟩ := rev_unary_char h2x
              rw [hag.1] at hn
              omega
          have h1x := h1
          unfold grad_reverse_neg at h1x
          obtain ⟨hcap1, hr1, hcnt1, hold1, hv1, hd1, ho1, hl1⟩ := rev_unary_char h1x
          rcases h2 : grad_reverse_neg ra s2 with _ | ⟨r2, s2x⟩
          · have hn := grad_reverse_neg_none h2
            rw [← hag.1] at hn
            omega
          have h2x := h2
          unfold grad_reverse_neg at h2x
          obtain ⟨hcap2, hr2, hcnt2, hold2, hv2, hd2, ho2, hl2⟩ := rev_unary_char h2x
          simp only [revRun, revStepI, hla, h1, h2]
          have hreq : r2 = r1 := by rw [hr1, hr2, hag.1]
          rw [hreq]
          have hagx : AgreeLive s1x s2x :=
            agreeLive_extend hag hcnt1 hcnt2 hold1 hold2
              (by rw [hv1, hv2, (hag.2 ra hra).1])
              (by rw [hd1, hd2]) (by rw [ho1, ho2])
              (fun hne => by rw [hl1, hl2])
              (fun hor => by rcases hor with hc | hc <;> rw [ho1] at hc <;> contradiction)
          refine ih s1x s2x (refs ++ [r1]) hagx ?_ ?_ ?_
          · intro r hr
            rw [hcnt1]
            rcases List.mem_append.mp hr with hr | hr
            · have := hrefs r hr
              omega
            · simp at hr
              omega
          · exact (revStep_props (RevStep.neg ra r1 s1 s1x hra h1)).2.2.2 hinv1
          · exact (revStep_props (RevStep.neg ra r2 s2 s2x
              (by rw [← hag.1]; exact hra) h2)).2.2.2 hinv2
      | inv a =>
          rcases hla : refs[a]? with _ | ra
          · simp only [revRun, revStepI, hla]
            trivial
          have hra : ra < s1.current_id := hrefs ra (List.getElem?_mem hla)
          rcases h1 : grad_reverse_inv ra s1 with _ | ⟨r1, s1x⟩
          · rcases h2 : grad_reverse_inv ra s2 with _ | ⟨r2, s2x⟩
            · simp only [revRun, revStepI, hla, h1, h2]
              trivial
            · have hn := grad_reverse_inv_none h1
              have h2x := h2
              unfold grad_reverse_inv at h2x
              obtain ⟨hcap2, -⟩ := rev_unary_char h2x
              rw [hag.1] at hn
              omega
          have h1x := h1
          unfold grad_reverse_inv at h1x
          obtain ⟨hcap1, hr1, hcnt1, hold1, hv1, hd1, ho1, hl1⟩ := rev_unary_char h1x
          rcases h2 : grad_reverse_inv ra s2 with _ | ⟨r2, s2x⟩
          · have hn := grad_reverse_inv_none h2
            rw [← hag.1] at hn
            omega
          have h2x := h2
          unfold grad_reverse_inv at h2x
          obtain ⟨hcap2, hr2, hcnt2, hold2, hv2, hd2, ho2, hl2⟩ := rev_unary_char h2x
          simp only [revRun, revStepI, hla, h1, h2]
          have hreq : r2 = r1 := by rw [hr1, hr2, hag.1]
          rw [hreq]
          have hagx : AgreeLive s1x s2x :=
            agreeLive_extend hag hcnt1 hcnt2 hold1 hold2
              (by rw [hv1, hv2, (hag.2 ra hra).1])
              (by rw [hd1, hd2]) (by rw [ho1, ho2])
              (fun hne => by rw [hl1, hl2])
              (fun hor => by rcases hor with hc | hc <;> rw [ho1] at hc <;> contradiction)
          refine ih s1x s2x (refs ++ [r1]) hagx ?_ ?_ ?_
          · intro r hr
            rw [hcnt1]
            rcases List.mem_append.mp hr with hr | hr
            · have := hrefs r hr
              omega
            · simp at hr
              omega
          · exact (revStep_props (RevStep.inv ra r1 s1 s1x hra h1)).2.2.2 hinv1
          · exact (revStep_props (RevStep.inv ra r2 s2 s2x
              (by rw [← hag.1]; exact hra) h2)).2.2.2 hinv2
      | sub a b =>
          rcases hla : refs[a]? with _ | ra
          · simp only [revRun, revStepI, hla]
            trivial
          rcases hlb : refs[b]? with _ | rb
          · simp only [revRun, revStepI, hla, hlb]
            trivial
          have hra : ra < s1.current_id := hrefs ra (List.getElem?_mem hla)
          have hrb : rb < s1.current_id := hrefs rb (List.getElem?_mem hlb)
          rcases h1 : grad_reverse_sub ra rb s1 with _ | ⟨r1, s1x⟩
          · rcases h2 : grad_reverse_sub ra rb s2 with _ | ⟨r2, s2x⟩
            · simp only [revRun, revStepI, hla, hlb, h1, h2]
              trivial
            · have hn := grad_reverse_sub_none h1
              have hs := grad_reverse_sub_some h2
              rw [hag.1] at hn
              omega
          rcases h2 : grad_reverse_sub ra rb s2 with _ | ⟨r2, s2x⟩
          · have hn := grad_reverse_sub_none h2
            have hs := grad_reverse_sub_some h1
            rw [← hag.1] at hn
            omega
          have h1x := h1
          unfold grad_reverse_sub at h1x
          rcases hn1 : grad_reverse_neg rb s1 with _ | ⟨nr1, s1m⟩
          · simp only [hn1] at h1x
            exact absurd h1x (by simp)
          simp only [hn1] at h1x
          have h2x := h2
          unfold grad_reverse_sub at h2x
          rcases hn2 : grad_reverse_neg rb s2 with _ | ⟨nr2, s2m⟩
          · simp only [hn2] at h2x
            exact absurd h2x (by simp)
          simp only [hn2] at h2x
          have hn1x := hn1
          unfold grad_reverse_neg at hn1x
          obtain ⟨ncap1, hnr1, ncnt1, nold1, nv1, nd1, no1, nl1⟩ := rev_unary_char hn1x
          have hn2x := hn2
          unfold grad_reverse_neg at hn2x
          obtain ⟨ncap2, hnr2, ncnt2, nold2, nv2, nd2, no2, nl2⟩ := rev_unary_char hn2x
          have ha1x := h1x
          unfold grad_reverse_add at ha1x
          obtain ⟨acap1, har1, acnt1, aold1, av1, ad1, ao1, al1, arr1⟩ := rev_binary_char ha1x
          have ha2x := h2x
          unfold grad_reverse_add at ha2x
          obtain ⟨acap2, har2, acnt2, aold2, av2, ad2, ao2, al2, arr2⟩ := rev_binary_char ha2x
          have hnreq : nr2 = nr1 := by rw [hnr1, hnr2, hag.1]
          have hagm : AgreeLive s1m s2m :=
            agreeLive_extend hag ncnt1 ncnt2 nold1 nold2
              (by rw [nv1, nv2, (hag.2 rb hrb).1])
              (by rw [nd1, nd2]) (by rw [no1, no2])
              (fun hne => by rw [nl1, nl2])
              (fun hor => by rcases hor with hc | hc <;> rw [no1] at hc <;> contradiction)
          have hagx : AgreeLive s1x s2x :=
            agreeLive_extend hagm acnt1 acnt2 aold1 aold2
              (by rw [av1, av2, hnreq, (hagm.2 ra (by omega)).1, (hagm.2 nr1 (by omega)).1])
              (by rw [ad1, ad2]) (by rw [ao1, ao2])
              (fun hne => by rw [al1, al2])
              (fun hor => by rw [arr1, arr2, hnreq])
          simp only [revRun, revStepI, hla, hlb, h1, h2]
          have hreq : r2 = r1 := by rw [har2, har1]; exact hagm.1.symm
          rw [hreq]
          refine ih s1x s2x (refs ++ [r1]) hagx ?_ ?_ ?_
          · intro r hr
            rw [acnt1, ncnt1]
            rcases List.mem_append.mp hr with hr | hr
            · have := hrefs r hr
              omega
            · simp at hr
              omega
          · exact (revStep_props (RevStep.sub ra rb r1 s1 s1x hra hrb h1)).2.2.2 hinv1
          · exact (revStep_props (RevStep.sub ra rb r2 s2 s2x
              (by rw [← hag.1]; exact hra) (by rw [← hag.1]; exact hrb) h2)).2.2.2 hinv2
      | div a b =>
          rcases hla : refs[a]? with _ | ra
          · simp only [revRun, revStepI, hla]
            trivial
          rcases hlb : refs[b]? with _ | rb
          · simp only [revRun, revStepI, hla, hlb]
            trivial
          have hra : ra < s1.current_id := hrefs ra (List.getElem?_mem hla)
          have hrb : rb < s1.current_id := hrefs rb (List.getElem?_mem hlb)
          rcases h1 : grad_reverse_div ra rb s1 with _ | ⟨r1, s1x⟩
          · rcases h2 : grad_reverse_div ra rb s2 with _ | ⟨r2, s2x⟩
            · simp only [revRun, revStepI, hla, hlb, h1, h2]
              trivial
            · have hn := grad_reverse_div_none h1
              have hs := grad_reverse_div_some h2
              rw [hag.1] at hn
              omega
          rcases h2 : grad_reverse_div ra rb s2 with _ | ⟨r2, s2x⟩
          · have hn := grad_reverse_div_none h2
            have hs := grad_reverse_div_some h1
            rw [← hag.1] at hn
            omega
          have h1x := h1
          unfold grad_reverse_div at h1x
          rcases hn1 : grad_reverse_inv rb s1 with _ | ⟨nr1, s1m⟩
          · simp only [hn1] at h1x
            exact absurd h1x (by simp)
          simp only [hn1] at h1x
          have h2x := h2
          unfold grad_reverse_div at h2x
          rcases hn2 : grad_reverse_inv rb s2 with _ | ⟨nr2, s2m⟩
          · simp only [hn2] at h2x
            exact absurd h2x (by simp)
          simp only [hn2] at h2x
          have hn1x := hn1
          unfold grad_reverse_inv at hn1x
          obtain ⟨ncap1, hnr1, ncnt1, nold1, nv1, nd1, no1, nl1⟩ := rev_unary_char hn1x
          have hn2x := hn2
          unfold grad_reverse_inv at hn2x
          obtain ⟨ncap2, hnr2, ncnt2, nold2, nv2, nd2, no2, nl2⟩ := rev_unary_char hn2x
          have ha1x := h1x
          unfold grad_reverse_mul at ha1x
          obtain ⟨acap1, har1, acnt1, aold1, av1, ad1, ao1, al1, arr1⟩ := rev_binary_char ha1x
          have ha2x := h2x
          unfold grad_reverse_mul at ha2x
          obtain ⟨acap2, har2, acnt2, aold2, av2, ad2, ao2, al2, arr2⟩ := rev_binary_char ha2x
          have hnreq : nr2 = nr1 := by rw [hnr1, hnr2, hag.1]
          have hagm : AgreeLive s1m s2m :=
            agreeLive_extend hag ncnt1 ncnt2 nold1 nold2
              (by rw [nv1, nv2, (hag.2 rb hrb).1])
              (by rw [nd1, nd2]) (by rw [no1, no2])
              (fun hne => by rw [nl1, nl2])
              (fun hor => by rcases hor with hc | hc <;> rw [no1] at hc <;> contradiction)
          have hagx : AgreeLive s1x s2x :=
            agreeLive_extend hagm acnt1 acnt2 aold1 aold2
              (by rw [av1, av2, hnreq, (hagm.2 ra (by omega)).1, (hagm.2 nr1 (by omega)).1])
              (by rw [ad1, ad2]) (by rw [ao1, ao2])
              (fun hne => by rw [al1, al2])
              (fun hor => by rw [arr1, arr2, hnreq])
          simp only [revRun, revStepI, hla, hlb, h1, h2]
          have hreq : r2 = r1 := by rw [har2, har1]; exact hagm.1.symm
          rw [hreq]
          refine ih s1x s2x (refs ++ [r1]) hagx ?_ ?_ ?_
          · intro r hr
            rw [acnt1, ncnt1]
            rcases List.mem_append.mp hr with hr | hr
            · have := hrefs r hr
              omega
            · simp at hr
              omega
          · exact (revStep_props (RevStep.div ra rb r1 s1 s1x hra hrb h1)).2.2.2 hinv1
          · exact (revStep_props (RevStep.div ra rb r2 s2 s2x
              (by rw [← hag.1]; exact hra) (by rw [← hag.1]; exact hrb) h2)).2.2.2 hinv2
      | sin a =>
          rcases hla : refs[a]? with _ | ra
          · simp only [revRun, revStepI, hla]
            trivial
          have hra : ra < s1.current_id := hrefs ra (List.getElem?_mem hla)
          rcases h1 : grad_reverse_sin ra s1 with _ | ⟨r1, s1x⟩
          · rcases h2 : grad_reverse_sin ra s2 with _ | ⟨r2, s2x⟩
            · simp only [revRun, revStepI, hla, h1, h2]
              trivial
            · have hn := grad_reverse_sin_none h1
              have h2x := h2
              unfold grad_reverse_sin at h2x
              obtain ⟨hcap2, -⟩ := rev_unary_char h2x
              rw [hag.1] at hn
              omega
          have h1x := h1
          unfold grad_reverse_sin at h1x
          obtain ⟨hcap1, hr1, hcnt1, hold1, hv1, hd1, ho1, hl1⟩ := rev_unary_char h1x
          rcases h2 : grad_reverse_sin ra s2 with _ | ⟨r2, s2x⟩
          · have hn := grad_reverse_sin_none h2
            rw [← hag.1] at hn
            omega
          have h2x := h2
          unfold grad_reverse_sin at h2x
          obtain ⟨hcap2, hr2, hcnt2, hold2, hv2, hd2, ho2, hl2⟩ := rev_unary_char h2x
          simp only [revRun, revStepI, hla, h1, h2]
          have hreq : r2 = r1 := by rw [hr1, hr2, hag.1]
          rw [hreq]
          have hagx : AgreeLive s1x s2x :=
            agreeLive_extend hag hcnt1 hcnt2 hold1 hold2
              (by rw [hv1, hv2, (hag.2 ra hra).1])
              (by rw [hd1, hd2]) (by rw [ho1, ho2])
              (fun hne => by rw [hl1, hl2])
              (fun hor => by rcases hor with hc | hc <;> rw [ho1] at hc <;> contradiction)
          refine ih s1x s2x (refs ++ [r1]) hagx ?_ ?_ ?_
          · intro r hr
            rw [hcnt1]
            rcases List.mem_append.mp hr with hr | hr
            · have := hrefs r hr
              omega
            · simp at hr
              omega
          · exact (revStep_props (RevStep.sin ra r1 s1 s1x hra h1)).2.2.2 hinv1
          · exact (revStep_props (RevStep.sin ra r2 s2 s2x
              (by rw [← hag.1]; exact hra) h2)).2.2.2 hinv2
      | cos a =>
          rcases hla : refs[a]? with _ | ra
          · simp only [revRun, revStepI, hla]
            trivial
          have hra : ra < s1.current_id := hrefs ra (List.getElem?_mem hla)
          rcases h1 : grad_reverse_cos ra s1 with _ | ⟨r1, s1x⟩
          · rcases h2 : grad_reverse_cos ra s2 with _ | ⟨r2, s2x⟩
            · simp only [revRun, revStepI, hla, h1, h2]
              trivial
            · have hn := grad_reverse_cos_none h1
              have h2x := h2
              unfold grad_reverse_cos at h2x
              obtain ⟨hcap2, -⟩ := rev_unary_char h2x
              rw [hag.1] at hn
              omega
          have h1x := h1
          unfold grad_reverse_cos at h1x
          obtain ⟨hcap1, hr1, hcnt1, hold1, hv1, hd1, ho1, hl1⟩ := rev_unary_char h1x
          rcases h2 : grad_reverse_cos ra s2 with _ | ⟨r2, s2x⟩
          · have hn := grad_reverse_cos_none h2
            rw [← hag.1] at hn
            omega
          have h2x := h2
          unfold grad_reverse_cos at h2x
          obtain ⟨hcap2, hr2, hcnt2, hold2, hv2, hd2, ho2, hl2⟩ := rev_unary_char h2x
          simp only [revRun, revStepI, hla, h1, h2]
          have hreq : r2 = r1 := by rw [hr1, hr2, hag.1]
          rw [hreq]
          have hagx : AgreeLive s1x s2x :=
            agreeLive_extend hag hcnt1 hcnt2 hold1 hold2
              (by rw [hv1, hv2, (hag.2 ra hra).1])
              (by rw [hd1, hd2]) (by rw [ho1, ho2])
              (fun hne => by rw [hl1, hl2])
              (fun hor => by rcases hor with hc | hc <;> rw [ho1] at hc <;> contradiction)
          refine ih s1x s2x (refs ++ [r1]) hagx ?_ ?_ ?_
          · intro r hr
            rw [hcnt1]
            rcases List.mem_append.mp hr with hr | hr
            · have := hrefs r hr
              omega
            · simp at hr
              omega
          · exact (revStep_props (RevStep.cos ra r1 s1 s1x hra h1)).2.2.2 hinv1
          · exact (revStep_props (RevStep.cos ra r2 s2 s2x
              (by rw [← hag.1]; exact hra) h2)).2.2.2 hinv2
      | exp a =>
          rcases hla : refs[a]? with _ | ra
          · simp only [revRun, revStepI, hla]
            trivial
          have hra : ra < s1.current_id := hrefs ra (List.getElem?_mem hla)
          rcases h1 : grad_reverse_exp ra s1 with _ | ⟨r1, s1x⟩
          · rcases h2 : grad_reverse_exp ra s2 with _ | ⟨r2, s2x⟩
            · simp only [revRun, revStepI, hla, h1, h2]
              trivial
            · have hn := grad_reverse_exp_none h1
              have h2x := h2
              unfold grad_reverse_exp at h2x
              obtain ⟨hcap2, -⟩ := rev_unary_char h2x
              rw [hag.1] at hn
              omega
          have h1x := h1
          unfold grad_reverse_exp at h1x
          obtain ⟨hcap1, hr1, hcnt1, hold1, hv1, hd1, ho1, hl1⟩ := rev_unary_char h1x
          rcases h2 : grad_reverse_exp ra s2 with _ | ⟨r2, s2x⟩
          · have hn := grad_reverse_exp_none h2
            rw [← hag.1] at hn
            omega
          have h2x := h2
          unfold grad_reverse_exp at h2x
          obtain ⟨hcap2, hr2, hcnt2, hold2, hv2, hd2, ho2, hl2⟩ := rev_unary_char h2x
          simp only [revRun, revStepI, hla, h1, h2]
          have hreq : r2 = r1 := by rw [hr1, hr2, hag.1]
          rw [hreq]
          have hagx : AgreeLive s1x s2x :=
            agreeLive_extend hag hcnt1 hcnt2 hold1 hold2
              (by rw [hv1, hv2, (hag.2 ra hra).1])
              (by rw [hd1, hd2]) (by rw [ho1, ho2])
              (fun hne => by rw [hl1, hl2])
              (fun hor => by rcases hor with hc | hc <;> rw [ho1] at hc <;> contradiction)
          refine ih s1x s2x (refs ++ [r1]) hagx ?_ ?_ ?_
          · intro r hr
            rw [hcnt1]
            rcases List.mem_append.mp hr with hr | hr
            · have := hrefs r hr
              omega
            · simp at hr
              omega
          · exact (revStep_props (RevStep.exp ra r1 s1 s1x hra h1)).2.2.2 hinv1
          · exact (revStep_props (RevStep.exp ra r2 s2 s2x
              (by rw [← hag.1]; exact hra) h2)).2.2.2 hinv2
      | log a =>
          rcases hla : refs[a]? with _ | ra
          · simp only [revRun, revStepI, hla]
            trivial
          have hra : ra < s1.current_id := hrefs ra (List.getElem?_mem hla)
          rcases h1 : grad_reverse_log ra s1 with _ | ⟨r1, s1x⟩
          · rcases h2 : grad_reverse_log ra s2 with _ | ⟨r2, s2x⟩
            · simp only [revRun, revStepI, hla, h1, h2]
              trivial
            · have hn := grad_reverse_log_none h1
              have h2x := h2
              unfold grad_reverse_log at h2x
              obtain ⟨hcap2, -⟩ := rev_unary_char h2x
              rw [hag.1] at hn
              omega
          have h1x := h1
          unfold grad_reverse_log at h1x
          obtain ⟨hcap1, hr1, hcnt1, hold1, hv1, hd1, ho1, hl1⟩ := rev_unary_char h1x
          rcases h2 : grad_reverse_log ra s2 with _ | ⟨r2, s2x⟩
          · have hn := grad_reverse_log_none h2
            rw [← hag.1] at hn
            omega
          have h2x := h2
          unfold grad_reverse_log at h2x
          obtain ⟨hcap2, hr2, hcnt2, hold2, hv2, hd2, ho2, hl2⟩ := rev_unary_char h2x
          simp only [revRun, revStepI, hla, h1, h2]
          have hreq : r2 = r1 := by rw [hr1, hr2, hag.1]
          rw [hreq]
          have hagx : AgreeLive s1x s2x :=
            agreeLive_extend hag hcnt1 hcnt2 hold1 hold2
              (by rw [hv1, hv2, (hag.2 ra hra).1])
              (by rw [hd1, hd2]) (by rw [ho1, ho2])
              (fun hne => by rw [hl1, hl2])
              (fun hor => by rcases hor with hc | hc <;> rw [ho1] at hc <;> contradiction)
          refine ih s1x s2x (refs ++ [r1]) hagx ?_ ?_ ?_
          · intro r hr
            rw [hcnt1]
            rcases List.mem_append.mp hr with hr | hr
            · have := hrefs r hr
              omega
            · simp at hr
              omega
          · exact (revStep_props (RevStep.log ra r1 s1 s1x hra h1)).2.2.2 hinv1
          · exact (revStep_props (RevStep.log ra r2 s2 s2x
              (by rw [← hag.1]; exact hra) h2)).2.2.2 hinv2
      | backward a =>
          rcases hla : refs[a]? with _ | ra
          · simp only [revRun, revStepI, hla]
            trivial
          simp only [revRun, revStepI, hla]
          have hra : ra < s1.current_id := hrefs ra (List.getElem?_mem hla)
          have hagx := backward_agree hag hinv1 ra hra
          refine ih (grad_reverse_backward ra s1) (grad_reverse_backward ra s2) refs hagx ?_ ?_ ?_
          · intro r hr
            show r < s1.current_id
            exact hrefs r hr
          · show TapeInv (grad_reverse_backward ra s1).shapes s1.current_id
            have hsh1 : (grad_reverse_backward ra s1).shapes = s1.shapes :=
              funext fun k => grad_reverse_backward_shape ra s1 k
            rw [hsh1]
            exact hinv1
          · show TapeInv (grad_reverse_backward ra s2).shapes s2.current_id
            have hsh2 : (grad_reverse_backward ra s2).shapes = s2.shapes :=
              funext fun k => grad_reverse_backward_shape ra s2 k
            rw [hsh2]
            exact hinv2

/-- C8 (scope_reset_deterministic): for every operation sequence in either
engine, opening a scope with `start_scope` and running the sequence gives
the same observable results no matter what state the engine was in before
the reset: in the forward engine the two runs are literally identical, and
in the reverse engine the two runs abort together or produce the same node
pointers and agreeing live tapes (values, adjoints, operations, used
operand links) — no state observable through the results leaks across the
scope reset. -/
theorem scope_reset_deterministic :
    (∀ (prog : List FInstr) (c1 c2 : ℕ) (env : List grad_forward_t),
      fwdRun prog (grad_forward_start_scope c1) env
        = fwdRun prog (grad_forward_start_scope c2) env) ∧
    (∀ (prog : List RInstr) (s1 s2 : RevState),
      ObsEq (revRun prog (grad_reverse_start_scope s1) [])
        (revRun prog (grad_reverse_start_scope s2) [])) := by
  constructor
  · intro prog c1 c2 env
    rfl
  · intro prog s1 s2
    refine revRun_obsEq prog _ _ [] ⟨rfl, ?_⟩ ?_ ?_ ?_
    · intro k hk
      exact absurd hk (by simp [grad_reverse_start_scope])
    · intro r hr
      exact absurd hr (List.not_mem_nil r)
    · intro i hi
      exact absurd hi (by simp [grad_reverse_start_scope])
    · intro i hi
      exact absurd hi (by simp [grad_reverse_start_scope])
